import Mathlib

/-!
# Open-addressing hash table with linear probing (`hash.c`)

A shallow embedding of `src/hash.c` and a verification development over it.

Conventions of the embedding.

* `size_t` is a 64-bit unsigned integer and `unsigned int` a 32-bit one
  (LP64); every `size_t` operation that can overflow carries an explicit
  `% SIZE_MOD`.
* A key (`const char *`) is the list of the bytes of the C string, terminator
  excluded; `strcmp(a, b) == 0` is equality of the lists.
* A value (`void *`) is a natural number, `NULL` being `0`.
* The slot array `campo_t *tabla` is a list of slots; reading a slot that is
  outside the list has no defined behaviour in C and yields `none`.
* A function that may fail to return (an endless probe, undefined behaviour)
  returns an `Option`; `none` stands for "no result".
* The answers of the allocator (`malloc`, `strdup`) are an explicit input:
  a list of booleans consumed one per allocation, `true` for success; when
  the list is exhausted every further allocation succeeds. A successful
  `malloc` delivers the number of bytes it was asked for, which is the
  requested size reduced modulo `2 ^ 64`.
* The destructor `destruir_dato` is recorded by whether it is configured;
  the calls made to it are collected, in order, in the result.
-/

namespace Hash

/-! ## Constants -/

/-- The modulus of `size_t` arithmetic, `2 ^ 64`. -/
abbrev SIZE_MOD : Nat := 18446744073709551616

/-- The modulus of `unsigned int` arithmetic, `2 ^ 32`. -/
abbrev UINT_MOD : Nat := 4294967296

/-- The constant `CAPACIDAD_INICIAL` (`#define CAPACIDAD_INICIAL 29`). -/
abbrev CAPACIDAD_INICIAL : Nat := 29

/-- The constant `CAPACIDAD_MAYOR` (`#define CAPACIDAD_MAYOR 5`). -/
abbrev CAPACIDAD_MAYOR : Nat := 5

/-- The value of `(size_t)CAPACIDAD_MENOR`, with `#define CAPACIDAD_MENOR 0.75`:
the conversion of `0.75` to `size_t` truncates toward zero. -/
abbrev CAPACIDAD_MENOR_size_t : Nat := 0

/-- The constant `FACTOR_CARGA_MAX` (`#define FACTOR_CARGA_MAX 0.7`), counted in
tenths. -/
abbrev FACTOR_CARGA_MAX_DECIMAS : Nat := 7

/-- The null pointer. -/
abbrev NULL : Nat := 0

/-- The value of `sizeof(campo_t)` on LP64: two 8-byte pointers and a 4-byte
enum, padded to the alignment of a pointer. -/
abbrev sizeof_campo_t : Nat := 24

/-! ## Data model -/

/-- The `estado_t` enum. -/
inductive estado_t where
  | VACIO
  | OCUPADO
  | BORRADO
  deriving DecidableEq, Repr

/-- A key: the bytes of a C string. -/
abbrev clave_t := List Nat

/-- The `campo_t` struct: one slot of the table. `clave` is `none` for a null
pointer. -/
structure campo_t where
  clave : Option clave_t
  dato : Nat
  estado : estado_t
  deriving DecidableEq, Repr

/-- The `struct hash`. `destruir_dato` tells whether a destructor is
configured. -/
structure hash_t where
  tabla : List campo_t
  capacidad : Nat
  cantidad : Nat
  destruir_dato : Bool
  deriving DecidableEq, Repr

/-- The `struct hash_iter`. -/
structure hash_iter_t where
  hash : hash_t
  posicion_actual : Nat
  deriving DecidableEq, Repr

/-- What a mutating primitive leaves behind: the returned value, the table,
the allocator answers not yet consumed, and the calls made to the destructor
(their arguments, in order). -/
structure resultado (α : Type) where
  ret : α
  hash : hash_t
  mem : List Bool
  destruidos : List Nat
  deriving DecidableEq

/-- One allocation: its answer and the answers that remain. -/
def asignar : List Bool → Bool × List Bool
  | [] => (true, [])
  | b :: resto => (b, resto)

/-! ## The hash function -/

/-- The conversion `(size_t)key[i]` of a `char` (signed, as on x86-64): bytes
from 128 up are negative and sign-extend. -/
def char_a_size_t (c : Nat) : Nat :=
  if c % 256 < 128 then c % 256 else SIZE_MOD - 256 + c % 256

/-- The `while` loop of `fhash`. -/
def fhash_bucle : clave_t → Nat → Nat
  | [], hash => hash
  | c :: resto, hash =>
    let h1 := (hash + char_a_size_t c) % SIZE_MOD
    let h2 := (h1 + (h1 <<< 10) % SIZE_MOD) % SIZE_MOD
    let h3 := h2 ^^^ (h2 >>> 6)
    fhash_bucle resto h3

/-- The function `fhash`. A zero `largo` is a division by zero. -/
def fhash (key : clave_t) (largo : Nat) : Option Nat :=
  let h0 := fhash_bucle key 0
  let h1 := (h0 + (h0 <<< 3) % SIZE_MOD) % SIZE_MOD
  let h2 := h1 ^^^ (h1 >>> 11)
  let h3 := (h2 + (h2 <<< 15) % SIZE_MOD) % SIZE_MOD
  if largo = 0 then none else some (h3 % largo)

/-! ## Table primitives -/

/-- The function `factor_de_carga`: the quotient is computed on `size_t`
operands and only then converted to `double`, so the result is the integer
quotient. A zero capacity is a division by zero. -/
def factor_de_carga (hash : hash_t) : Option Nat :=
  if hash.capacidad = 0 then none else some (hash.cantidad / hash.capacidad)

/-- The function `inicializar_tabla`, on a freshly allocated array of
`capacidad` slots. -/
def inicializar_tabla (hash : hash_t) : hash_t :=
  { hash with tabla := List.replicate hash.capacidad ⟨none, NULL, estado_t.VACIO⟩ }

/-- The function `hash_crear`; `none` is the null pointer returned when one of
its two allocations fails. -/
def hash_crear (destruir_dato : Bool) (mem : List Bool) : Option hash_t :=
  if (asignar mem).1 = false then none
  else if (asignar (asignar mem).2).1 = false then none
  else some (inicializar_tabla ⟨[], CAPACIDAD_INICIAL, 0, destruir_dato⟩)

/-- The `while` loop of `posicion_clave`, run for at most `pasos` iterations
from `posicion`. -/
def posicion_clave_bucle (hash : hash_t) (clave : clave_t) : Nat → Nat → Option (Nat × Bool)
  | 0, _ => none
  | pasos + 1, posicion =>
    match hash.tabla[posicion]? with
    | none => none
    | some c =>
      if c.estado = estado_t.VACIO then some (posicion, false)
      else if c.estado = estado_t.OCUPADO ∧ c.clave = some clave then some (posicion, true)
      else
        let siguiente := (posicion + 1) % SIZE_MOD
        posicion_clave_bucle hash clave pasos (if siguiente = hash.capacidad then 0 else siguiente)

/-- The function `posicion_clave`: the position and the `encontrado` flag.
The loop does not change the table and walks the slots cyclically, so after
`capacidad` iterations without an exit it is back where it started and never
exits: `capacidad` iterations decide the result
(`posicion_clave_bucle_adecuado`, `posicion_clave_bucle_estable`). -/
def posicion_clave (hash : hash_t) (clave : clave_t) : Option (Nat × Bool) :=
  match fhash clave (hash.capacidad % UINT_MOD) with
  | none => none
  | some inicio => posicion_clave_bucle hash clave hash.capacidad inicio

/-- The function `hash_pertenece`. -/
def hash_pertenece (hash : hash_t) (clave : clave_t) : Option Bool :=
  match posicion_clave hash clave with
  | none => none
  | some (_, encontrado) => some encontrado

/-- The function `hash_obtener`. -/
def hash_obtener (hash : hash_t) (clave : clave_t) : Option Nat :=
  match posicion_clave hash clave with
  | none => none
  | some (posicion, encontrado) =>
    if encontrado then
      match hash.tabla[posicion]? with
      | none => none
      | some c => some c.dato
    else some NULL

/-- The function `guardar`; `copia` tells whether `strdup` succeeded. -/
def guardar (copia : Bool) (hash : hash_t) (clave : clave_t) (dato : Nat) (posicion : Nat) :
    hash_t :=
  if copia = false then hash
  else { hash with tabla := hash.tabla.set posicion ⟨some clave, dato, estado_t.OCUPADO⟩ }

/-- The loop of `hash_redimensionar` over the old slots, `g` being the
`hash_guardar` it calls (whose returned flag it ignores). A null key in an
occupied slot would be passed to `strlen`. -/
def reinsertar (g : hash_t → List Bool → clave_t → Nat → Option (resultado Bool)) :
    List campo_t → hash_t → List Bool → List Nat → Option (hash_t × List Bool × List Nat)
  | [], hash, mem, ds => some (hash, mem, ds)
  | c :: resto, hash, mem, ds =>
    if c.estado = estado_t.OCUPADO then
      match c.clave with
      | none => none
      | some k =>
        match g hash mem k c.dato with
        | none => none
        | some r => reinsertar g resto r.hash r.mem (ds ++ r.destruidos)
    else reinsertar g resto hash mem ds

/-- The body of `hash_redimensionar`, `g` being the `hash_guardar` it calls.
The size `sizeof(campo_t) * nueva_capacidad` handed to `malloc` is computed in
`size_t`, and the array delivered has room for as many slots as that size
holds. When these are fewer than `nueva_capacidad` (the product has wrapped)
`inicializar_tabla` writes past the end of the array, which has no defined
behaviour. -/
def hash_redimensionar_con (g : hash_t → List Bool → clave_t → Nat → Option (resultado Bool))
    (hash : hash_t) (nueva_capacidad : Nat) (mem : List Bool) : Option (resultado Bool) :=
  let tabla_vieja := hash.tabla
  let capacidad_vieja := hash.capacidad
  let bytes := (sizeof_campo_t * nueva_capacidad) % SIZE_MOD
  if (asignar mem).1 = false then some ⟨false, hash, (asignar mem).2, []⟩
  else if bytes / sizeof_campo_t < nueva_capacidad then none
  else
    let nuevo := inicializar_tabla { hash with capacidad := nueva_capacidad, cantidad := 0 }
    match reinsertar g (tabla_vieja.take capacidad_vieja) nuevo (asignar mem).2 [] with
    | none => none
    | some (final, mem1, ds) => some ⟨true, final, mem1, ds⟩

/-- The body of `hash_guardar`, `redim` being the `hash_redimensionar` it
calls. The test `factor_de_carga(hash) > FACTOR_CARGA_MAX` compares the
`double` of an integer quotient `q` with `0.7`; the conversion of `q` to
`double` is exact on 0 and gives at least 1 from 1 on, so the test is
`7 < 10 * q`. -/
def hash_guardar_con (redim : hash_t → Nat → List Bool → Option (resultado Bool))
    (hash : hash_t) (mem : List Bool) (clave : clave_t) (dato : Nat) :
    Option (resultado Bool) :=
  let sigue (h1 : hash_t) (mem1 : List Bool) (ds : List Nat) : Option (resultado Bool) :=
    match posicion_clave h1 clave with
    | none => none
    | some (posicion, encontrado) =>
      if encontrado then
        match h1.tabla[posicion]? with
        | none => none
        | some c =>
          some ⟨true, { h1 with tabla := h1.tabla.set posicion { c with dato := dato } }, mem1,
            ds ++ (if h1.destruir_dato then [c.dato] else [])⟩
      else
        let h2 := guardar (asignar mem1).1 h1 clave dato posicion
        some ⟨true, { h2 with cantidad := (h2.cantidad + 1) % SIZE_MOD }, (asignar mem1).2, ds⟩
  match factor_de_carga hash with
  | none => none
  | some factor =>
    if FACTOR_CARGA_MAX_DECIMAS < 10 * factor then
      match redim hash ((hash.capacidad * CAPACIDAD_MAYOR) % SIZE_MOD) mem with
      | none => none
      | some r => if r.ret = false then some ⟨false, r.hash, r.mem, r.destruidos⟩
                  else sigue r.hash r.mem r.destruidos
    else sigue hash mem []

/-- The function `hash_guardar`. It and `hash_redimensionar` call each other;
the first argument bounds how deep a resize may nest inside a resize
(`hash_guardar 0` gives no result when it has to resize). -/
def hash_guardar : Nat → hash_t → List Bool → clave_t → Nat → Option (resultado Bool)
  | 0 => hash_guardar_con (fun _ _ _ => none)
  | n + 1 => hash_guardar_con (hash_redimensionar_con (hash_guardar n))

/-- The function `hash_redimensionar`, whose calls of `hash_guardar` may nest
`n` resizes. -/
def hash_redimensionar (n : Nat) : hash_t → Nat → List Bool → Option (resultado Bool) :=
  hash_redimensionar_con (hash_guardar n)

/-- The function `hash_borrar`; the returned pointer is `NULL` when the key is
absent (or the shrink could not allocate). -/
def hash_borrar (n : Nat) (hash : hash_t) (mem : List Bool) (clave : clave_t) :
    Option (resultado Nat) :=
  let sigue (h1 : hash_t) (mem1 : List Bool) (ds : List Nat) (posicion : Nat) :
      Option (resultado Nat) :=
    match h1.tabla[posicion]? with
    | none => none
    | some c =>
      some ⟨c.dato,
        { h1 with
          tabla := h1.tabla.set posicion { c with dato := NULL, estado := estado_t.BORRADO }
          cantidad := (h1.cantidad + SIZE_MOD - 1) % SIZE_MOD },
        mem1, ds⟩
  match posicion_clave hash clave with
  | none => none
  | some (posicion, encontrado) =>
    if encontrado = false then some ⟨NULL, hash, mem, []⟩
    else if hash.cantidad = (hash.capacidad * CAPACIDAD_MENOR_size_t) % SIZE_MOD then
      match hash_redimensionar n hash (hash.capacidad / CAPACIDAD_MAYOR) mem with
      | none => none
      | some r => if r.ret = false then some ⟨NULL, r.hash, r.mem, r.destruidos⟩
                  else sigue r.hash r.mem r.destruidos posicion
    else sigue hash mem [] posicion

/-- The function `hash_cantidad`. -/
def hash_cantidad (hash : hash_t) : Nat := hash.cantidad

/-- The function `hash_destruir`: the calls it makes to the destructor. -/
def hash_destruir (hash : hash_t) : List Nat :=
  ((hash.tabla.take hash.capacidad).filter (fun c => decide (c.estado = estado_t.OCUPADO))).flatMap
    (fun c => if hash.destruir_dato then [c.dato] else [])

/-! ## Iterator primitives -/

/-- The function `hash_iter_al_final`. -/
def hash_iter_al_final (iter : hash_iter_t) : Bool :=
  decide (iter.posicion_actual = iter.hash.capacidad)

/-- The `while` loop of `iter_puede_avanzar`, run for at most `pasos`
iterations. -/
def iter_puede_avanzar_bucle : Nat → hash_iter_t → Option (Bool × hash_iter_t)
  | 0, _ => none
  | pasos + 1, iter =>
    if hash_iter_al_final iter then some (false, iter)
    else
      match iter.hash.tabla[iter.posicion_actual]? with
      | none => none
      | some c =>
        if c.estado = estado_t.OCUPADO then some (true, iter)
        else iter_puede_avanzar_bucle pasos
          { iter with posicion_actual := (iter.posicion_actual + 1) % SIZE_MOD }

/-- The function `iter_puede_avanzar`. From a cursor at most `capacidad` the
loop exits within `capacidad - posicion_actual` increments; from a cursor past
`capacidad` its first read is outside the array. -/
def iter_puede_avanzar (iter : hash_iter_t) : Option (Bool × hash_iter_t) :=
  iter_puede_avanzar_bucle (iter.hash.capacidad + 1 - iter.posicion_actual) iter

/-- The function `hash_iter_crear`; the inner `none` is the null pointer
returned when the allocation fails. -/
def hash_iter_crear (hash : hash_t) (mem : List Bool) : Option (Option hash_iter_t) :=
  if (asignar mem).1 = false then some none
  else
    match iter_puede_avanzar ⟨hash, 0⟩ with
    | none => none
    | some (puede, iter) =>
      if puede = false then some (some { iter with posicion_actual := iter.hash.capacidad })
      else some (some iter)

/-- The function `hash_iter_avanzar`. -/
def hash_iter_avanzar (iter : hash_iter_t) : Option (Bool × hash_iter_t) :=
  if hash_iter_al_final iter then some (false, iter)
  else iter_puede_avanzar { iter with posicion_actual := (iter.posicion_actual + 1) % SIZE_MOD }

/-- The function `hash_iter_ver_actual`; the inner `none` is a null pointer. -/
def hash_iter_ver_actual (iter : hash_iter_t) : Option (Option clave_t) :=
  if hash_iter_al_final iter then some none
  else
    match iter.hash.tabla[iter.posicion_actual]? with
    | none => none
    | some c => some c.clave

/-! ## Specification vocabulary -/

open estado_t

/-- The slot `c` lets the probe for `clave` pass: it is neither empty nor an
occupied slot that holds `clave`. -/
def deja_pasar (clave : clave_t) (c : campo_t) : Prop :=
  c.estado ≠ VACIO ∧ ¬ (c.estado = OCUPADO ∧ c.clave = some clave)

/-- What the probe for `clave` reads in a slot: whether it is empty, and
whether it is an occupied slot that holds `clave`. -/
def firma (clave : clave_t) (c : campo_t) : Bool × Bool :=
  (decide (c.estado = VACIO), decide (c.estado = OCUPADO ∧ c.clave = some clave))

/-- The table has the shape the code maintains: the array holds `capacidad`
slots and the capacity is a `size_t`. -/
structure Forma (h : hash_t) : Prop where
  largo : h.tabla.length = h.capacidad
  cota : h.capacidad < SIZE_MOD

/-- The number of occupied slots of a slot array. -/
def n_ocupados (t : List campo_t) : Nat :=
  t.countP (fun c => decide (c.estado = OCUPADO))

/-- The invariant of the table: its shape, a capacity that is not a multiple of
`2 ^ 32` (`posicion_clave` reduces the hash modulo the capacity truncated to
`unsigned int`), a count that is the number of occupied slots, and the probe
invariant: the probe for the key of an occupied slot ends on that slot. -/
structure Inv (h : hash_t) extends Forma h : Prop where
  modulo : h.capacidad % UINT_MOD ≠ 0
  cuenta : h.cantidad = n_ocupados h.tabla
  sondeo : ∀ (i : Nat) (c : campo_t), h.tabla[i]? = some c → c.estado = OCUPADO →
    ∃ k, c.clave = some k ∧ posicion_clave h k = some (i, true)

/-- The slot `c` is occupied and holds `k` with value `v`. -/
def guarda (c : campo_t) (k : clave_t) (v : Nat) : Prop :=
  c.estado = OCUPADO ∧ c.clave = some k ∧ c.dato = v

/-- The key `k` is held, with value `v`, by an occupied slot of the table. -/
def asociado (h : hash_t) (k : clave_t) (v : Nat) : Prop :=
  ∃ (i : Nat) (c : campo_t), h.tabla[i]? = some c ∧ c.estado = OCUPADO ∧ c.clave = some k ∧
    c.dato = v

/-- The key `k` is held by an occupied slot of the table. -/
def presente (h : hash_t) (k : clave_t) : Prop := ∃ v, asociado h k v

/-- The table has an empty slot. -/
def tiene_vacio (h : hash_t) : Prop :=
  ∃ (i : Nat) (c : campo_t), h.tabla[i]? = some c ∧ c.estado = VACIO

/-- The table has no tombstone. -/
def sin_borrados (h : hash_t) : Prop :=
  ∀ (i : Nat) (c : campo_t), h.tabla[i]? = some c → c.estado ≠ BORRADO

/-- What a successful `hash_guardar k v` does to a table `h`: it returns true,
the table keeps the invariant and its destructor, `k` now has the value `v`
and every other key what it had; an existing key keeps the count and has its
old value handed to the destructor (if one is configured), a new key raises
the count by one and makes no destructor call. -/
structure efecto_guardar (h : hash_t) (k : clave_t) (v : Nat) (r : resultado Bool) : Prop where
  ret : r.ret = true
  mem : r.mem = []
  inv : Inv r.hash
  destructor : r.hash.destruir_dato = h.destruir_dato
  asociados : ∀ k' v', asociado r.hash k' v' ↔ (k' = k ∧ v' = v) ∨ (k' ≠ k ∧ asociado h k' v')
  existente : ∀ w, asociado h k w →
    r.hash.cantidad = h.cantidad ∧ r.destruidos = if h.destruir_dato then [w] else []
  nueva : ¬ presente h k → r.hash.cantidad = h.cantidad + 1 ∧ r.destruidos = []

/-- The table has room to grow in the address space: the slot array that
`hash_guardar` asks for when the table is full, `capacidad * 5` slots of
`sizeof(campo_t)` bytes each, takes fewer than `2 ^ 64` bytes, so that the
size handed to `malloc` is not reduced modulo `2 ^ 64`. Of the capacities
`29 * 5 ^ j` whose own array takes fewer than `2 ^ 64` bytes this leaves out
`29 * 5 ^ 23` alone, an array of more than `2 ^ 62` bytes; a full table of
that capacity cannot grow (`hash_guardar_desborda`). -/
def cabe_en_memoria (h : hash_t) : Prop :=
  h.capacidad * CAPACIDAD_MAYOR * sizeof_campo_t < SIZE_MOD

/-- The tables reachable from `hash_crear` by calls of `hash_guardar` and
`hash_borrar` that return, every allocation succeeding and delivering the
slot array asked for: every table on the way has room to grow in the address
space. -/
inductive Alcanzable : hash_t → Prop where
  | crear (d : Bool) (h : hash_t) : hash_crear d [] = some h → Alcanzable h
  | guardar (h : hash_t) (n : Nat) (k : clave_t) (v : Nat) (r : resultado Bool) :
      Alcanzable h → hash_guardar n h [] k v = some r → cabe_en_memoria r.hash →
      Alcanzable r.hash
  | borrar (h : hash_t) (n : Nat) (k : clave_t) (r : resultado Nat) :
      Alcanzable h → hash_borrar n h [] k = some r → Alcanzable r.hash

/-- The freshly created table. -/
def tabla_inicial (d : Bool) : hash_t :=
  inicializar_tabla ⟨[], CAPACIDAD_INICIAL, 0, d⟩

/-- The calls `hash_guardar` of the pairs of a list, one after the other, all
allocations succeeding; the flag tells whether every call returned true. -/
def guardar_todas (n : Nat) : List (clave_t × Nat) → hash_t → Option (hash_t × Bool)
  | [], h => some (h, true)
  | (k, v) :: resto, h =>
    match hash_guardar n h [] k v with
    | none => none
    | some r =>
      match guardar_todas n resto r.hash with
      | none => none
      | some (h', ok) => some (h', r.ret && ok)

/-- The walk of a client over an iterator: while `hash_iter_al_final` is
false, read `hash_iter_ver_actual` and call `hash_iter_avanzar`; the keys
read, in order. At most `pasos` rounds. -/
def recorrer_bucle : Nat → hash_iter_t → Option (List (Option clave_t))
  | 0, _ => none
  | pasos + 1, iter =>
    if hash_iter_al_final iter then some []
    else
      match hash_iter_ver_actual iter with
      | none => none
      | some k =>
        match hash_iter_avanzar iter with
        | none => none
        | some (_, iter') =>
          match recorrer_bucle pasos iter' with
          | none => none
          | some ks => some (k :: ks)

/-- The keys a client reads walking a new iterator over the table to its
end. Every round moves the cursor forward, so `capacidad + 1` rounds reach the
end. -/
def recorrer (h : hash_t) : Option (List (Option clave_t)) :=
  match hash_iter_crear h [] with
  | none => none
  | some none => none
  | some (some iter) => recorrer_bucle (h.capacidad + 1) iter

/-- The keys of the occupied slots of a slot array, in slot order. -/
def claves_ocupadas (t : List campo_t) : List (Option clave_t) :=
  (t.filter (fun c => decide (c.estado = OCUPADO))).map (fun c => c.clave)

/-- A key for every number: its base-255 digits, each raised by one (no zero
byte), lowest first. -/
def clave_de (i : Nat) : clave_t :=
  (Nat.digits 255 i).map (fun d => d + 1)

/-- The fresh table after `hash_guardar("d", 1)`: the key hashes to slot 12. -/
def tabla_d : hash_t :=
  ⟨(List.replicate 29 ⟨none, NULL, VACIO⟩).set 12 ⟨some [100], 1, OCUPADO⟩, 29, 1, false⟩

/-- The table `tabla_d` after `hash_guardar("j", 2)`: the key hashes to slot
12 as well and is stored in slot 13. -/
def tabla_dj : hash_t :=
  ⟨((List.replicate 29 ⟨none, NULL, VACIO⟩).set 12 ⟨some [100], 1, OCUPADO⟩).set 13
    ⟨some [106], 2, OCUPADO⟩, 29, 2, false⟩

/-- The values of the occupied slots of a slot array, in slot order. -/
def datos_ocupados (t : List campo_t) : List Nat :=
  (t.filter (fun c => decide (c.estado = OCUPADO))).map (fun c => c.dato)

/-- The first `n` of the one-byte keys "a", "b", "c", ..., the key number `i`
with value `i`. -/
def claves_de_prueba (n : Nat) : List (clave_t × Nat) :=
  (List.range n).map (fun i => ([97 + i], i))

/-- The table left by `guardar_todas` on the fresh table (the fresh table
itself when it gives no result). -/
def tabla_con (kvs : List (clave_t × Nat)) : hash_t :=
  match guardar_todas 1 kvs (tabla_inicial false) with
  | some (h, _) => h
  | none => tabla_inicial false

/-- The size invariant of the table: the array holds `capacidad` slots, the
capacity is positive, and `cantidad` is the number of occupied slots. -/
structure Tamano (h : hash_t) : Prop where
  largo : h.tabla.length = h.capacidad
  positiva : 0 < h.capacidad
  cuenta : h.cantidad = n_ocupados h.tabla

/-- The number of empty slots of a slot array. -/
def n_vacios (t : List campo_t) : Nat :=
  t.countP (fun c => decide (c.estado = VACIO))

/-- The tables reachable from the table `h0` by calls of `hash_guardar` and
`hash_borrar` that return, every allocation succeeding (as in
`Alcanzable`). -/
inductive Alcanzable_desde (h0 : hash_t) : hash_t → Prop where
  | inicio : Alcanzable_desde h0 h0
  | guardar (h : hash_t) (n : Nat) (k : clave_t) (v : Nat) (r : resultado Bool) :
      Alcanzable_desde h0 h → hash_guardar n h [] k v = some r → cabe_en_memoria r.hash →
      Alcanzable_desde h0 r.hash
  | borrar (h : hash_t) (n : Nat) (k : clave_t) (r : resultado Nat) :
      Alcanzable_desde h0 h → hash_borrar n h [] k = some r → Alcanzable_desde h0 r.hash

/-- The tables reached from the table `h0` by calls that return and do not
resize, together with the number of calls of `hash_guardar` among them whose
key was not in the table. -/
inductive Sin_redimension (h0 : hash_t) : hash_t → Nat → Prop where
  | inicio : Sin_redimension h0 h0 0
  | guardar_nueva (h : hash_t) (m n : Nat) (k : clave_t) (v : Nat) (r : resultado Bool) :
      Sin_redimension h0 h m → hash_pertenece h k = some false →
      hash_guardar n h [] k v = some r → r.hash.capacidad = h.capacidad →
      Sin_redimension h0 r.hash (m + 1)
  | guardar_existente (h : hash_t) (m n : Nat) (k : clave_t) (v : Nat) (r : resultado Bool) :
      Sin_redimension h0 h m → hash_pertenece h k = some true →
      hash_guardar n h [] k v = some r → r.hash.capacidad = h.capacidad →
      Sin_redimension h0 r.hash m
  | borrar (h : hash_t) (m n : Nat) (k : clave_t) (r : resultado Nat) :
      Sin_redimension h0 h m → hash_borrar n h [] k = some r → Sin_redimension h0 r.hash m

/-- One round of `hash_guardar(k, v)` followed by `hash_borrar(k)`. -/
def ciclo (n : Nat) (k : clave_t) (v : Nat) (h : hash_t) : Option hash_t :=
  match hash_guardar n h [] k v with
  | none => none
  | some r =>
    match hash_borrar n r.hash [] k with
    | none => none
    | some r2 => some r2.hash

/-- The round `ciclo`, `veces` times over. -/
def ciclos (n : Nat) (k : clave_t) (v : Nat) : Nat → hash_t → Option hash_t
  | 0, h => some h
  | veces + 1, h =>
    match ciclo n k v h with
    | none => none
    | some h' => ciclos n k v veces h'

/-- The linear scan for `k` that starts at slot `s` and moves forward with
wrap-around reaches, after some `j` steps, the occupied slot `i` that holds
`k`, and none of the slots it visited before is empty. -/
def sondeo_alcanza (h : hash_t) (k : clave_t) (s i : Nat) : Prop :=
  ∃ j, j < h.capacidad ∧ (s + j) % h.capacidad = i ∧
    (∃ c, h.tabla[i]? = some c ∧ c.estado = OCUPADO ∧ c.clave = some k) ∧
    ∀ j', j' < j → ∃ c, h.tabla[(s + j') % h.capacidad]? = some c ∧ c.estado ≠ VACIO

/-- The capacity is `29 * 5 ^ j`, and it has grown from `29 * 5 ^ (j - 1)`
only for a count above that. -/
def Escalon (h : hash_t) : Prop :=
  ∃ j, h.capacidad = CAPACIDAD_INICIAL * CAPACIDAD_MAYOR ^ j ∧
    (j = 0 ∨ CAPACIDAD_INICIAL * CAPACIDAD_MAYOR ^ (j - 1) < h.cantidad)

/-- The first `n` of the keys `clave_de`, each with value 0. -/
def claves_numeradas (n : Nat) : List (clave_t × Nat) :=
  (List.range n).map (fun i => (clave_de i, 0))

/-! ## The probe -/


theorem posicion_clave_bucle_succ (h : hash_t) (k : clave_t) (n p : Nat) :
    posicion_clave_bucle h k (n + 1) p =
      match h.tabla[p]? with
      | none => none
      | some c =>
        if c.estado = VACIO then some (p, false)
        else if c.estado = OCUPADO ∧ c.clave = some k then some (p, true)
        else posicion_clave_bucle h k n
          (if (p + 1) % SIZE_MOD = h.capacidad then 0 else (p + 1) % SIZE_MOD) := by
  rfl

/-- The probe only looks at the capacity and, slot by slot, at whether the
slot is empty and whether it holds the key. -/
theorem posicion_clave_bucle_congr (h h' : hash_t) (k : clave_t)
    (hcap : h'.capacidad = h.capacidad)
    (hslots : ∀ i : Nat, (h'.tabla[i]?).map (firma k) = (h.tabla[i]?).map (firma k)) :
    ∀ n p, posicion_clave_bucle h' k n p = posicion_clave_bucle h k n p := by
  intro n
  induction n with
  | zero => intro p; rfl
  | succ n ih =>
    intro p
    rw [posicion_clave_bucle_succ, posicion_clave_bucle_succ]
    have hp := hslots p
    cases h1 : h'.tabla[p]? with
    | none =>
      rw [h1] at hp
      cases h2 : h.tabla[p]? with
      | none => rfl
      | some c => rw [h2] at hp; simp at hp
    | some c' =>
      rw [h1] at hp
      cases h2 : h.tabla[p]? with
      | none => rw [h2] at hp; simp at hp
      | some c =>
        rw [h2] at hp
        simp only [Option.map_some', Option.some.injEq, firma, Prod.mk.injEq, decide_eq_decide] at hp
        obtain ⟨hv, hm⟩ := hp
        simp only [hv, hm, hcap, ih]

/-- The result of the probe is a slot of the table: an empty one when the key
was not found, an occupied one that holds the key when it was. -/
theorem posicion_clave_bucle_resultado (h : hash_t) (k : clave_t) :
    ∀ n p q b, posicion_clave_bucle h k n p = some (q, b) →
      ∃ c, h.tabla[q]? = some c ∧ (b = false → c.estado = VACIO) ∧
        (b = true → c.estado = OCUPADO ∧ c.clave = some k) := by
  intro n
  induction n with
  | zero => intro p q b hr; simp [posicion_clave_bucle] at hr
  | succ n ih =>
    intro p q b hr
    rw [posicion_clave_bucle_succ] at hr
    cases h1 : h.tabla[p]? with
    | none => rw [h1] at hr; simp at hr
    | some c =>
      rw [h1] at hr
      simp only at hr
      by_cases hv : c.estado = VACIO
      · rw [if_pos hv] at hr
        simp only [Option.some.injEq, Prod.mk.injEq] at hr
        obtain ⟨rfl, rfl⟩ := hr
        exact ⟨c, h1, fun _ => hv, fun hb => by simp at hb⟩
      · rw [if_neg hv] at hr
        by_cases hm : c.estado = OCUPADO ∧ c.clave = some k
        · rw [if_pos hm] at hr
          simp only [Option.some.injEq, Prod.mk.injEq] at hr
          obtain ⟨rfl, rfl⟩ := hr
          exact ⟨c, h1, fun hb => by simp at hb, fun _ => hm⟩
        · rw [if_neg hm] at hr
          exact ih _ q b hr

/-- More iterations do not change a result already obtained. -/
theorem posicion_clave_bucle_estable (h : hash_t) (k : clave_t) :
    ∀ n m p r, posicion_clave_bucle h k n p = some r →
      posicion_clave_bucle h k (n + m) p = some r := by
  intro n
  induction n with
  | zero => intro m p r hr; simp [posicion_clave_bucle] at hr
  | succ n ih =>
    intro m p r hr
    have e : n + 1 + m = (n + m) + 1 := by omega
    rw [e, posicion_clave_bucle_succ]
    rw [posicion_clave_bucle_succ] at hr
    cases h1 : h.tabla[p]? with
    | none => rw [h1] at hr; simp at hr
    | some c =>
      rw [h1] at hr
      simp only at hr ⊢
      by_cases hv : c.estado = VACIO
      · rw [if_pos hv] at hr ⊢; exact hr
      · rw [if_neg hv] at hr ⊢
        by_cases hm : c.estado = OCUPADO ∧ c.clave = some k
        · rw [if_pos hm] at hr ⊢; exact hr
        · rw [if_neg hm] at hr ⊢
          exact ih m _ r hr



theorem siguiente_eq (h : hash_t) (hf : Forma h) (p : Nat) (hp : p < h.capacidad) :
    (if (p + 1) % SIZE_MOD = h.capacidad then 0 else (p + 1) % SIZE_MOD) = (p + 1) % h.capacidad := by
  have hc := hf.cota
  have e : (p + 1) % SIZE_MOD = p + 1 := Nat.mod_eq_of_lt (by omega)
  rw [e]
  by_cases hq : p + 1 = h.capacidad
  · rw [if_pos hq, hq, Nat.mod_self]
  · rw [if_neg hq, Nat.mod_eq_of_lt (by omega)]

/-- A probe that gives no result has walked only over slots that let it pass. -/
theorem posicion_clave_bucle_none (h : hash_t) (hf : Forma h) (k : clave_t) :
    ∀ n p, p < h.capacidad → posicion_clave_bucle h k n p = none →
      ∀ j, j < n → ∃ c, h.tabla[(p + j) % h.capacidad]? = some c ∧ deja_pasar k c := by
  intro n
  induction n with
  | zero => intro p _ _ j hj; omega
  | succ n ih =>
    intro p hp hr j hj
    rw [posicion_clave_bucle_succ] at hr
    have hlen : p < h.tabla.length := by rw [hf.largo]; exact hp
    rw [List.getElem?_eq_getElem hlen] at hr
    simp only at hr
    by_cases hv : (h.tabla[p]).estado = VACIO
    · rw [if_pos hv] at hr; simp at hr
    · rw [if_neg hv] at hr
      by_cases hm : (h.tabla[p]).estado = OCUPADO ∧ (h.tabla[p]).clave = some k
      · rw [if_pos hm] at hr; simp at hr
      · rw [if_neg hm, siguiente_eq h hf p hp] at hr
        cases j with
        | zero =>
          refine ⟨h.tabla[p], ?_, hv, hm⟩
          rw [Nat.add_zero, Nat.mod_eq_of_lt hp, List.getElem?_eq_getElem hlen]
        | succ j =>
          have hpos : 0 < h.capacidad := by omega
          obtain ⟨c, hc, hd⟩ := ih ((p + 1) % h.capacidad) (Nat.mod_lt _ hpos) hr j (by omega)
          refine ⟨c, ?_, hd⟩
          rw [← hc]
          congr 1
          rw [Nat.mod_add_mod, Nat.add_right_comm, Nat.add_assoc]

/-- When every slot lets the probe pass, no number of iterations gives a
result. -/
theorem posicion_clave_bucle_sin_salida (h : hash_t) (hf : Forma h) (k : clave_t)
    (hpasan : ∀ (i : Nat) (c : campo_t), h.tabla[i]? = some c → deja_pasar k c) :
    ∀ n p, p < h.capacidad → posicion_clave_bucle h k n p = none := by
  intro n
  induction n with
  | zero => intro p _; rfl
  | succ n ih =>
    intro p hp
    rw [posicion_clave_bucle_succ]
    have hlen : p < h.tabla.length := by rw [hf.largo]; exact hp
    rw [List.getElem?_eq_getElem hlen]
    have hd := hpasan p _ (List.getElem?_eq_getElem hlen)
    simp only
    rw [if_neg hd.1, if_neg hd.2, siguiente_eq h hf p hp]
    exact ih _ (Nat.mod_lt _ (by omega))

/-- A probe that gives no result within `capacidad` iterations has seen every
slot of the table, and every slot lets it pass. -/
theorem posicion_clave_bucle_none_todos (h : hash_t) (hf : Forma h) (k : clave_t) (p : Nat)
    (hp : p < h.capacidad) (hr : posicion_clave_bucle h k h.capacidad p = none) :
    ∀ (i : Nat) (c : campo_t), h.tabla[i]? = some c → deja_pasar k c := by
  intro i c hi
  have hi' : i < h.capacidad := by
    rw [← hf.largo]
    exact (List.getElem?_eq_some.mp hi).1
  obtain ⟨c', hc', hd⟩ := posicion_clave_bucle_none h hf k h.capacidad p hp hr
    ((i + h.capacidad - p) % h.capacidad) (Nat.mod_lt _ (by omega))
  have e : (p + (i + h.capacidad - p) % h.capacidad) % h.capacidad = i := by
    rw [Nat.add_mod_mod]
    have : p + (i + h.capacidad - p) = i + h.capacidad := by omega
    rw [this, Nat.add_mod_right, Nat.mod_eq_of_lt hi']
  rw [e, hi] at hc'
  cases hc'
  exact hd

/-- Adequacy of the iteration bound of `posicion_clave`: a probe without a
result after `capacidad` iterations has none after any number of them. -/
theorem posicion_clave_bucle_adecuado (h : hash_t) (hf : Forma h) (k : clave_t) (p : Nat)
    (hp : p < h.capacidad) (hr : posicion_clave_bucle h k h.capacidad p = none) :
    ∀ n, posicion_clave_bucle h k n p = none :=
  fun n => posicion_clave_bucle_sin_salida h hf k
    (posicion_clave_bucle_none_todos h hf k p hp hr) n p hp

/-- With an empty slot in the table the probe gives a result. -/
theorem posicion_clave_bucle_termina (h : hash_t) (hf : Forma h) (k : clave_t) (p : Nat)
    (hp : p < h.capacidad) (i : Nat) (c : campo_t) (hi : h.tabla[i]? = some c)
    (hv : c.estado = VACIO) :
    ∃ r, posicion_clave_bucle h k h.capacidad p = some r := by
  cases hr : posicion_clave_bucle h k h.capacidad p with
  | some r => exact ⟨r, rfl⟩
  | none => exact absurd hv (posicion_clave_bucle_none_todos h hf k p hp hr i c hi).1



theorem fhash_lt (k : clave_t) (m : Nat) (hm : m ≠ 0) : ∃ s, fhash k m = some s ∧ s < m := by
  unfold fhash
  simp only [if_neg hm]
  exact ⟨_, rfl, Nat.mod_lt _ (Nat.pos_of_ne_zero hm)⟩

/-- On a table whose capacity is not a multiple of `2 ^ 32` the probe starts
inside the table. -/
theorem inicio_lt (h : hash_t) (hmod : h.capacidad % UINT_MOD ≠ 0) (k : clave_t) :
    ∃ s, fhash k (h.capacidad % UINT_MOD) = some s ∧ s < h.capacidad := by
  obtain ⟨s, hs, hlt⟩ := fhash_lt k _ hmod
  exact ⟨s, hs, lt_of_lt_of_le hlt (Nat.mod_le _ _)⟩

theorem posicion_clave_eq (h : hash_t) (k : clave_t) (s : Nat)
    (hs : fhash k (h.capacidad % UINT_MOD) = some s) :
    posicion_clave h k = posicion_clave_bucle h k h.capacidad s := by
  unfold posicion_clave
  rw [hs]

/-- The function `posicion_clave` only looks at the capacity and at the `firma` of the
slots. -/
theorem posicion_clave_congr (h h' : hash_t) (k : clave_t)
    (hcap : h'.capacidad = h.capacidad)
    (hslots : ∀ i : Nat, (h'.tabla[i]?).map (firma k) = (h.tabla[i]?).map (firma k)) :
    posicion_clave h' k = posicion_clave h k := by
  unfold posicion_clave
  rw [hcap]
  cases fhash k (h.capacidad % UINT_MOD) with
  | none => rfl
  | some s => exact posicion_clave_bucle_congr h h' k hcap hslots _ _

theorem posicion_clave_resultado (h : hash_t) (k : clave_t) (q : Nat) (b : Bool)
    (hr : posicion_clave h k = some (q, b)) :
    ∃ c, h.tabla[q]? = some c ∧ (b = false → c.estado = VACIO) ∧
      (b = true → c.estado = OCUPADO ∧ c.clave = some k) := by
  unfold posicion_clave at hr
  cases hs : fhash k (h.capacidad % UINT_MOD) with
  | none => rw [hs] at hr; simp at hr
  | some s => rw [hs] at hr; exact posicion_clave_bucle_resultado h k _ _ q b hr

/-- Writing into an empty slot does not disturb a probe that found its key. -/
theorem posicion_clave_bucle_set_otro (h h' : hash_t) (k : clave_t) (i : Nat) (c0 c1 : campo_t)
    (hcap : h'.capacidad = h.capacidad) (ht : h'.tabla = h.tabla.set i c1)
    (hi : h.tabla[i]? = some c0) (hv : c0.estado = VACIO) :
    ∀ n p q, posicion_clave_bucle h k n p = some (q, true) →
      posicion_clave_bucle h' k n p = some (q, true) := by
  intro n
  induction n with
  | zero => intro p q hr; simp [posicion_clave_bucle] at hr
  | succ n ih =>
    intro p q hr
    rw [posicion_clave_bucle_succ] at hr ⊢
    cases h1 : h.tabla[p]? with
    | none => rw [h1] at hr; simp at hr
    | some c =>
      rw [h1] at hr
      simp only at hr
      have hne : i ≠ p := by
        rintro rfl
        rw [hi] at h1
        cases h1
        rw [if_pos hv] at hr
        simp at hr
      rw [ht, List.getElem?_set_ne hne, h1, hcap]
      simp only
      by_cases hv' : c.estado = VACIO
      · rw [if_pos hv'] at hr; simp at hr
      · rw [if_neg hv'] at hr ⊢
        by_cases hm : c.estado = OCUPADO ∧ c.clave = some k
        · rw [if_pos hm] at hr ⊢; exact hr
        · rw [if_neg hm] at hr ⊢
          exact ih _ q hr

/-- Writing the key into the empty slot where its probe ended makes the probe
find it there. -/
theorem posicion_clave_bucle_set_mismo (h h' : hash_t) (k : clave_t) (q : Nat) (c1 : campo_t)
    (hcap : h'.capacidad = h.capacidad) (ht : h'.tabla = h.tabla.set q c1)
    (hc1 : c1.estado = OCUPADO ∧ c1.clave = some k) :
    ∀ n p, posicion_clave_bucle h k n p = some (q, false) →
      posicion_clave_bucle h' k n p = some (q, true) := by
  intro n
  induction n with
  | zero => intro p hr; simp [posicion_clave_bucle] at hr
  | succ n ih =>
    intro p hr
    have hres := posicion_clave_bucle_resultado h k _ _ _ _ hr
    obtain ⟨c0, hq, hvac, _⟩ := hres
    have hvac := hvac rfl
    rw [posicion_clave_bucle_succ] at hr ⊢
    cases h1 : h.tabla[p]? with
    | none => rw [h1] at hr; simp at hr
    | some c =>
      rw [h1] at hr
      simp only at hr
      by_cases hpq : q = p
      · subst hpq
        have hlt : q < h.tabla.length := (List.getElem?_eq_some.mp h1).1
        rw [ht, List.getElem?_set_self hlt]
        simp only
        have hnv : c1.estado ≠ VACIO := by rw [hc1.1]; decide
        rw [if_neg hnv, if_pos hc1]
      · rw [ht, List.getElem?_set_ne hpq, h1, hcap]
        simp only
        by_cases hv' : c.estado = VACIO
        · rw [if_pos hv'] at hr
          simp only [Option.some.injEq, Prod.mk.injEq] at hr
          exact absurd hr.1.symm hpq
        · rw [if_neg hv'] at hr ⊢
          by_cases hm : c.estado = OCUPADO ∧ c.clave = some k
          · rw [if_pos hm] at hr; simp at hr
          · rw [if_neg hm] at hr ⊢
            exact ih _ hr

theorem posicion_clave_set_otro (h h' : hash_t) (k : clave_t) (i : Nat) (c0 c1 : campo_t)
    (hcap : h'.capacidad = h.capacidad) (ht : h'.tabla = h.tabla.set i c1)
    (hi : h.tabla[i]? = some c0) (hv : c0.estado = VACIO) (q : Nat)
    (hr : posicion_clave h k = some (q, true)) :
    posicion_clave h' k = some (q, true) := by
  unfold posicion_clave at hr ⊢
  rw [hcap]
  cases hs : fhash k (h.capacidad % UINT_MOD) with
  | none => rw [hs] at hr; simp at hr
  | some s =>
    rw [hs] at hr
    exact posicion_clave_bucle_set_otro h h' k i c0 c1 hcap ht hi hv _ _ _ hr

theorem posicion_clave_set_mismo (h h' : hash_t) (k : clave_t) (q : Nat) (c1 : campo_t)
    (hcap : h'.capacidad = h.capacidad) (ht : h'.tabla = h.tabla.set q c1)
    (hc1 : c1.estado = OCUPADO ∧ c1.clave = some k)
    (hr : posicion_clave h k = some (q, false)) :
    posicion_clave h' k = some (q, true) := by
  unfold posicion_clave at hr ⊢
  rw [hcap]
  cases hs : fhash k (h.capacidad % UINT_MOD) with
  | none => rw [hs] at hr; simp at hr
  | some s =>
    rw [hs] at hr
    exact posicion_clave_bucle_set_mismo h h' k q c1 hcap ht hc1 _ _ hr

/-- With an empty slot, `posicion_clave` gives a result for every key. -/
theorem posicion_clave_termina (h : hash_t) (hf : Forma h) (hmod : h.capacidad % UINT_MOD ≠ 0)
    (hv : tiene_vacio h) (k : clave_t) : ∃ r, posicion_clave h k = some r := by
  obtain ⟨s, hs, hlt⟩ := inicio_lt h hmod k
  obtain ⟨i, c, hi, hc⟩ := hv
  rw [posicion_clave_eq h k s hs]
  exact posicion_clave_bucle_termina h hf k s hlt i c hi hc

/-- Without an empty slot, `posicion_clave` gives no result for a key that no
occupied slot holds, however long the probe runs. -/
theorem posicion_clave_diverge (h : hash_t) (hf : Forma h) (hmod : h.capacidad % UINT_MOD ≠ 0)
    (hv : ¬ tiene_vacio h) (k : clave_t) (hk : ¬ presente h k) :
    posicion_clave h k = none ∧
      ∀ s, fhash k (h.capacidad % UINT_MOD) = some s →
        ∀ n, posicion_clave_bucle h k n s = none := by
  obtain ⟨s, hs, hlt⟩ := inicio_lt h hmod k
  have hpasan : ∀ (i : Nat) (c : campo_t), h.tabla[i]? = some c → deja_pasar k c := by
    intro i c hi
    refine ⟨fun hvac => hv ⟨i, c, hi, hvac⟩, fun hm => hk ⟨c.dato, i, c, hi, hm.1, hm.2, rfl⟩⟩
  refine ⟨?_, ?_⟩
  · rw [posicion_clave_eq h k s hs]
    exact posicion_clave_bucle_sin_salida h hf k hpasan _ s hlt
  · intro s' hs' n
    rw [hs] at hs'
    cases hs'
    exact posicion_clave_bucle_sin_salida h hf k hpasan n s hlt



/-! ### Lookups on a table that satisfies the invariant -/

theorem Inv.inicio (h : hash_t) (hinv : Inv h) (k : clave_t) :
    ∃ s, fhash k (h.capacidad % UINT_MOD) = some s ∧ s < h.capacidad :=
  inicio_lt h hinv.modulo k

/-- A key held by an occupied slot is found by `posicion_clave`, at that
slot. -/
theorem Inv.encuentra (h : hash_t) (hinv : Inv h) (k : clave_t) (i : Nat) (c : campo_t)
    (hi : h.tabla[i]? = some c) (ho : c.estado = OCUPADO) (hk : c.clave = some k) :
    posicion_clave h k = some (i, true) := by
  obtain ⟨k', hk', hp⟩ := hinv.sondeo i c hi ho
  rw [hk] at hk'
  cases hk'
  exact hp

/-- No two occupied slots hold the same key. -/
theorem Inv.unico (h : hash_t) (hinv : Inv h) (k : clave_t) (i j : Nat) (c d : campo_t)
    (hi : h.tabla[i]? = some c) (ho : c.estado = OCUPADO) (hk : c.clave = some k)
    (hj : h.tabla[j]? = some d) (ho' : d.estado = OCUPADO) (hk' : d.clave = some k) :
    i = j := by
  have h1 := hinv.encuentra h k i c hi ho hk
  have h2 := hinv.encuentra h k j d hj ho' hk'
  rw [h1] at h2
  simpa using h2

theorem asociado_iff (h : hash_t) (hinv : Inv h) (k : clave_t) (v : Nat) :
    asociado h k v ↔
      ∃ (i : Nat) (c : campo_t), posicion_clave h k = some (i, true) ∧ h.tabla[i]? = some c ∧
        c.dato = v := by
  constructor
  · rintro ⟨i, c, hi, ho, hk, hv⟩
    exact ⟨i, c, hinv.encuentra h k i c hi ho hk, hi, hv⟩
  · rintro ⟨i, c, hp, hi, hv⟩
    obtain ⟨c', hc', _, hm⟩ := posicion_clave_resultado h k i true hp
    rw [hi] at hc'
    cases hc'
    exact ⟨i, c, hi, (hm rfl).1, (hm rfl).2, hv⟩

/-- The value of a key is unique. -/
theorem asociado_unico (h : hash_t) (hinv : Inv h) (k : clave_t) (v w : Nat)
    (hv : asociado h k v) (hw : asociado h k w) : v = w := by
  obtain ⟨i, c, hi, ho, hk, rfl⟩ := hv
  obtain ⟨j, d, hj, ho', hk', rfl⟩ := hw
  have := hinv.unico h k i j c d hi ho hk hj ho' hk'
  subst this
  rw [hi] at hj
  cases hj
  rfl

theorem hash_obtener_asociado (h : hash_t) (hinv : Inv h) (k : clave_t) (v : Nat)
    (ha : asociado h k v) : hash_obtener h k = some v := by
  obtain ⟨i, c, hp, hi, hv⟩ := (asociado_iff h hinv k v).mp ha
  unfold hash_obtener
  rw [hp]
  simp only [if_true]
  rw [hi]
  simp only [hv]

theorem hash_pertenece_asociado (h : hash_t) (hinv : Inv h) (k : clave_t) (v : Nat)
    (ha : asociado h k v) : hash_pertenece h k = some true := by
  obtain ⟨i, c, hp, _, _⟩ := (asociado_iff h hinv k v).mp ha
  unfold hash_pertenece
  rw [hp]

/-- When `hash_pertenece` answers true the key is held by an occupied slot,
with the value `hash_obtener` returns. -/
theorem asociado_of_pertenece (h : hash_t) (k : clave_t)
    (hp : hash_pertenece h k = some true) :
    ∃ v, asociado h k v ∧ hash_obtener h k = some v := by
  unfold hash_pertenece at hp
  cases hr : posicion_clave h k with
  | none => rw [hr] at hp; simp at hp
  | some r =>
    obtain ⟨i, b⟩ := r
    rw [hr] at hp
    simp only [Option.some.injEq] at hp
    subst hp
    obtain ⟨c, hc, _, hm⟩ := posicion_clave_resultado h k i true hr
    refine ⟨c.dato, ⟨i, c, hc, (hm rfl).1, (hm rfl).2, rfl⟩, ?_⟩
    unfold hash_obtener
    rw [hr]
    simp only [if_true]
    rw [hc]

/-- For a key that no occupied slot holds, a probe that ends has not found
it. -/
theorem posicion_clave_ausente (h : hash_t) (k : clave_t) (hk : ¬ presente h k) (p : Nat)
    (b : Bool) (hr : posicion_clave h k = some (p, b)) : b = false := by
  cases b with
  | false => rfl
  | true =>
    obtain ⟨c, hc, _, hm⟩ := posicion_clave_resultado h k p true hr
    exact absurd ⟨c.dato, p, c, hc, (hm rfl).1, (hm rfl).2, rfl⟩ hk

theorem hash_pertenece_ausente (h : hash_t) (hinv : Inv h) (hv : tiene_vacio h) (k : clave_t)
    (hk : ¬ presente h k) : hash_pertenece h k = some false ∧ hash_obtener h k = some NULL := by
  obtain ⟨⟨p, b⟩, hr⟩ := posicion_clave_termina h hinv.toForma hinv.modulo hv k
  have hb := posicion_clave_ausente h k hk p b hr
  subst hb
  unfold hash_pertenece hash_obtener
  rw [hr]
  simp

/-! ### Counting slots -/

theorem n_ocupados_le (t : List campo_t) : n_ocupados t ≤ t.length :=
  List.countP_le_length _

theorem n_ocupados_set (t : List campo_t) (i : Nat) (c0 c1 : campo_t) (hi : t[i]? = some c0) :
    n_ocupados (t.set i c1) =
      n_ocupados t - (if c0.estado = OCUPADO then 1 else 0) +
        (if c1.estado = OCUPADO then 1 else 0) := by
  obtain ⟨hlt, hc⟩ := List.getElem?_eq_some.mp hi
  unfold n_ocupados
  rw [List.countP_set _ _ _ _ hlt, hc]
  simp only [decide_eq_true_eq]

/-- An occupied slot is counted. -/
theorem n_ocupados_pos (t : List campo_t) (i : Nat) (c : campo_t) (hi : t[i]? = some c)
    (ho : c.estado = OCUPADO) : 0 < n_ocupados t := by
  unfold n_ocupados
  rw [List.countP_pos_iff]
  obtain ⟨hlt, hc⟩ := List.getElem?_eq_some.mp hi
  exact ⟨c, hc ▸ List.getElem_mem hlt, by simp [ho]⟩

/-- A slot that is not occupied leaves the count below the length. -/
theorem n_ocupados_lt (t : List campo_t) (i : Nat) (c : campo_t) (hi : t[i]? = some c)
    (ho : c.estado ≠ OCUPADO) : n_ocupados t < t.length := by
  rcases Nat.lt_or_ge (n_ocupados t) t.length with hlt | hge
  · exact hlt
  · exfalso
    have heq : n_ocupados t = t.length := le_antisymm (n_ocupados_le t) hge
    unfold n_ocupados at heq
    rw [List.countP_eq_length] at heq
    obtain ⟨hlt, hc⟩ := List.getElem?_eq_some.mp hi
    have := heq c (hc ▸ List.getElem_mem hlt)
    simp at this
    exact ho this

/-- A table without tombstones whose count is below its capacity has an empty
slot. -/
theorem tiene_vacio_of_lt (h : hash_t) (hinv : Inv h) (hsb : sin_borrados h)
    (hlt : h.cantidad < h.capacidad) : tiene_vacio h := by
  by_contra hno
  have hall : ∀ c ∈ h.tabla, (fun c : campo_t => decide (c.estado = OCUPADO)) c = true := by
    intro c hc
    obtain ⟨i, hi, rfl⟩ := List.getElem_of_mem hc
    have hget : h.tabla[i]? = some h.tabla[i] := List.getElem?_eq_getElem hi
    have h1 := hsb i _ hget
    have h2 : (h.tabla[i]).estado ≠ VACIO := fun hv => hno ⟨i, _, hget, hv⟩
    cases hest : (h.tabla[i]).estado with
    | VACIO => exact absurd hest h2
    | OCUPADO => simp [hest]
    | BORRADO => exact absurd hest h1
  have := List.countP_eq_length.mpr hall
  have hc := hinv.cuenta
  unfold n_ocupados at hc
  rw [this, hinv.largo] at hc
  omega



/-! ### The effect of writing one slot -/

theorem asociado_set (h h' : hash_t) (p : Nat) (c0 c1 : campo_t)
    (ht : h'.tabla = h.tabla.set p c1) (hp : h.tabla[p]? = some c0) (k : clave_t) (v : Nat) :
    asociado h' k v ↔
      guarda c1 k v ∨ ∃ (i : Nat) (c : campo_t), i ≠ p ∧ h.tabla[i]? = some c ∧ guarda c k v := by
  have hlt : p < h.tabla.length := (List.getElem?_eq_some.mp hp).1
  constructor
  · rintro ⟨i, c, hi, hg⟩
    rw [ht] at hi
    by_cases hip : p = i
    · subst hip
      rw [List.getElem?_set_self hlt] at hi
      cases hi
      exact Or.inl hg
    · rw [List.getElem?_set_ne hip] at hi
      exact Or.inr ⟨i, c, fun e => hip e.symm, hi, hg⟩
  · rintro (hg | ⟨i, c, hne, hi, hg⟩)
    · exact ⟨p, c1, by rw [ht, List.getElem?_set_self hlt], hg⟩
    · exact ⟨i, c, by rw [ht, List.getElem?_set_ne (fun e => hne e.symm)]; exact hi, hg⟩

/-- Storing a new key in the empty slot where its probe ended keeps the
invariant and adds exactly that association. -/
theorem Inv.insertar (h : hash_t) (hinv : Inv h) (k : clave_t) (v p : Nat)
    (hp : posicion_clave h k = some (p, false)) (h' : hash_t)
    (ht : h'.tabla = h.tabla.set p ⟨some k, v, OCUPADO⟩) (hcap : h'.capacidad = h.capacidad)
    (hcant : h'.cantidad = (h.cantidad + 1) % SIZE_MOD) :
    Inv h' ∧ h'.cantidad = h.cantidad + 1 ∧
      ∀ k' v', asociado h' k' v' ↔ (k' = k ∧ v' = v) ∨ (k' ≠ k ∧ asociado h k' v') := by
  obtain ⟨c0, hc0, hvac, _⟩ := posicion_clave_resultado h k p false hp
  have hvac := hvac rfl
  have hno : c0.estado ≠ OCUPADO := by rw [hvac]; decide
  have hlt : p < h.tabla.length := (List.getElem?_eq_some.mp hc0).1
  have hcount : n_ocupados h'.tabla = n_ocupados h.tabla + 1 := by
    rw [ht, n_ocupados_set _ _ c0 _ hc0, if_neg hno, if_pos rfl]
    omega
  have hbound : h.cantidad + 1 < SIZE_MOD := by
    have h1 := n_ocupados_lt h.tabla p c0 hc0 hno
    have h2 := hinv.cuenta
    have h3 := hinv.largo
    have h4 := hinv.cota
    omega
  have hcant' : h'.cantidad = h.cantidad + 1 := by rw [hcant, Nat.mod_eq_of_lt hbound]
  have hausente : ¬ presente h k := by
    rintro ⟨w, i, c, hi, ho, hk, _⟩
    have := hinv.encuentra h k i c hi ho hk
    rw [hp] at this
    simp at this
  refine ⟨?_, hcant', ?_⟩
  · refine ⟨⟨?_, ?_⟩, ?_, ?_, ?_⟩
    · rw [ht, List.length_set, hinv.largo, hcap]
    · rw [hcap]; exact hinv.cota
    · rw [hcap]; exact hinv.modulo
    · rw [hcant', hcount, hinv.cuenta]
    · intro i c hi ho
      rw [ht] at hi
      by_cases hip : p = i
      · subst hip
        rw [List.getElem?_set_self hlt] at hi
        cases hi
        exact ⟨k, rfl, posicion_clave_set_mismo h h' k p _ hcap ht ⟨rfl, rfl⟩ hp⟩
      · rw [List.getElem?_set_ne hip] at hi
        obtain ⟨k', hk', hfound⟩ := hinv.sondeo i c hi ho
        exact ⟨k', hk', posicion_clave_set_otro h h' k' p c0 _ hcap ht hc0 hvac i hfound⟩
  · intro k' v'
    rw [asociado_set h h' p c0 _ ht hc0 k' v']
    constructor
    · rintro (⟨_, hk, hv⟩ | ⟨i, c, _, hi, hg⟩)
      · simp only [Option.some.injEq] at hk
        exact Or.inl ⟨hk.symm, hv.symm⟩
      · refine Or.inr ⟨?_, i, c, hi, hg⟩
        rintro rfl
        exact hausente ⟨v', i, c, hi, hg⟩
    · rintro (⟨rfl, rfl⟩ | ⟨_, i, c, hi, hg⟩)
      · exact Or.inl ⟨rfl, rfl, rfl⟩
      · refine Or.inr ⟨i, c, ?_, hi, hg⟩
        rintro rfl
        rw [hc0] at hi
        cases hi
        exact hno hg.1

/-- Replacing the value of the slot where the key was found keeps the
invariant and changes only the value of that key. -/
theorem Inv.sobrescribir (h : hash_t) (hinv : Inv h) (k : clave_t) (v p : Nat) (c : campo_t)
    (hp : posicion_clave h k = some (p, true)) (hc : h.tabla[p]? = some c) (h' : hash_t)
    (ht : h'.tabla = h.tabla.set p { c with dato := v }) (hcap : h'.capacidad = h.capacidad)
    (hcant : h'.cantidad = h.cantidad) :
    Inv h' ∧ asociado h k c.dato ∧
      ∀ k' v', asociado h' k' v' ↔ (k' = k ∧ v' = v) ∨ (k' ≠ k ∧ asociado h k' v') := by
  obtain ⟨c', hc', _, hm⟩ := posicion_clave_resultado h k p true hp
  rw [hc] at hc'
  cases hc'
  obtain ⟨ho, hk⟩ := hm rfl
  have hlt : p < h.tabla.length := (List.getElem?_eq_some.mp hc).1
  have hfirma : ∀ (k' : clave_t) (i : Nat),
      (h'.tabla[i]?).map (firma k') = (h.tabla[i]?).map (firma k') := by
    intro k' i
    rw [ht]
    by_cases hip : p = i
    · subst hip
      rw [List.getElem?_set_self hlt, hc]
      rfl
    · rw [List.getElem?_set_ne hip]
  have hpc : ∀ k', posicion_clave h' k' = posicion_clave h k' :=
    fun k' => posicion_clave_congr h h' k' hcap (hfirma k')
  refine ⟨?_, ⟨p, c, hc, ho, hk, rfl⟩, ?_⟩
  · refine ⟨⟨?_, ?_⟩, ?_, ?_, ?_⟩
    · rw [ht, List.length_set, hinv.largo, hcap]
    · rw [hcap]; exact hinv.cota
    · rw [hcap]; exact hinv.modulo
    · rw [hcant, ht, n_ocupados_set _ _ c _ hc, hinv.cuenta]
      simp only [ho, if_true]
      have := n_ocupados_pos h.tabla p c hc ho
      omega
    · intro i d hi hod
      rw [ht] at hi
      by_cases hip : p = i
      · subst hip
        rw [List.getElem?_set_self hlt] at hi
        cases hi
        exact ⟨k, hk, by rw [hpc]; exact hp⟩
      · rw [List.getElem?_set_ne hip] at hi
        obtain ⟨k', hk', hfound⟩ := hinv.sondeo i d hi hod
        exact ⟨k', hk', by rw [hpc]; exact hfound⟩
  · intro k' v'
    rw [asociado_set h h' p c _ ht hc k' v']
    constructor
    · rintro (⟨_, hk1, hv⟩ | ⟨i, d, hne, hi, hg⟩)
      · simp only at hk1 hv
        rw [hk] at hk1
        simp only [Option.some.injEq] at hk1
        exact Or.inl ⟨hk1.symm, hv.symm⟩
      · refine Or.inr ⟨?_, i, d, hi, hg⟩
        rintro rfl
        exact hne (hinv.unico h k' i p d c hi hg.1 hg.2.1 hc ho hk)
    · rintro (⟨rfl, rfl⟩ | ⟨hne, i, d, hi, hg⟩)
      · exact Or.inl ⟨ho, hk, rfl⟩
      · refine Or.inr ⟨i, d, ?_, hi, hg⟩
        rintro rfl
        rw [hc] at hi
        cases hi
        rw [hk] at hg
        exact hne (by simpa using hg.2.1.symm)

/-- Turning the slot where the key was found into a tombstone keeps the
invariant, removes that key and leaves every other association. -/
theorem Inv.borrar (h : hash_t) (hinv : Inv h) (k : clave_t) (p : Nat) (c : campo_t)
    (hp : posicion_clave h k = some (p, true)) (hc : h.tabla[p]? = some c) (h' : hash_t)
    (ht : h'.tabla = h.tabla.set p { c with dato := NULL, estado := BORRADO })
    (hcap : h'.capacidad = h.capacidad)
    (hcant : h'.cantidad = (h.cantidad + SIZE_MOD - 1) % SIZE_MOD) :
    Inv h' ∧ h'.cantidad + 1 = h.cantidad ∧ asociado h k c.dato ∧
      (∀ k' v', asociado h' k' v' ↔ (k' ≠ k ∧ asociado h k' v')) ∧
      ∀ k', k' ≠ k → posicion_clave h' k' = posicion_clave h k' := by
  obtain ⟨c', hc', _, hm⟩ := posicion_clave_resultado h k p true hp
  rw [hc] at hc'
  cases hc'
  obtain ⟨ho, hk⟩ := hm rfl
  have hlt : p < h.tabla.length := (List.getElem?_eq_some.mp hc).1
  have hpc : ∀ k', k' ≠ k → posicion_clave h' k' = posicion_clave h k' := by
    intro k' hne
    refine posicion_clave_congr h h' k' hcap (fun i => ?_)
    rw [ht]
    by_cases hip : p = i
    · subst hip
      rw [List.getElem?_set_self hlt, hc]
      simp only [Option.map_some', firma, Option.some.injEq, Prod.mk.injEq, decide_eq_decide]
      rw [ho, hk]
      simp only [Option.some.injEq]
      constructor
      · constructor <;> intro hx <;> cases hx
      · constructor
        · rintro ⟨hx, _⟩; cases hx
        · rintro ⟨_, hx⟩; exact absurd hx.symm hne
    · rw [List.getElem?_set_ne hip]
  have hpos := n_ocupados_pos h.tabla p c hc ho
  have hcant' : h'.cantidad + 1 = h.cantidad := by
    have h2 := hinv.cuenta
    have h3 := n_ocupados_le h.tabla
    have h4 := hinv.largo
    have h5 := hinv.cota
    rw [hcant]
    have e : h.cantidad + SIZE_MOD - 1 = (h.cantidad - 1) + SIZE_MOD := by omega
    rw [e, Nat.add_mod_right, Nat.mod_eq_of_lt (by omega)]
    omega
  refine ⟨?_, hcant', ⟨p, c, hc, ho, hk, rfl⟩, ?_, hpc⟩
  · refine ⟨⟨?_, ?_⟩, ?_, ?_, ?_⟩
    · rw [ht, List.length_set, hinv.largo, hcap]
    · rw [hcap]; exact hinv.cota
    · rw [hcap]; exact hinv.modulo
    · have hcount : n_ocupados h'.tabla = n_ocupados h.tabla - 1 := by
        rw [ht, n_ocupados_set _ _ c _ hc, if_pos ho]
        simp
      have h2 := hinv.cuenta
      omega
    · intro i d hi hod
      rw [ht] at hi
      by_cases hip : p = i
      · subst hip
        rw [List.getElem?_set_self hlt] at hi
        cases hi
        simp at hod
      · rw [List.getElem?_set_ne hip] at hi
        obtain ⟨k', hk', hfound⟩ := hinv.sondeo i d hi hod
        refine ⟨k', hk', ?_⟩
        rw [hpc k' ?_]
        · exact hfound
        · rintro rfl
          rw [hp] at hfound
          simp only [Option.some.injEq, Prod.mk.injEq, and_true] at hfound
          exact hip hfound
  · intro k' v'
    rw [asociado_set h h' p c _ ht hc k' v']
    constructor
    · rintro (⟨hx, _⟩ | ⟨i, d, hne, hi, hg⟩)
      · simp at hx
      · refine ⟨?_, i, d, hi, hg⟩
        rintro rfl
        exact hne (hinv.unico h k' i p d c hi hg.1 hg.2.1 hc ho hk)
    · rintro ⟨hne, i, d, hi, hg⟩
      refine Or.inr ⟨i, d, ?_, hi, hg⟩
      rintro rfl
      rw [hc] at hi
      cases hi
      rw [hk] at hg
      exact hne (by simpa using hg.2.1.symm)



/-! ### `hash_guardar` without a resize -/

/-- Below full occupancy `hash_guardar` does not resize, whatever the nesting
bound. -/
theorem hash_guardar_sin_redim (n : Nat) (h : hash_t) (mem : List Bool) (k : clave_t) (v : Nat)
    (hlt : h.cantidad < h.capacidad) :
    hash_guardar n h mem k v =
      match posicion_clave h k with
      | none => none
      | some (posicion, encontrado) =>
        if encontrado then
          match h.tabla[posicion]? with
          | none => none
          | some c =>
            some ⟨true, { h with tabla := h.tabla.set posicion { c with dato := v } }, mem,
              if h.destruir_dato then [c.dato] else []⟩
        else
          some ⟨true,
            { guardar (asignar mem).1 h k v posicion with
              cantidad := ((guardar (asignar mem).1 h k v posicion).cantidad + 1) % SIZE_MOD },
            (asignar mem).2, []⟩ := by
  have h0 : h.capacidad ≠ 0 := by omega
  have hq : ¬ (FACTOR_CARGA_MAX_DECIMAS < 10 * (h.cantidad / h.capacidad)) := by
    rw [Nat.div_eq_of_lt hlt]
    decide
  cases n <;>
    simp only [hash_guardar, hash_guardar_con, factor_de_carga, h0, hq, if_false,
      List.nil_append]

theorem sin_borrados_set (h h' : hash_t) (p : Nat) (c1 : campo_t)
    (ht : h'.tabla = h.tabla.set p c1) (hc1 : c1.estado ≠ BORRADO) (hsb : sin_borrados h) :
    sin_borrados h' := by
  intro i c hi
  rw [ht, List.getElem?_set] at hi
  by_cases hip : p = i
  · rw [if_pos hip] at hi
    by_cases hlt : p < h.tabla.length
    · rw [if_pos hlt] at hi
      cases hi
      exact hc1
    · rw [if_neg hlt] at hi
      cases hi
  · rw [if_neg hip] at hi
    exact hsb i c hi

theorem hash_guardar_simple (h : hash_t) (hinv : Inv h) (hlt : h.cantidad < h.capacidad)
    (k : clave_t) (v p : Nat) (b : Bool) (hp : posicion_clave h k = some (p, b)) :
    ∃ r, (∀ n, hash_guardar n h [] k v = some r) ∧ efecto_guardar h k v r ∧
      r.hash.capacidad = h.capacidad ∧ (sin_borrados h → sin_borrados r.hash) := by
  cases b with
  | false =>
    have hins := hinv.insertar h k v p hp
      { h with tabla := h.tabla.set p ⟨some k, v, OCUPADO⟩
               cantidad := (h.cantidad + 1) % SIZE_MOD } rfl rfl rfl
    obtain ⟨hinv', hcant, hasoc⟩ := hins
    have hausente : ¬ presente h k := by
      rintro ⟨w, i, c, hi, ho, hk, _⟩
      have := hinv.encuentra h k i c hi ho hk
      rw [hp] at this
      simp at this
    refine ⟨⟨true, { h with tabla := h.tabla.set p ⟨some k, v, OCUPADO⟩
                            cantidad := (h.cantidad + 1) % SIZE_MOD }, [], []⟩, ?_, ?_, rfl, ?_⟩
    · intro n
      rw [hash_guardar_sin_redim n h [] k v hlt, hp]
      simp [guardar, asignar]
    · exact ⟨rfl, rfl, hinv', rfl, hasoc, fun w hw => absurd ⟨w, hw⟩ hausente,
        fun _ => ⟨hcant, rfl⟩⟩
    · exact sin_borrados_set h _ p _ rfl (fun hx => by cases hx)
  | true =>
    obtain ⟨c, hc, _, hm⟩ := posicion_clave_resultado h k p true hp
    have hsob := hinv.sobrescribir h k v p c hp hc
      { h with tabla := h.tabla.set p { c with dato := v } } rfl rfl rfl
    obtain ⟨hinv', hviejo, hasoc⟩ := hsob
    refine ⟨⟨true, { h with tabla := h.tabla.set p { c with dato := v } }, [],
      if h.destruir_dato then [c.dato] else []⟩, ?_, ?_, rfl, ?_⟩
    · intro n
      rw [hash_guardar_sin_redim n h [] k v hlt, hp]
      simp [hc]
    · refine ⟨rfl, rfl, hinv', rfl, hasoc, ?_, fun hno => absurd ⟨c.dato, hviejo⟩ hno⟩
      intro w hw
      have := asociado_unico h hinv k w c.dato hw hviejo
      subst this
      exact ⟨rfl, rfl⟩
    · intro hsb
      refine sin_borrados_set h _ p _ rfl ?_ hsb
      exact hsb p c hc

/-- Below full occupancy `hash_guardar` returns as soon as the table has an
empty slot or holds the key. -/
theorem hash_guardar_simple_termina (h : hash_t) (hinv : Inv h) (k : clave_t)
    (hterm : tiene_vacio h ∨ presente h k) : ∃ r, posicion_clave h k = some r := by
  rcases hterm with hv | ⟨w, i, c, hi, ho, hk, _⟩
  · exact posicion_clave_termina h hinv.toForma hinv.modulo hv k
  · exact ⟨_, hinv.encuentra h k i c hi ho hk⟩



/-! ### Rebuilding the table -/

theorem n_ocupados_cons (c : campo_t) (cs : List campo_t) :
    n_ocupados (c :: cs) = n_ocupados cs + (if c.estado = OCUPADO then 1 else 0) := by
  unfold n_ocupados
  rw [List.countP_cons]
  simp only [decide_eq_true_eq]

/-- The table `inicializar_tabla` leaves: every slot empty. -/
theorem Inv.vacia (cap : Nat) (d : Bool) (t : List campo_t) (hmod : cap % UINT_MOD ≠ 0)
    (hcota : cap < SIZE_MOD) :
    Inv (inicializar_tabla ⟨t, cap, 0, d⟩) ∧ sin_borrados (inicializar_tabla ⟨t, cap, 0, d⟩) ∧
      ∀ k, ¬ presente (inicializar_tabla ⟨t, cap, 0, d⟩) k := by
  have hslot : ∀ (i : Nat) (c : campo_t),
      (inicializar_tabla ⟨t, cap, 0, d⟩).tabla[i]? = some c → c.estado = VACIO := by
    intro i c hi
    simp only [inicializar_tabla, List.getElem?_replicate] at hi
    by_cases hlt : i < cap
    · rw [if_pos hlt] at hi
      cases hi
      rfl
    · rw [if_neg hlt] at hi
      cases hi
  refine ⟨⟨⟨?_, hcota⟩, hmod, ?_, ?_⟩, ?_, ?_⟩
  · simp [inicializar_tabla]
  · simp [inicializar_tabla, n_ocupados, List.countP_replicate]
  · intro i c hi ho
    rw [hslot i c hi] at ho
    cases ho
  · intro i c hi hb
    rw [hslot i c hi] at hb
    cases hb
  · rintro k ⟨v, i, c, hi, ho, _⟩
    rw [hslot i c hi] at ho
    cases ho

/-- The loop of `hash_redimensionar` inserts the occupied slots of `cs` into
a table that has room for them: no insert resizes, none calls the
destructor, and the table ends with the associations it had plus those of
`cs`. -/
theorem reinsertar_spec :
    ∀ (cs : List campo_t) (T : hash_t) (ds : List Nat), Inv T → sin_borrados T →
      (∀ c ∈ cs, c.estado = OCUPADO → ∃ k, c.clave = some k ∧ ¬ presente T k) →
      cs.Pairwise (fun a b => a.estado = OCUPADO → b.estado = OCUPADO → a.clave ≠ b.clave) →
      T.cantidad + n_ocupados cs ≤ T.capacidad →
      ∃ T', (∀ n, reinsertar (hash_guardar n) cs T [] ds = some (T', [], ds)) ∧ Inv T' ∧
        sin_borrados T' ∧ T'.capacidad = T.capacidad ∧ T'.destruir_dato = T.destruir_dato ∧
        T'.cantidad = T.cantidad + n_ocupados cs ∧
        ∀ k v, asociado T' k v ↔ asociado T k v ∨ ∃ c ∈ cs, guarda c k v := by
  intro cs
  induction cs with
  | nil =>
    intro T ds hinv hsb _ _ _
    exact ⟨T, fun _ => rfl, hinv, hsb, rfl, rfl, by simp [n_ocupados], by simp⟩
  | cons c resto ih =>
    intro T ds hinv hsb hkeys hpw hroom
    rw [List.pairwise_cons] at hpw
    obtain ⟨hc_resto, hpw_resto⟩ := hpw
    rw [n_ocupados_cons] at hroom
    by_cases ho : c.estado = OCUPADO
    · rw [if_pos ho] at hroom
      obtain ⟨k, hk, hausente⟩ := hkeys c (List.mem_cons_self _ _) ho
      have hlt : T.cantidad < T.capacidad := by omega
      have hvac := tiene_vacio_of_lt T hinv hsb hlt
      obtain ⟨⟨p, b⟩, hp⟩ := posicion_clave_termina T hinv.toForma hinv.modulo hvac k
      obtain ⟨r, hr, hef, hcap, hsb'⟩ := hash_guardar_simple T hinv hlt k c.dato p b hp
      obtain ⟨hcant, hds⟩ := hef.nueva hausente
      have hkeys' : ∀ c' ∈ resto, c'.estado = OCUPADO →
          ∃ k', c'.clave = some k' ∧ ¬ presente r.hash k' := by
        intro c' hc' ho'
        obtain ⟨k', hk', hau'⟩ := hkeys c' (List.mem_cons_of_mem _ hc') ho'
        refine ⟨k', hk', ?_⟩
        rintro ⟨w, hw⟩
        rcases (hef.asociados k' w).mp hw with ⟨rfl, _⟩ | ⟨_, hw'⟩
        · exact hc_resto c' hc' ho ho' (by rw [hk, hk'])
        · exact hau' ⟨w, hw'⟩
      obtain ⟨T', hT', hinv', hsbT, hcapT, hdT, hcantT, hasocT⟩ :=
        ih r.hash ds hef.inv (hsb' hsb) hkeys' hpw_resto (by rw [hcant, hcap]; omega)
      refine ⟨T', ?_, hinv', hsbT, by rw [hcapT, hcap], by rw [hdT, hef.destructor], ?_, ?_⟩
      · intro n
        simp only [reinsertar, if_pos ho, hk, hr n, hef.mem, hds, List.append_nil]
        exact hT' n
      · rw [hcantT, hcant, n_ocupados_cons, if_pos ho]
        omega
      · intro k' v'
        rw [hasocT, hef.asociados]
        constructor
        · rintro ((⟨rfl, rfl⟩ | ⟨_, hw⟩) | ⟨c', hc', hg⟩)
          · exact Or.inr ⟨c, List.mem_cons_self _ _, ho, hk, rfl⟩
          · exact Or.inl hw
          · exact Or.inr ⟨c', List.mem_cons_of_mem _ hc', hg⟩
        · rintro (hw | ⟨c', hc', hg⟩)
          · refine Or.inl (Or.inr ⟨?_, hw⟩)
            rintro rfl
            exact hausente ⟨v', hw⟩
          · rcases List.mem_cons.mp hc' with rfl | hmem
            · obtain ⟨_, hk1, hv1⟩ := hg
              rw [hk] at hk1
              simp only [Option.some.injEq] at hk1
              exact Or.inl (Or.inl ⟨hk1.symm, hv1.symm⟩)
            · exact Or.inr ⟨c', hmem, hg⟩
    · rw [if_neg ho, Nat.add_zero] at hroom
      obtain ⟨T', hT', hinv', hsbT, hcapT, hdT, hcantT, hasocT⟩ :=
        ih T ds hinv hsb (fun c' hc' => hkeys c' (List.mem_cons_of_mem _ hc')) hpw_resto hroom
      refine ⟨T', ?_, hinv', hsbT, hcapT, hdT, ?_, ?_⟩
      · intro n
        simp only [reinsertar, if_neg ho]
        exact hT' n
      · rw [hcantT, n_ocupados_cons, if_neg ho, Nat.add_zero]
      · intro k' v'
        rw [hasocT]
        constructor
        · rintro (hw | ⟨c', hc', hg⟩)
          · exact Or.inl hw
          · exact Or.inr ⟨c', List.mem_cons_of_mem _ hc', hg⟩
        · rintro (hw | ⟨c', hc', hg⟩)
          · exact Or.inl hw
          · rcases List.mem_cons.mp hc' with rfl | hmem
            · exact absurd hg.1 ho
            · exact Or.inr ⟨c', hmem, hg⟩

/-- The occupied slots of a table that satisfies the invariant hold pairwise
different keys. -/
theorem Inv.claves_distintas (h : hash_t) (hinv : Inv h) :
    h.tabla.Pairwise (fun a b => a.estado = OCUPADO → b.estado = OCUPADO → a.clave ≠ b.clave) := by
  rw [List.pairwise_iff_getElem]
  intro i j hi hj hij ho ho' heq
  obtain ⟨k, hk, _⟩ := hinv.sondeo i _ (List.getElem?_eq_getElem hi) ho
  have := hinv.unico h k i j _ _ (List.getElem?_eq_getElem hi) ho hk
    (List.getElem?_eq_getElem hj) ho' (by rw [← heq]; exact hk)
  omega

/-- A size that does not wrap buys the array asked for. -/
theorem malloc_cabe (nueva : Nat) (hbytes : nueva * sizeof_campo_t < SIZE_MOD) :
    ¬ ((sizeof_campo_t * nueva) % SIZE_MOD / sizeof_campo_t < nueva) := by
  have h1 : nueva * 24 < 18446744073709551616 := hbytes
  show ¬ ((24 * nueva) % 18446744073709551616 / 24 < nueva)
  omega

/-- A size that wraps buys an array with fewer slots than asked for. -/
theorem malloc_desborda (nueva : Nat) (hbytes : SIZE_MOD ≤ nueva * sizeof_campo_t) :
    (sizeof_campo_t * nueva) % SIZE_MOD / sizeof_campo_t < nueva := by
  have h1 : 18446744073709551616 ≤ nueva * 24 := hbytes
  show (24 * nueva) % 18446744073709551616 / 24 < nueva
  omega

/-- With its allocation succeeding, `hash_redimensionar` to a capacity that is
not a multiple of `2 ^ 32`, has room for the keys and whose array size does
not wrap rebuilds the same associations in a table of that capacity without
tombstones, and calls no destructor. -/
theorem hash_redimensionar_spec (h : hash_t) (hinv : Inv h) (nueva : Nat)
    (hmod : nueva % UINT_MOD ≠ 0) (hbytes : nueva * sizeof_campo_t < SIZE_MOD)
    (hroom : h.cantidad ≤ nueva) :
    ∃ T, (∀ n, hash_redimensionar n h nueva [] = some ⟨true, T, [], []⟩) ∧ Inv T ∧
      sin_borrados T ∧ T.capacidad = nueva ∧ T.cantidad = h.cantidad ∧
      T.destruir_dato = h.destruir_dato ∧ ∀ k v, asociado T k v ↔ asociado h k v := by
  have hcota : nueva < SIZE_MOD := by
    have h1 : nueva * 24 < 18446744073709551616 := hbytes
    show nueva < 18446744073709551616
    omega
  have hfit := malloc_cabe nueva hbytes
  obtain ⟨hinv0, hsb0, hau0⟩ := Inv.vacia nueva h.destruir_dato h.tabla hmod hcota
  have htake : h.tabla.take h.capacidad = h.tabla :=
    List.take_of_length_le (le_of_eq hinv.largo)
  have hkeys : ∀ c ∈ h.tabla, c.estado = OCUPADO →
      ∃ k, c.clave = some k ∧ ¬ presente (inicializar_tabla ⟨h.tabla, nueva, 0, h.destruir_dato⟩) k := by
    intro c hc ho
    obtain ⟨i, hi, rfl⟩ := List.getElem_of_mem hc
    obtain ⟨k, hk, _⟩ := hinv.sondeo i _ (List.getElem?_eq_getElem hi) ho
    exact ⟨k, hk, hau0 k⟩
  have hroom' : (inicializar_tabla ⟨h.tabla, nueva, 0, h.destruir_dato⟩).cantidad +
      n_ocupados h.tabla ≤ (inicializar_tabla ⟨h.tabla, nueva, 0, h.destruir_dato⟩).capacidad := by
    have := hinv.cuenta
    simp only [inicializar_tabla]
    omega
  obtain ⟨T, hT, hinvT, hsbT, hcapT, hdT, hcantT, hasocT⟩ :=
    reinsertar_spec h.tabla _ [] hinv0 hsb0 hkeys hinv.claves_distintas hroom'
  refine ⟨T, ?_, hinvT, hsbT, hcapT, ?_, hdT, ?_⟩
  · intro n
    simp only [hash_redimensionar, hash_redimensionar_con, asignar, htake, hfit, if_false]
    have := hT n
    simp only [inicializar_tabla] at this ⊢
    rw [this]
    simp
  · rw [hcantT]
    have := hinv.cuenta
    simp only [inicializar_tabla]
    omega
  · intro k v
    rw [hasocT]
    constructor
    · rintro (hw | ⟨c, hc, hg⟩)
      · exact absurd ⟨v, hw⟩ (hau0 k)
      · obtain ⟨i, hi, rfl⟩ := List.getElem_of_mem hc
        exact ⟨i, _, List.getElem?_eq_getElem hi, hg⟩
    · rintro ⟨i, c, hi, hg⟩
      obtain ⟨hlt, rfl⟩ := List.getElem?_eq_some.mp hi
      exact Or.inr ⟨_, List.getElem_mem hlt, hg⟩



/-! ### `hash_guardar` on a full table -/

theorem Inv.cantidad_le (h : hash_t) (hinv : Inv h) : h.cantidad ≤ h.capacidad := by
  have h1 := hinv.cuenta
  have h2 := n_ocupados_le h.tabla
  have h3 := hinv.largo
  omega

theorem Inv.capacidad_pos (h : hash_t) (hinv : Inv h) : 0 < h.capacidad := by
  refine Nat.pos_of_ne_zero (fun h0 => hinv.modulo ?_)
  rw [h0]
  exact Nat.zero_mod _

/-- Five times a capacity that is not a multiple of `2 ^ 32` is not one
either. -/
theorem cinco_no_multiplo (c : Nat) (hc : c % UINT_MOD ≠ 0) :
    (c * CAPACIDAD_MAYOR) % UINT_MOD ≠ 0 := by
  intro h
  apply hc
  have hd : UINT_MOD ∣ c * CAPACIDAD_MAYOR := Nat.dvd_of_mod_eq_zero h
  have hco : Nat.Coprime UINT_MOD CAPACIDAD_MAYOR := by norm_num
  exact Nat.mod_eq_zero_of_dvd (hco.dvd_of_dvd_mul_right hd)

/-- At full occupancy `hash_guardar 0` has to resize and gives no result. -/
theorem hash_guardar_cero_lleno (h : hash_t) (mem : List Bool) (k : clave_t) (v : Nat)
    (hfull : h.capacidad ≤ h.cantidad) : hash_guardar 0 h mem k v = none := by
  unfold hash_guardar hash_guardar_con factor_de_carga
  by_cases h0 : h.capacidad = 0
  · simp [h0]
  · have hq : FACTOR_CARGA_MAX_DECIMAS < 10 * (h.cantidad / h.capacidad) := by
      have := (Nat.one_le_div_iff (Nat.pos_of_ne_zero h0)).mpr hfull
      show 7 < 10 * (h.cantidad / h.capacidad)
      omega
    simp [h0, hq]

/-- At full occupancy, when the size of an array of five times the capacity
does not wrap, `hash_guardar` first rebuilds the table at five times the
capacity and then goes on as on the rebuilt table. -/
theorem hash_guardar_lleno (h : hash_t) (hinv : Inv h) (hfull : h.capacidad ≤ h.cantidad)
    (hbytes : h.capacidad * CAPACIDAD_MAYOR * sizeof_campo_t < SIZE_MOD) :
    ∃ T, Inv T ∧ sin_borrados T ∧ T.capacidad = h.capacidad * CAPACIDAD_MAYOR ∧
      T.cantidad = h.cantidad ∧ T.destruir_dato = h.destruir_dato ∧
      (∀ k v, asociado T k v ↔ asociado h k v) ∧ T.cantidad < T.capacidad ∧
      ∀ n k v, hash_guardar (n + 1) h [] k v = hash_guardar 0 T [] k v := by
  have hpos := hinv.capacidad_pos
  have hle := hinv.cantidad_le
  have h5 : h.capacidad * CAPACIDAD_MAYOR < SIZE_MOD := by
    have h1 : h.capacidad * 5 * 24 < 18446744073709551616 := hbytes
    show h.capacidad * 5 < 18446744073709551616
    omega
  have hmod : (h.capacidad * CAPACIDAD_MAYOR) % UINT_MOD ≠ 0 :=
    cinco_no_multiplo h.capacidad hinv.modulo
  have hroom : h.cantidad ≤ h.capacidad * CAPACIDAD_MAYOR := by
    show h.cantidad ≤ h.capacidad * 5
    omega
  obtain ⟨T, hT, hinvT, hsbT, hcapT, hcantT, hdT, hasocT⟩ :=
    hash_redimensionar_spec h hinv (h.capacidad * CAPACIDAD_MAYOR) hmod hbytes hroom
  have hltT : T.cantidad < T.capacidad := by
    rw [hcantT, hcapT]
    show h.cantidad < h.capacidad * 5
    omega
  refine ⟨T, hinvT, hsbT, hcapT, hcantT, hdT, hasocT, hltT, ?_⟩
  intro n k v
  have h0 : h.capacidad ≠ 0 := by omega
  have hq : FACTOR_CARGA_MAX_DECIMAS < 10 * (h.cantidad / h.capacidad) := by
    have := (Nat.one_le_div_iff hpos).mpr hfull
    show 7 < 10 * (h.cantidad / h.capacidad)
    omega
  have hred := hT n
  unfold hash_redimensionar at hred
  rw [hash_guardar_sin_redim 0 T [] k v hltT]
  simp only [hash_guardar, hash_guardar_con, factor_de_carga, h0, if_false, hq, if_true,
    Nat.mod_eq_of_lt h5, hred, List.nil_append]
  rcases posicion_clave T k with _ | ⟨p, b⟩ <;> try rfl

/-- The specification of `hash_guardar` on a table that satisfies the
invariant, all allocations succeeding; a full table needs the size of an
array of five times its capacity not to wrap. -/
theorem hash_guardar_spec (h : hash_t) (hinv : Inv h)
    (h5 : h.capacidad ≤ h.cantidad → h.capacidad * CAPACIDAD_MAYOR * sizeof_campo_t < SIZE_MOD)
    (k : clave_t)
    (v : Nat) :
    (∀ n r, hash_guardar n h [] k v = some r →
      efecto_guardar h k v r ∧
        (h.cantidad < h.capacidad → r.hash.capacidad = h.capacidad) ∧
        (h.capacidad ≤ h.cantidad → r.hash.capacidad = h.capacidad * CAPACIDAD_MAYOR)) ∧
    (h.cantidad < h.capacidad → tiene_vacio h ∨ presente h k →
      ∃ r, ∀ n, hash_guardar n h [] k v = some r) ∧
    (h.capacidad ≤ h.cantidad → ∃ r, ∀ n, hash_guardar (n + 1) h [] k v = some r) := by
  refine ⟨?_, ?_, ?_⟩
  · intro n r hr
    rcases Nat.lt_or_ge h.cantidad h.capacidad with hlt | hfull
    · cases hp : posicion_clave h k with
      | none =>
        rw [hash_guardar_sin_redim n h [] k v hlt, hp] at hr
        cases hr
      | some pb =>
        obtain ⟨p, b⟩ := pb
        obtain ⟨r', hr', hef, hcap, _⟩ := hash_guardar_simple h hinv hlt k v p b hp
        rw [hr' n] at hr
        cases hr
        exact ⟨hef, fun _ => hcap, fun hge => absurd hlt (by omega)⟩
    · cases n with
      | zero =>
        rw [hash_guardar_cero_lleno h [] k v hfull] at hr
        cases hr
      | succ n =>
        obtain ⟨T, hinvT, _, hcapT, hcantT, hdT, hasocT, hltT, hT⟩ :=
          hash_guardar_lleno h hinv hfull (h5 hfull)
        rw [hT n k v] at hr
        cases hp : posicion_clave T k with
        | none =>
          rw [hash_guardar_sin_redim 0 T [] k v hltT, hp] at hr
          cases hr
        | some pb =>
          obtain ⟨p, b⟩ := pb
          obtain ⟨r', hr', hef, hcap, _⟩ := hash_guardar_simple T hinvT hltT k v p b hp
          rw [hr' 0] at hr
          cases hr
          refine ⟨⟨hef.ret, hef.mem, hef.inv, by rw [hef.destructor, hdT], ?_, ?_, ?_⟩,
            fun hlt => absurd hlt (by omega), fun _ => by rw [hcap, hcapT]⟩
          · intro k' v'
            rw [hef.asociados, hasocT]
          · intro w hw
            have := hef.existente w ((hasocT k w).mpr hw)
            rw [hcantT, hdT] at this
            exact this
          · intro hno
            have := hef.nueva (fun ⟨w, hw⟩ => hno ⟨w, (hasocT k w).mp hw⟩)
            rw [hcantT] at this
            exact this
  · intro hlt hterm
    obtain ⟨⟨p, b⟩, hp⟩ := hash_guardar_simple_termina h hinv k hterm
    obtain ⟨r, hr, _⟩ := hash_guardar_simple h hinv hlt k v p b hp
    exact ⟨r, hr⟩
  · intro hfull
    obtain ⟨T, hinvT, hsbT, _, _, _, _, hltT, hT⟩ :=
      hash_guardar_lleno h hinv hfull (h5 hfull)
    have hvac := tiene_vacio_of_lt T hinvT hsbT hltT
    obtain ⟨⟨p, b⟩, hp⟩ := posicion_clave_termina T hinvT.toForma hinvT.modulo hvac k
    obtain ⟨r, hr, _⟩ := hash_guardar_simple T hinvT hltT k v p b hp
    exact ⟨r, fun n => by rw [hT n k v, hr 0]⟩

/-! ### `hash_borrar` -/

/-- What `hash_borrar k` does to a table that satisfies the invariant. -/
theorem hash_borrar_spec (h : hash_t) (hinv : Inv h) (k : clave_t) :
    (posicion_clave h k = none → ∀ n, hash_borrar n h [] k = none) ∧
    (∀ p, posicion_clave h k = some (p, false) →
      ∀ n, hash_borrar n h [] k = some ⟨NULL, h, [], []⟩) ∧
    (∀ p, posicion_clave h k = some (p, true) →
      ∃ c h', h.tabla[p]? = some c ∧ (∀ n, hash_borrar n h [] k = some ⟨c.dato, h', [], []⟩) ∧
        h'.tabla = h.tabla.set p { c with dato := NULL, estado := BORRADO } ∧
        h'.capacidad = h.capacidad ∧ h'.destruir_dato = h.destruir_dato ∧
        Inv h' ∧ h'.cantidad + 1 = h.cantidad ∧ asociado h k c.dato ∧
        (∀ k' v', asociado h' k' v' ↔ (k' ≠ k ∧ asociado h k' v')) ∧
        ∀ k', k' ≠ k → posicion_clave h' k' = posicion_clave h k') := by
  refine ⟨?_, ?_, ?_⟩
  · intro hp n
    simp [hash_borrar, hp]
  · intro p hp n
    simp [hash_borrar, hp]
  · intro p hp
    obtain ⟨c, hc, _, hm⟩ := posicion_clave_resultado h k p true hp
    have hpos := n_ocupados_pos h.tabla p c hc (hm rfl).1
    have hne : h.cantidad ≠ 0 := by
      have := hinv.cuenta
      omega
    refine ⟨c, { h with tabla := h.tabla.set p { c with dato := NULL, estado := BORRADO }
                        cantidad := (h.cantidad + SIZE_MOD - 1) % SIZE_MOD }, hc, ?_, rfl, rfl, rfl,
      hinv.borrar h k p c hp hc _ rfl rfl rfl⟩
    intro n
    simp [hash_borrar, hp, hne, hc]



/-! ### Reachable tables -/

theorem hash_crear_eq (d : Bool) : hash_crear d [] = some (tabla_inicial d) := by
  simp [hash_crear, asignar, tabla_inicial]

theorem tabla_inicial_inv (d : Bool) :
    Inv (tabla_inicial d) ∧ sin_borrados (tabla_inicial d) ∧
      (∀ k, ¬ presente (tabla_inicial d) k) ∧ (tabla_inicial d).capacidad = CAPACIDAD_INICIAL ∧
      (tabla_inicial d).cantidad = 0 ∧ (tabla_inicial d).destruir_dato = d := by
  obtain ⟨h1, h2, h3⟩ := Inv.vacia CAPACIDAD_INICIAL d [] (by decide) (by decide)
  exact ⟨h1, h2, h3, rfl, rfl, rfl⟩

theorem cabe_cinco (h : hash_t) (hc : cabe_en_memoria h) :
    h.capacidad * CAPACIDAD_MAYOR * sizeof_campo_t < SIZE_MOD := hc

/-- Every reachable table satisfies the invariant and has room to grow. -/
theorem Alcanzable.inv (h : hash_t) (ha : Alcanzable h) : Inv h ∧ cabe_en_memoria h := by
  induction ha with
  | crear d h hc =>
    rw [hash_crear_eq] at hc
    cases hc
    refine ⟨(tabla_inicial_inv d).1, ?_⟩
    show 29 * 5 * 24 < 18446744073709551616
    decide
  | guardar h n k v r _ hr hcabe ih =>
    obtain ⟨hinv, hc⟩ := ih
    exact ⟨((hash_guardar_spec h hinv (fun _ => cabe_cinco h hc) k v).1 n r hr).1.inv, hcabe⟩
  | borrar h n k r _ hr ih =>
    obtain ⟨hinv, hc⟩ := ih
    obtain ⟨hnone, hfalse, htrue⟩ := hash_borrar_spec h hinv k
    cases hp : posicion_clave h k with
    | none => rw [hnone hp n] at hr; cases hr
    | some pb =>
      obtain ⟨p, b⟩ := pb
      cases b with
      | false =>
        rw [hfalse p hp n] at hr
        cases hr
        exact ⟨hinv, hc⟩
      | true =>
        obtain ⟨c, h', _, hb, _, hcap, _, hinv', _⟩ := htrue p hp
        rw [hb n] at hr
        cases hr
        refine ⟨hinv', ?_⟩
        unfold cabe_en_memoria at hc ⊢
        rw [hcap]
        exact hc

/-! ### Inserting a list of new keys -/

/-- Inserting pairs with pairwise different keys, none in the table, into a
table without tombstones: every call returns true, the count grows by the
number of pairs, the table ends with the associations it had plus the pairs,
and the capacity is unchanged when the table had room for all of them. The
bound keeps the size of the array of five times the capacity from wrapping
whenever the table has to grow. -/
theorem guardar_todas_spec :
    ∀ (kvs : List (clave_t × Nat)) (T : hash_t), Inv T → sin_borrados T →
      (kvs.map Prod.fst).Nodup → (∀ kv ∈ kvs, ¬ presente T kv.1) →
      (T.cantidad + kvs.length) * CAPACIDAD_MAYOR * sizeof_campo_t ≤ SIZE_MOD →
      ∃ T', (∀ n, guardar_todas (n + 1) kvs T = some (T', true)) ∧ Inv T' ∧ sin_borrados T' ∧
        T'.cantidad = T.cantidad + kvs.length ∧ T'.destruir_dato = T.destruir_dato ∧
        T.capacidad ≤ T'.capacidad ∧
        (∀ k v, asociado T' k v ↔ asociado T k v ∨ (k, v) ∈ kvs) ∧
        (T.cantidad + kvs.length ≤ T.capacidad →
          T'.capacidad = T.capacidad ∧ ∀ n, guardar_todas n kvs T = some (T', true)) := by
  intro kvs
  induction kvs with
  | nil =>
    intro T hinv hsb _ _ _
    exact ⟨T, fun _ => rfl, hinv, hsb, rfl, rfl, le_refl _, by simp, fun _ => ⟨rfl, fun _ => rfl⟩⟩
  | cons kv resto ih =>
    intro T hinv hsb hnd hau hbound
    obtain ⟨k, v⟩ := kv
    simp only [List.map_cons, List.nodup_cons, List.mem_map, not_exists, not_and] at hnd
    obtain ⟨hk_resto, hnd_resto⟩ := hnd
    simp only [List.length_cons] at hbound
    have hausente : ¬ presente T k := hau (k, v) (List.mem_cons_self _ _)
    have hle := hinv.cantidad_le
    have h5 : T.capacidad ≤ T.cantidad →
        T.capacidad * CAPACIDAD_MAYOR * sizeof_campo_t < SIZE_MOD := by
      intro hfull
      have : (T.cantidad + (resto.length + 1)) * 5 * 24 ≤ 18446744073709551616 := hbound
      show T.capacidad * 5 * 24 < 18446744073709551616
      omega
    obtain ⟨hpart, hterm1, hterm2⟩ := hash_guardar_spec T hinv h5 k v
    -- the call returns, with the same result for every positive nesting bound
    have hret : ∃ r, (∀ n, hash_guardar (n + 1) T [] k v = some r) ∧
        (T.cantidad < T.capacidad → ∀ n, hash_guardar n T [] k v = some r) := by
      rcases Nat.lt_or_ge T.cantidad T.capacidad with hlt | hfull
      · obtain ⟨r, hr⟩ := hterm1 hlt (Or.inl (tiene_vacio_of_lt T hinv hsb hlt))
        exact ⟨r, fun n => hr (n + 1), fun _ => hr⟩
      · obtain ⟨r, hr⟩ := hterm2 hfull
        exact ⟨r, hr, fun hlt => absurd hlt (by omega)⟩
    obtain ⟨r, hr, hr0⟩ := hret
    obtain ⟨hef, hcap1, hcap2⟩ := hpart 1 r (hr 0)
    obtain ⟨hcant, _⟩ := hef.nueva hausente
    have hsb' : sin_borrados r.hash := by
      rcases Nat.lt_or_ge T.cantidad T.capacidad with hlt | hfull
      · obtain ⟨⟨p, b⟩, hp⟩ := posicion_clave_termina T hinv.toForma hinv.modulo
          (tiene_vacio_of_lt T hinv hsb hlt) k
        obtain ⟨r', hr', _, _, hsbr⟩ := hash_guardar_simple T hinv hlt k v p b hp
        have : r' = r := by
          have := hr' 1
          rw [hr 0] at this
          cases this
          rfl
        subst this
        exact hsbr hsb
      · obtain ⟨T2, hinv2, hsb2, _, _, _, _, hlt2, hT2⟩ :=
          hash_guardar_lleno T hinv hfull (h5 hfull)
        obtain ⟨⟨p, b⟩, hp⟩ := posicion_clave_termina T2 hinv2.toForma hinv2.modulo
          (tiene_vacio_of_lt T2 hinv2 hsb2 hlt2) k
        obtain ⟨r', hr', _, _, hsbr⟩ := hash_guardar_simple T2 hinv2 hlt2 k v p b hp
        have : r' = r := by
          have := hr' 0
          rw [← hT2 0 k v, hr 0] at this
          cases this
          rfl
        subst this
        exact hsbr hsb2
    have hau' : ∀ kv ∈ resto, ¬ presente r.hash kv.1 := by
      rintro ⟨k', v'⟩ hmem ⟨w, hw⟩
      rcases (hef.asociados k' w).mp hw with ⟨rfl, _⟩ | ⟨_, hw'⟩
      · exact hk_resto (k', v') hmem rfl
      · exact hau (k', v') (List.mem_cons_of_mem _ hmem) ⟨w, hw'⟩
    obtain ⟨T', hT', hinv', hsbT, hcantT, hdT, hcapT, hasocT, hroomT⟩ :=
      ih r.hash hef.inv hsb' hnd_resto hau' (by
        rw [hcant]
        have : (T.cantidad + (resto.length + 1)) * 5 * 24 ≤ 18446744073709551616 := hbound
        show (T.cantidad + 1 + resto.length) * 5 * 24 ≤ 18446744073709551616
        omega)
    have hcap_le : T.capacidad ≤ r.hash.capacidad := by
      rcases Nat.lt_or_ge T.cantidad T.capacidad with hlt | hfull
      · rw [hcap1 hlt]
      · rw [hcap2 hfull]
        show T.capacidad ≤ T.capacidad * 5
        omega
    refine ⟨T', ?_, hinv', hsbT, by rw [hcantT, hcant, List.length_cons]; omega,
      by rw [hdT, hef.destructor], le_trans hcap_le hcapT, ?_, ?_⟩
    · intro n
      simp only [guardar_todas, hr n, hT' n, hef.ret, Bool.and_self]
    · intro k' v'
      rw [hasocT, hef.asociados, List.mem_cons]
      constructor
      · rintro ((⟨rfl, rfl⟩ | ⟨_, hw⟩) | hmem)
        · exact Or.inr (Or.inl rfl)
        · exact Or.inl hw
        · exact Or.inr (Or.inr hmem)
      · rintro (hw | heq | hmem)
        · refine Or.inl (Or.inr ⟨?_, hw⟩)
          rintro rfl
          exact hausente ⟨v', hw⟩
        · cases heq
          exact Or.inl (Or.inl ⟨rfl, rfl⟩)
        · exact Or.inr hmem
    · intro hroom
      simp only [List.length_cons] at hroom
      have hlt : T.cantidad < T.capacidad := by omega
      obtain ⟨hcapT', hT0⟩ := hroomT (by rw [hcant, hcap1 hlt]; omega)
      refine ⟨by rw [hcapT', hcap1 hlt], ?_⟩
      intro n
      simp only [guardar_todas, hr0 hlt n, hT0 n, hef.ret, Bool.and_self]



/-! ### The iterator -/

theorem claves_ocupadas_cons (c : campo_t) (cs : List campo_t) :
    claves_ocupadas (c :: cs) =
      if c.estado = OCUPADO then c.clave :: claves_ocupadas cs else claves_ocupadas cs := by
  unfold claves_ocupadas
  by_cases ho : c.estado = OCUPADO
  · simp [List.filter_cons, ho]
  · simp [List.filter_cons, ho]

theorem drop_cons_of_getElem? (t : List campo_t) (p : Nat) (c : campo_t) (hp : t[p]? = some c) :
    t.drop p = c :: t.drop (p + 1) := by
  obtain ⟨hlt, rfl⟩ := List.getElem?_eq_some.mp hp
  exact List.drop_eq_getElem_cons hlt

/-- From a cursor `p` that is `m` slots before the end, the loop of
`iter_puede_avanzar` stops on the first occupied slot from `p` on, or at the
end when there is none. -/
theorem iter_puede_avanzar_bucle_spec (h : hash_t) (hf : Forma h) :
    ∀ m p, p + m = h.capacidad →
      ∃ q, p ≤ q ∧ q ≤ h.capacidad ∧
        iter_puede_avanzar_bucle (m + 1) ⟨h, p⟩ = some (decide (q < h.capacidad), ⟨h, q⟩) ∧
        (q < h.capacidad → ∃ c, h.tabla[q]? = some c ∧ c.estado = OCUPADO) ∧
        (∀ i c, p ≤ i → i < q → h.tabla[i]? = some c → c.estado ≠ OCUPADO) ∧
        claves_ocupadas (h.tabla.drop p) = claves_ocupadas (h.tabla.drop q) := by
  intro m
  induction m with
  | zero =>
    intro p hp
    refine ⟨p, le_refl _, by omega, ?_, fun hlt => by omega, fun i c h1 h2 => by omega, rfl⟩
    have : p = h.capacidad := by omega
    subst this
    simp [iter_puede_avanzar_bucle, hash_iter_al_final]
  | succ m ih =>
    intro p hp
    have hlt : p < h.tabla.length := by rw [hf.largo]; omega
    have hne : p ≠ h.capacidad := by omega
    have hget : h.tabla[p]? = some h.tabla[p] := List.getElem?_eq_getElem hlt
    by_cases ho : (h.tabla[p]).estado = OCUPADO
    · refine ⟨p, le_refl _, by omega, ?_, fun _ => ⟨_, hget, ho⟩, fun i c h1 h2 => by omega, rfl⟩
      have hdec : decide (p < h.capacidad) = true := by simp; omega
      rw [hdec]
      unfold iter_puede_avanzar_bucle
      simp [hash_iter_al_final, hne, hget, ho]
    · have hc := hf.cota
      have hmod : (p + 1) % SIZE_MOD = p + 1 := Nat.mod_eq_of_lt (by omega)
      obtain ⟨q, hpq, hqc, hq, hocc, hskip, hcl⟩ := ih (p + 1) (by omega)
      refine ⟨q, by omega, hqc, ?_, hocc, ?_, ?_⟩
      · unfold iter_puede_avanzar_bucle
        simp only [hash_iter_al_final, hne, decide_False, hget, ho, if_false, hmod]
        exact hq
      · intro i c h1 h2 hi
        rcases Nat.eq_or_lt_of_le h1 with heq | hlt'
        · subst heq
          rw [hget] at hi
          cases hi
          exact ho
        · exact hskip i c hlt' h2 hi
      · rw [drop_cons_of_getElem? h.tabla p _ hget, claves_ocupadas_cons, if_neg ho]
        exact hcl

/-- The walk from a cursor that stands on an occupied slot or at the end
reads the keys of the occupied slots from the cursor on. -/
theorem recorrer_bucle_spec (h : hash_t) (hf : Forma h) :
    ∀ pasos p, p ≤ h.capacidad → h.capacidad - p < pasos →
      (p < h.capacidad → ∃ c, h.tabla[p]? = some c ∧ c.estado = OCUPADO) →
      recorrer_bucle pasos ⟨h, p⟩ = some (claves_ocupadas (h.tabla.drop p)) := by
  intro pasos
  induction pasos with
  | zero => intro p _ hlt _; omega
  | succ pasos ih =>
    intro p hple hfuel hocc
    rcases Nat.eq_or_lt_of_le hple with heq | hlt
    · subst heq
      have : h.tabla.drop h.capacidad = [] := by
        rw [List.drop_eq_nil_iff]
        exact le_of_eq hf.largo
      rw [this]
      simp [recorrer_bucle, hash_iter_al_final, claves_ocupadas]
    · obtain ⟨c, hc, ho⟩ := hocc hlt
      have hne : p ≠ h.capacidad := by omega
      have hcota := hf.cota
      have hmod : (p + 1) % SIZE_MOD = p + 1 := Nat.mod_eq_of_lt (by omega)
      obtain ⟨q, hpq, hqc, hq, hoccq, _, hcl⟩ :=
        iter_puede_avanzar_bucle_spec h hf (h.capacidad - (p + 1)) (p + 1) (by omega)
      have hfuel' : h.capacidad + 1 - (p + 1) = h.capacidad - (p + 1) + 1 := by omega
      have hrec := ih q hqc (by omega) hoccq
      unfold recorrer_bucle
      simp only [hash_iter_al_final, hne, decide_False, hash_iter_ver_actual, hc,
        hash_iter_avanzar, iter_puede_avanzar, hmod, hfuel', hq, if_false, Bool.false_eq_true]
      rw [drop_cons_of_getElem? h.tabla p c hc, claves_ocupadas_cons, if_pos ho, hcl]
      simp only [hrec]

/-- Walking a new iterator to its end reads the keys of the occupied slots,
in slot order. -/
theorem recorrer_eq (h : hash_t) (hf : Forma h) :
    recorrer h = some (claves_ocupadas h.tabla) := by
  obtain ⟨q, _, hqc, hq, hocc, _, hcl⟩ := iter_puede_avanzar_bucle_spec h hf h.capacidad 0 (by omega)
  have hrec := recorrer_bucle_spec h hf (h.capacidad + 1) q hqc (by omega) hocc
  rw [List.drop_zero] at hcl
  rw [← hcl] at hrec
  unfold recorrer hash_iter_crear iter_puede_avanzar
  simp only [asignar, Nat.sub_zero, hq]
  by_cases hlt : q < h.capacidad
  · simp [hlt, hrec]
  · have : q = h.capacidad := by omega
    subst this
    simp [hrec]

/-- The keys read are those the table holds, each once. -/
theorem claves_ocupadas_perm (h : hash_t) (hinv : Inv h) (kvs : List (clave_t × Nat))
    (hnd : (kvs.map Prod.fst).Nodup) (hasoc : ∀ k v, asociado h k v ↔ (k, v) ∈ kvs) :
    (claves_ocupadas h.tabla).Perm (kvs.map (fun kv => some kv.1)) := by
  have hnd1 : (claves_ocupadas h.tabla).Nodup := by
    unfold claves_ocupadas
    refine List.Pairwise.map _ ?_
      ((List.Pairwise.filter _ hinv.claves_distintas).imp_of_mem (S := fun a b =>
        a.estado = OCUPADO ∧ b.estado = OCUPADO ∧ a.clave ≠ b.clave) ?_)
    · intro a b hab
      exact hab.2.2
    · intro a b ha hb hR
      have ha' := (List.mem_filter.mp ha).2
      have hb' := (List.mem_filter.mp hb).2
      simp only [decide_eq_true_eq] at ha' hb'
      exact ⟨ha', hb', hR ha' hb'⟩
  have hnd2 : (kvs.map (fun kv => some kv.1)).Nodup := by
    have : kvs.map (fun kv => some kv.1) = (kvs.map Prod.fst).map some := by
      rw [List.map_map]; rfl
    rw [this]
    exact hnd.map (Option.some_injective _)
  rw [List.perm_ext_iff_of_nodup hnd1 hnd2]
  intro x
  unfold claves_ocupadas
  simp only [List.mem_map, List.mem_filter, decide_eq_true_eq]
  constructor
  · rintro ⟨c, ⟨hc, ho⟩, rfl⟩
    obtain ⟨i, hi, rfl⟩ := List.getElem_of_mem hc
    obtain ⟨k, hk, _⟩ := hinv.sondeo i _ (List.getElem?_eq_getElem hi) ho
    have := (hasoc k (h.tabla[i]).dato).mp ⟨i, _, List.getElem?_eq_getElem hi, ho, hk, rfl⟩
    exact ⟨_, this, hk.symm⟩
  · rintro ⟨⟨k, v⟩, hmem, rfl⟩
    obtain ⟨i, c, hi, ho, hk, _⟩ := (hasoc k v).mpr hmem
    obtain ⟨hlt, rfl⟩ := List.getElem?_eq_some.mp hi
    exact ⟨_, ⟨List.getElem_mem hlt, ho⟩, hk⟩



/-! ### Further facts used by the claims -/

theorem countP_uno (P : campo_t → Bool) :
    ∀ l : List campo_t,
      (∀ (i j : Nat) (ci cj : campo_t), l[i]? = some ci → l[j]? = some cj → P ci = true →
        P cj = true → i = j) →
      (∃ (i : Nat) (c : campo_t), l[i]? = some c ∧ P c = true) → l.countP P = 1 := by
  intro l
  induction l with
  | nil => rintro _ ⟨i, c, hi, _⟩; simp at hi
  | cons x xs ih =>
    intro huniq hex
    by_cases hx : P x = true
    · rw [List.countP_cons_of_pos _ _ hx]
      have : xs.countP P = 0 := by
        rw [List.countP_eq_zero]
        intro y hy hpy
        obtain ⟨j, hj, rfl⟩ := List.getElem_of_mem hy
        have := huniq 0 (j + 1) x xs[j] (by simp) (by simp [hj]) hx hpy
        omega
      omega
    · rw [List.countP_cons_of_neg _ _ hx]
      apply ih
      · intro i j ci cj hi hj hci hcj
        have := huniq (i + 1) (j + 1) ci cj (by simpa using hi) (by simpa using hj) hci hcj
        omega
      · obtain ⟨i, c, hi, hc⟩ := hex
        cases i with
        | zero =>
          simp only [List.getElem?_cons_zero, Option.some.injEq] at hi
          subst hi
          exact absurd hc hx
        | succ i => exact ⟨i, c, by simpa using hi, hc⟩

/-- A key the table holds is held by exactly one occupied slot. -/
theorem Inv.una_sola (h : hash_t) (hinv : Inv h) (k : clave_t) (hk : presente h k) :
    h.tabla.countP (fun c => decide (c.estado = OCUPADO ∧ c.clave = some k)) = 1 := by
  apply countP_uno
  · intro i j ci cj hi hj hci hcj
    simp only [decide_eq_true_eq] at hci hcj
    exact hinv.unico h k i j ci cj hi hci.1 hci.2 hj hcj.1 hcj.2
  · obtain ⟨v, i, c, hi, ho, hc, _⟩ := hk
    exact ⟨i, c, hi, by simp [ho, hc]⟩

theorem tiene_vacio_lt (h : hash_t) (hinv : Inv h) (hv : tiene_vacio h) :
    h.cantidad < h.capacidad := by
  obtain ⟨i, c, hi, hc⟩ := hv
  have := n_ocupados_lt h.tabla i c hi (by rw [hc]; decide)
  rw [hinv.cuenta, ← hinv.largo]
  exact this

theorem todos_ocupados_lleno (h : hash_t) (hinv : Inv h)
    (hall : ∀ (i : Nat) (c : campo_t), h.tabla[i]? = some c → c.estado = OCUPADO) :
    h.capacidad ≤ h.cantidad := by
  have : n_ocupados h.tabla = h.tabla.length := by
    unfold n_ocupados
    rw [List.countP_eq_length]
    intro c hc
    obtain ⟨i, hi, rfl⟩ := List.getElem_of_mem hc
    simp [hall i _ (List.getElem?_eq_getElem hi)]
  rw [hinv.cuenta, this, hinv.largo]

theorem tabla_inicial_vacio (d : Bool) : tiene_vacio (tabla_inicial d) :=
  ⟨0, ⟨none, NULL, VACIO⟩, rfl, rfl⟩



theorem tabla_d_alcanzable : Alcanzable tabla_d :=
  Alcanzable.guardar (tabla_inicial false) 0 [100] 1 ⟨true, tabla_d, [], []⟩
    (Alcanzable.crear false _ (hash_crear_eq false)) rfl
    (by show 29 * 5 * 24 < 18446744073709551616; decide)

theorem tabla_dj_alcanzable : Alcanzable tabla_dj :=
  Alcanzable.guardar tabla_d 0 [106] 2 ⟨true, tabla_dj, [], []⟩ tabla_d_alcanzable rfl
    (by show 29 * 5 * 24 < 18446744073709551616; decide)

/-- A key that `hash_pertenece` reports and whose value `hash_obtener`
returns is associated with that value. -/
theorem asociado_of_lookup (h : hash_t) (k : clave_t) (w : Nat)
    (hk : hash_pertenece h k = some true) (hw : hash_obtener h k = some w) : asociado h k w := by
  obtain ⟨v, hv, hv'⟩ := asociado_of_pertenece h k hk
  rw [hw] at hv'
  cases hv'
  exact hv



/-! ### Lists of keys -/

theorem clave_de_inyectiva : Function.Injective clave_de := by
  intro a b hab
  unfold clave_de at hab
  have hinj : Function.Injective (fun d : Nat => d + 1) := fun x y hxy => by
    simpa using hxy
  exact Nat.digits.injective 255 (List.map_injective_iff.mpr hinj hab)

theorem claves_de_prueba_length (n : Nat) : (claves_de_prueba n).length = n := by
  unfold claves_de_prueba
  rw [List.length_map, List.length_range]

theorem claves_de_prueba_nodup (n : Nat) : ((claves_de_prueba n).map Prod.fst).Nodup := by
  unfold claves_de_prueba
  rw [List.map_map]
  refine (List.nodup_range _).map ?_
  intro a b hab
  simpa using hab

theorem claves_de_prueba_mem (n i : Nat) (hi : i < n) : ([97 + i], i) ∈ claves_de_prueba n := by
  unfold claves_de_prueba
  exact List.mem_map.mpr ⟨i, List.mem_range.mpr hi, rfl⟩

theorem claves_de_prueba_mayuscula (n v : Nat) : ¬ ([65], v) ∈ claves_de_prueba n := by
  unfold claves_de_prueba
  simp only [List.mem_map, List.mem_range, Prod.mk.injEq, not_exists, not_and]
  intro i _ hk
  simp only [List.cons.injEq, and_true] at hk
  omega



/-! ### Tables built from a list of keys -/

/-- Inserting new keys into a reachable table without tombstones that has
room for them leaves a reachable table of the same capacity. -/
theorem guardar_todas_alcanzable (kvs : List (clave_t × Nat)) (T : hash_t) (ha : Alcanzable T)
    (hsb : sin_borrados T) (hnd : (kvs.map Prod.fst).Nodup)
    (hau : ∀ kv ∈ kvs, ¬ presente T kv.1) (hroom : T.cantidad + kvs.length ≤ T.capacidad) :
    ∃ T', (∀ n, guardar_todas n kvs T = some (T', true)) ∧ Alcanzable T' ∧ sin_borrados T' ∧
      T'.capacidad = T.capacidad ∧ T'.cantidad = T.cantidad + kvs.length ∧
      T'.destruir_dato = T.destruir_dato ∧
      ∀ k v, asociado T' k v ↔ asociado T k v ∨ (k, v) ∈ kvs := by
  induction kvs generalizing T with
  | nil =>
    exact ⟨T, fun _ => rfl, ha, hsb, rfl, rfl, rfl, by simp⟩
  | cons kv resto ih =>
    obtain ⟨k, v⟩ := kv
    obtain ⟨hinv, hc⟩ := ha.inv
    simp only [List.map_cons, List.nodup_cons, List.mem_map, not_exists, not_and] at hnd
    obtain ⟨hk_resto, hnd_resto⟩ := hnd
    simp only [List.length_cons] at hroom
    have hlt : T.cantidad < T.capacidad := by omega
    have hausente : ¬ presente T k := hau (k, v) (List.mem_cons_self _ _)
    obtain ⟨⟨p, b⟩, hp⟩ := posicion_clave_termina T hinv.toForma hinv.modulo
      (tiene_vacio_of_lt T hinv hsb hlt) k
    obtain ⟨r, hr, hef, hcap, hsbr⟩ := hash_guardar_simple T hinv hlt k v p b hp
    obtain ⟨hcant, _⟩ := hef.nueva hausente
    have har : Alcanzable r.hash := by
      refine Alcanzable.guardar T 0 k v r ha (hr 0) ?_
      unfold cabe_en_memoria at hc ⊢
      rw [hcap]
      exact hc
    have hau' : ∀ kv ∈ resto, ¬ presente r.hash kv.1 := by
      rintro ⟨k', v'⟩ hmem ⟨w, hw⟩
      rcases (hef.asociados k' w).mp hw with ⟨rfl, _⟩ | ⟨_, hw'⟩
      · exact hk_resto (k', v') hmem rfl
      · exact hau (k', v') (List.mem_cons_of_mem _ hmem) ⟨w, hw'⟩
    obtain ⟨T', hT', haT, hsbT, hcapT, hcantT, hdT, hasocT⟩ :=
      ih r.hash har (hsbr hsb) hnd_resto hau' (by rw [hcant, hcap]; omega)
    refine ⟨T', ?_, haT, hsbT, by rw [hcapT, hcap], by rw [hcantT, hcant, List.length_cons]; omega,
      by rw [hdT, hef.destructor], ?_⟩
    · intro n
      simp only [guardar_todas, hr n, hT' n, hef.ret, Bool.and_self]
    · intro k' v'
      rw [hasocT, hef.asociados, List.mem_cons]
      constructor
      · rintro ((⟨rfl, rfl⟩ | ⟨_, hw⟩) | hmem)
        · exact Or.inr (Or.inl rfl)
        · exact Or.inl hw
        · exact Or.inr (Or.inr hmem)
      · rintro (hw | heq | hmem)
        · refine Or.inl (Or.inr ⟨?_, hw⟩)
          rintro rfl
          exact hausente ⟨v', hw⟩
        · cases heq
          exact Or.inl (Or.inl ⟨rfl, rfl⟩)
        · exact Or.inr hmem

/-- The table built from at most 29 pairs with pairwise different keys: it is
what `guardar_todas` returns, it is reachable, it still has capacity 29, and
it holds exactly the pairs. -/
theorem tabla_con_spec (kvs : List (clave_t × Nat)) (hnd : (kvs.map Prod.fst).Nodup)
    (hlen : kvs.length ≤ CAPACIDAD_INICIAL) :
    (∀ n, guardar_todas n kvs (tabla_inicial false) = some (tabla_con kvs, true)) ∧
      Alcanzable (tabla_con kvs) ∧ sin_borrados (tabla_con kvs) ∧
      (tabla_con kvs).capacidad = CAPACIDAD_INICIAL ∧ (tabla_con kvs).cantidad = kvs.length ∧
      ∀ k v, asociado (tabla_con kvs) k v ↔ (k, v) ∈ kvs := by
  obtain ⟨hinv0, hsb0, hau0, hcap0, hcant0, _⟩ := tabla_inicial_inv false
  obtain ⟨T', hT', haT, hsbT, hcapT, hcantT, _, hasocT⟩ :=
    guardar_todas_alcanzable kvs (tabla_inicial false)
      (Alcanzable.crear false _ (hash_crear_eq false)) hsb0 hnd (fun kv _ => hau0 kv.1)
      (by rw [hcant0, hcap0]; omega)
  have heq : tabla_con kvs = T' := by
    unfold tabla_con
    rw [hT' 1]
  rw [heq]
  refine ⟨hT', haT, hsbT, by rw [hcapT, hcap0], by rw [hcantT, hcant0]; omega, ?_⟩
  intro k v
  rw [hasocT]
  constructor
  · rintro (hw | hmem)
    · exact absurd ⟨v, hw⟩ (hau0 k)
    · exact hmem
  · exact Or.inr

/-! ### `hash_destruir` -/

/-- The destructor calls of `hash_destruir`: one per occupied slot, on its
value, when a destructor is configured; none otherwise. -/
theorem hash_destruir_eq (h : hash_t) (hf : Forma h) :
    hash_destruir h = if h.destruir_dato then datos_ocupados h.tabla else [] := by
  unfold hash_destruir datos_ocupados
  rw [List.take_of_length_le (le_of_eq hf.largo)]
  cases h.destruir_dato with
  | false => simp
  | true =>
    simp only [if_true]
    induction h.tabla.filter (fun c => decide (c.estado = OCUPADO)) with
    | nil => rfl
    | cons x xs ih => simp [List.flatMap_cons, ih]

theorem datos_ocupados_length (t : List campo_t) : (datos_ocupados t).length = n_ocupados t := by
  unfold datos_ocupados n_ocupados
  rw [List.length_map, List.countP_eq_length_filter]

theorem datos_ocupados_cons (c : campo_t) (cs : List campo_t) :
    datos_ocupados (c :: cs) =
      if c.estado = OCUPADO then c.dato :: datos_ocupados cs else datos_ocupados cs := by
  unfold datos_ocupados
  by_cases ho : c.estado = OCUPADO
  · simp [List.filter_cons, ho]
  · simp [List.filter_cons, ho]

/-- Turning an occupied slot into one that is not occupied takes exactly its
value out of the values of the occupied slots. -/
theorem datos_ocupados_set (c1 : campo_t) (hc1 : c1.estado ≠ OCUPADO) :
    ∀ (t : List campo_t) (p : Nat) (c : campo_t), t[p]? = some c → c.estado = OCUPADO →
      (datos_ocupados t).Perm (c.dato :: datos_ocupados (t.set p c1)) := by
  intro t
  induction t with
  | nil => intro p c hp; simp at hp
  | cons x xs ih =>
    intro p c hp ho
    cases p with
    | zero =>
      simp only [List.getElem?_cons_zero, Option.some.injEq] at hp
      subst hp
      simp only [List.set_cons_zero]
      rw [datos_ocupados_cons, datos_ocupados_cons, if_pos ho, if_neg hc1]
    | succ p =>
      simp only [List.getElem?_cons_succ] at hp
      simp only [List.set_cons_succ]
      rw [datos_ocupados_cons, datos_ocupados_cons]
      by_cases hx : x.estado = OCUPADO
      · rw [if_pos hx, if_pos hx]
        exact ((ih p c hp ho).cons x.dato).trans (List.Perm.swap _ _ _)
      · rw [if_neg hx, if_neg hx]
        exact ih p c hp ho

/-! ### Allocation failure in `hash_guardar` -/

/-- When the allocation of the new slot array fails, `hash_guardar` returns
false and leaves the table as it was. -/
theorem hash_guardar_malloc_falla (n : Nat) (h : hash_t) (mem : List Bool) (k : clave_t)
    (v : Nat) (h0 : h.capacidad ≠ 0) (hfull : h.capacidad ≤ h.cantidad) :
    hash_guardar (n + 1) h (false :: mem) k v = some ⟨false, h, mem, []⟩ := by
  have hq : FACTOR_CARGA_MAX_DECIMAS < 10 * (h.cantidad / h.capacidad) := by
    have := (Nat.one_le_div_iff (Nat.pos_of_ne_zero h0)).mpr hfull
    show 7 < 10 * (h.cantidad / h.capacidad)
    omega
  simp [hash_guardar, hash_guardar_con, factor_de_carga, h0, hq, hash_redimensionar_con, asignar]

/-- When the copy of the key fails, `hash_guardar` of a new key on a table
that is not full still returns true and raises `cantidad`, and writes no
slot. -/
theorem hash_guardar_strdup_falla (n : Nat) (h : hash_t) (mem : List Bool) (k : clave_t)
    (v p : Nat) (hlt : h.cantidad < h.capacidad) (hp : posicion_clave h k = some (p, false)) :
    hash_guardar n h (false :: mem) k v =
      some ⟨true, { h with cantidad := (h.cantidad + 1) % SIZE_MOD }, mem, []⟩ := by
  rw [hash_guardar_sin_redim n h _ k v hlt, hp]
  simp [guardar, asignar]



/-- The fresh table with a destructor, after `hash_guardar("d", 1)`. -/
theorem tabla_d_destructor_alcanzable : Alcanzable { tabla_d with destruir_dato := true } :=
  Alcanzable.guardar (tabla_inicial true) 0 [100] 1
    ⟨true, { tabla_d with destruir_dato := true }, [], []⟩
    (Alcanzable.crear true _ (hash_crear_eq true)) rfl
    (by show 29 * 5 * 24 < 18446744073709551616; decide)




/-! ### Capacities of reachable tables -/

/-- Every reachable table has an odd capacity. -/
theorem Alcanzable.capacidad_impar (h : hash_t) (ha : Alcanzable h) : h.capacidad % 2 = 1 := by
  induction ha with
  | crear d h hc =>
    rw [hash_crear_eq] at hc
    cases hc
    show 29 % 2 = 1
    decide
  | guardar h n k v r ha' hr _ ih =>
    obtain ⟨hinv, hc⟩ := ha'.inv
    obtain ⟨_, hcap1, hcap2⟩ := (hash_guardar_spec h hinv (fun _ => cabe_cinco h hc) k v).1 n r hr
    rcases Nat.lt_or_ge h.cantidad h.capacidad with hlt | hfull
    · rw [hcap1 hlt]
      exact ih
    · rw [hcap2 hfull]
      show (h.capacidad * 5) % 2 = 1
      omega
  | borrar h n k r ha' hr ih =>
    obtain ⟨hinv, _⟩ := ha'.inv
    obtain ⟨hnone, hfalse, htrue⟩ := hash_borrar_spec h hinv k
    cases hp : posicion_clave h k with
    | none => rw [hnone hp n] at hr; cases hr
    | some pb =>
      obtain ⟨p, b⟩ := pb
      cases b with
      | false =>
        rw [hfalse p hp n] at hr
        cases hr
        exact ih
      | true =>
        obtain ⟨c, h', _, hb, _, hcap, _⟩ := htrue p hp
        rw [hb n] at hr
        cases hr
        show h'.capacidad % 2 = 1
        rw [hcap]
        exact ih



theorem tabla_inicial_forma (d : Bool) : Forma (tabla_inicial d) :=
  (tabla_inicial_inv d).1.toForma

theorem tabla_d_forma : Forma tabla_d := (tabla_d_alcanzable.inv).1.toForma

/-- What `hash_iter_crear` returns on a table of the right shape: the cursor
stands on the first occupied slot, or at the end when there is none. -/
theorem hash_iter_crear_spec (h : hash_t) (hf : Forma h) :
    ∃ q, q ≤ h.capacidad ∧ hash_iter_crear h [] = some (some ⟨h, q⟩) ∧
      (q < h.capacidad → ∃ c, h.tabla[q]? = some c ∧ c.estado = OCUPADO) ∧
      ∀ (i : Nat) (c : campo_t), i < q → h.tabla[i]? = some c → c.estado ≠ OCUPADO := by
  obtain ⟨q, _, hqc, hq, hocc, hskip, _⟩ :=
    iter_puede_avanzar_bucle_spec h hf h.capacidad 0 (by omega)
  refine ⟨q, hqc, ?_, hocc, fun i c hi => hskip i c (Nat.zero_le _) hi⟩
  unfold hash_iter_crear iter_puede_avanzar
  simp only [asignar, Nat.sub_zero, hq]
  by_cases hlt : q < h.capacidad
  · simp [hlt]
  · have : q = h.capacidad := by omega
    subst this
    simp



theorem Inv.tamano (h : hash_t) (hinv : Inv h) : Tamano h :=
  ⟨hinv.largo, hinv.capacidad_pos, hinv.cuenta⟩

theorem Tamano.cantidad_acotada (h : hash_t) (ht : Tamano h) : h.cantidad ≤ h.capacidad := by
  have h1 := ht.cuenta
  have h2 := n_ocupados_le h.tabla
  have h3 := ht.largo
  omega

/-- Under the size invariant a table whose count reaches its capacity has
every slot occupied. -/
theorem Tamano.todos_ocupados (h : hash_t) (ht : Tamano h) (hfull : h.capacidad ≤ h.cantidad)
    (i : Nat) (c : campo_t) (hi : h.tabla[i]? = some c) : c.estado = OCUPADO := by
  by_contra hno
  have h1 := n_ocupados_lt h.tabla i c hi hno
  have h2 := ht.cuenta
  have h3 := ht.largo
  omega




/-! ### Counting empty slots -/

theorem n_vacios_set (t : List campo_t) (i : Nat) (c0 c1 : campo_t) (hi : t[i]? = some c0) :
    n_vacios (t.set i c1) =
      n_vacios t - (if c0.estado = VACIO then 1 else 0) +
        (if c1.estado = VACIO then 1 else 0) := by
  obtain ⟨hlt, hc⟩ := List.getElem?_eq_some.mp hi
  unfold n_vacios
  rw [List.countP_set _ _ _ _ hlt, hc]
  simp only [decide_eq_true_eq]

theorem n_vacios_pos_iff (h : hash_t) : 0 < n_vacios h.tabla ↔ tiene_vacio h := by
  unfold n_vacios tiene_vacio
  rw [List.countP_pos_iff]
  constructor
  · rintro ⟨c, hc, hv⟩
    obtain ⟨i, hi, rfl⟩ := List.getElem_of_mem hc
    exact ⟨i, _, List.getElem?_eq_getElem hi, by simpa using hv⟩
  · rintro ⟨i, c, hi, hv⟩
    obtain ⟨hlt, rfl⟩ := List.getElem?_eq_some.mp hi
    exact ⟨_, List.getElem_mem hlt, by simpa using hv⟩

/-- Writing a key into an empty slot takes one from the number of empty
slots. -/
theorem n_vacios_ocupar (t : List campo_t) (p : Nat) (c0 c1 : campo_t) (hp : t[p]? = some c0)
    (hv : c0.estado = VACIO) (hc1 : c1.estado ≠ VACIO) :
    n_vacios (t.set p c1) + 1 = n_vacios t := by
  rw [n_vacios_set t p c0 c1 hp, if_pos hv, if_neg hc1]
  have : 0 < n_vacios t := by
    unfold n_vacios
    rw [List.countP_pos_iff]
    obtain ⟨hlt, rfl⟩ := List.getElem?_eq_some.mp hp
    exact ⟨_, List.getElem_mem hlt, by simpa using hv⟩
  omega

/-- Rewriting a slot that is not empty into one that is not empty keeps the
number of empty slots. -/
theorem n_vacios_conservar (t : List campo_t) (p : Nat) (c0 c1 : campo_t) (hp : t[p]? = some c0)
    (hc0 : c0.estado ≠ VACIO) (hc1 : c1.estado ≠ VACIO) :
    n_vacios (t.set p c1) = n_vacios t := by
  rw [n_vacios_set t p c0 c1 hp, if_neg hc0, if_neg hc1]
  omega

theorem vacios_mas_ocupados :
    ∀ t : List campo_t, (∀ c ∈ t, c.estado ≠ BORRADO) → n_vacios t + n_ocupados t = t.length := by
  intro t
  induction t with
  | nil => intro _; rfl
  | cons x xs ih =>
    intro hsb
    have hx := hsb x (List.mem_cons_self _ _)
    have ih' := ih (fun c hc => hsb c (List.mem_cons_of_mem _ hc))
    unfold n_vacios n_ocupados at ih' ⊢
    rw [List.countP_cons, List.countP_cons, List.length_cons]
    cases hest : x.estado with
    | VACIO => simp; omega
    | OCUPADO => simp; omega
    | BORRADO => exact absurd hest hx

/-- A table without tombstones has `capacidad - cantidad` empty slots. -/
theorem n_vacios_sin_borrados (h : hash_t) (hinv : Inv h) (hsb : sin_borrados h) :
    n_vacios h.tabla + h.cantidad = h.capacidad := by
  rw [hinv.cuenta, ← hinv.largo]
  apply vacios_mas_ocupados
  intro c hc
  obtain ⟨i, hi, rfl⟩ := List.getElem_of_mem hc
  exact hsb i _ (List.getElem?_eq_getElem hi)

/-! ### The table written by `hash_guardar` and `hash_borrar` -/

/-- Below full occupancy, the table `hash_guardar` leaves: the key written
into the empty slot where the probe ended, or the value replaced in the slot
where the key was found. -/
theorem hash_guardar_simple_tabla (h : hash_t) (hlt : h.cantidad < h.capacidad) (k : clave_t)
    (v p : Nat) (b : Bool) (hp : posicion_clave h k = some (p, b)) (n : Nat)
    (r : resultado Bool) (hr : hash_guardar n h [] k v = some r) :
    r.hash.capacidad = h.capacidad ∧
      ∃ c0, h.tabla[p]? = some c0 ∧
        (b = false → c0.estado = VACIO ∧ r.hash.tabla = h.tabla.set p ⟨some k, v, OCUPADO⟩) ∧
        (b = true → c0.estado = OCUPADO ∧ r.hash.tabla = h.tabla.set p { c0 with dato := v }) := by
  obtain ⟨c0, hc0, hvac, hocc⟩ := posicion_clave_resultado h k p b hp
  rw [hash_guardar_sin_redim n h [] k v hlt, hp] at hr
  cases b with
  | false =>
    simp only [Bool.false_eq_true, if_false, guardar, asignar, Option.some.injEq] at hr
    subst hr
    exact ⟨rfl, c0, hc0, fun _ => ⟨hvac rfl, rfl⟩, (fun hx => by cases hx)⟩
  | true =>
    simp only [if_true, hc0, Option.some.injEq] at hr
    subst hr
    exact ⟨rfl, c0, hc0, (fun hx => by cases hx), fun _ => ⟨(hocc rfl).1, rfl⟩⟩

/-- The number of empty slots after a `hash_guardar` that does not resize: one
fewer for a key that was not found, the same for one that was. -/
theorem hash_guardar_simple_vacios (h : hash_t) (hlt : h.cantidad < h.capacidad) (k : clave_t)
    (v p : Nat) (b : Bool) (hp : posicion_clave h k = some (p, b)) (n : Nat)
    (r : resultado Bool) (hr : hash_guardar n h [] k v = some r) :
    n_vacios r.hash.tabla + (if b then 0 else 1) = n_vacios h.tabla := by
  obtain ⟨_, c0, hc0, hf, ht⟩ := hash_guardar_simple_tabla h hlt k v p b hp n r hr
  cases b with
  | false =>
    obtain ⟨hv, htab⟩ := hf rfl
    rw [htab]
    simp only [Bool.false_eq_true, if_false]
    exact n_vacios_ocupar h.tabla p c0 _ hc0 hv (fun hx => by cases hx)
  | true =>
    obtain ⟨ho, htab⟩ := ht rfl
    rw [htab]
    simp only [if_true, Nat.add_zero]
    exact n_vacios_conservar h.tabla p c0 _ hc0 (by rw [ho]; exact fun hx => by cases hx)
      (by show c0.estado ≠ VACIO; rw [ho]; exact fun hx => by cases hx)

/-- The number of empty slots is the same after `hash_borrar`. -/
theorem hash_borrar_vacios (h : hash_t) (hinv : Inv h) (k : clave_t) (n : Nat)
    (r : resultado Nat) (hr : hash_borrar n h [] k = some r) :
    n_vacios r.hash.tabla = n_vacios h.tabla := by
  obtain ⟨hnone, hfalse, htrue⟩ := hash_borrar_spec h hinv k
  cases hp : posicion_clave h k with
  | none => rw [hnone hp n] at hr; cases hr
  | some pb =>
    obtain ⟨p, b⟩ := pb
    cases b with
    | false =>
      rw [hfalse p hp n] at hr
      cases hr
      rfl
    | true =>
      obtain ⟨c, h', hc, hb, htab, _⟩ := htrue p hp
      rw [hb n] at hr
      cases hr
      show n_vacios h'.tabla = n_vacios h.tabla
      rw [htab]
      obtain ⟨c2, hc2, _, hm⟩ := posicion_clave_resultado h k p true hp
      rw [hc] at hc2
      cases hc2
      exact n_vacios_conservar h.tabla p c _ hc (by rw [(hm rfl).1]; exact fun hx => by cases hx)
        (fun hx => by cases hx)

theorem posicion_clave_of_pertenece (h : hash_t) (k : clave_t) (b : Bool)
    (hk : hash_pertenece h k = some b) : ∃ p, posicion_clave h k = some (p, b) := by
  unfold hash_pertenece at hk
  cases hp : posicion_clave h k with
  | none => rw [hp] at hk; cases hk
  | some pb =>
    obtain ⟨p, b'⟩ := pb
    rw [hp] at hk
    simp only [Option.some.injEq] at hk
    subst hk
    exact ⟨p, rfl⟩



/-! ### Runs without a resize -/

/-- The capacity is the same after `hash_borrar`. -/
theorem hash_borrar_capacidad (h : hash_t) (hinv : Inv h) (k : clave_t) (n : Nat)
    (r : resultado Nat) (hr : hash_borrar n h [] k = some r) :
    r.hash.capacidad = h.capacidad := by
  obtain ⟨hnone, hfalse, htrue⟩ := hash_borrar_spec h hinv k
  cases hp : posicion_clave h k with
  | none => rw [hnone hp n] at hr; cases hr
  | some pb =>
    obtain ⟨p, b⟩ := pb
    cases b with
    | false =>
      rw [hfalse p hp n] at hr
      cases hr
      rfl
    | true =>
      obtain ⟨c, h', _, hb, _, hcap, _⟩ := htrue p hp
      rw [hb n] at hr
      cases hr
      exact hcap

/-- On a run without a resize from a reachable table, every table is
reachable with the capacity of the first, and the number of empty slots has
dropped by the number of new keys inserted. -/
theorem Sin_redimension.vacios (h0 : hash_t) (ha0 : Alcanzable h0) (g : hash_t) (m : Nat)
    (hs : Sin_redimension h0 g m) :
    Alcanzable g ∧ g.capacidad = h0.capacidad ∧ n_vacios g.tabla + m = n_vacios h0.tabla := by
  induction hs with
  | inicio => exact ⟨ha0, rfl, rfl⟩
  | guardar_nueva h m n k v r _ hk hr hcap ih =>
    obtain ⟨hah, hcaph, hvac⟩ := ih
    obtain ⟨hinv, hc⟩ := hah.inv
    have har : Alcanzable r.hash := by
      refine Alcanzable.guardar h n k v r hah hr ?_
      unfold cabe_en_memoria at hc ⊢
      rw [hcap]
      exact hc
    have hlt : h.cantidad < h.capacidad := by
      by_contra hge
      have := ((hash_guardar_spec h hinv (fun _ => cabe_cinco h hc) k v).1 n r hr).2.2
        (by omega)
      rw [hcap] at this
      have hpos := hinv.capacidad_pos
      have : h.capacidad = h.capacidad * 5 := this
      omega
    obtain ⟨p, hp⟩ := posicion_clave_of_pertenece h k false hk
    have := hash_guardar_simple_vacios h hlt k v p false hp n r hr
    simp only [Bool.false_eq_true, if_false] at this
    exact ⟨har, by rw [hcap, hcaph], by omega⟩
  | guardar_existente h m n k v r _ hk hr hcap ih =>
    obtain ⟨hah, hcaph, hvac⟩ := ih
    obtain ⟨hinv, hc⟩ := hah.inv
    have har : Alcanzable r.hash := by
      refine Alcanzable.guardar h n k v r hah hr ?_
      unfold cabe_en_memoria at hc ⊢
      rw [hcap]
      exact hc
    have hlt : h.cantidad < h.capacidad := by
      by_contra hge
      have := ((hash_guardar_spec h hinv (fun _ => cabe_cinco h hc) k v).1 n r hr).2.2
        (by omega)
      rw [hcap] at this
      have hpos := hinv.capacidad_pos
      have : h.capacidad = h.capacidad * 5 := this
      omega
    obtain ⟨p, hp⟩ := posicion_clave_of_pertenece h k true hk
    have := hash_guardar_simple_vacios h hlt k v p true hp n r hr
    simp only [if_true, Nat.add_zero] at this
    exact ⟨har, by rw [hcap, hcaph], by omega⟩
  | borrar h m n k r _ hr ih =>
    obtain ⟨hah, hcaph, hvac⟩ := ih
    obtain ⟨hinv, _⟩ := hah.inv
    have hcap : r.hash.capacidad = h.capacidad := hash_borrar_capacidad h hinv k n r hr
    exact ⟨Alcanzable.borrar h n k r hah hr, by rw [hcap, hcaph],
      by rw [hash_borrar_vacios h hinv k n r hr]; exact hvac⟩

/-- One round of `hash_guardar(k, v)` and `hash_borrar(k)` on a table that
holds no key and has an empty slot: the round returns, leaves no key, and
uses up one empty slot. -/
theorem ciclo_spec (h0 : hash_t) (ha0 : Alcanzable h0) (k : clave_t) (v : Nat) (T : hash_t)
    (m : Nat) (hs : Sin_redimension h0 T m) (hcant : T.cantidad = 0)
    (hvac : 0 < n_vacios T.tabla) :
    ∃ g, (∀ n, ciclo n k v T = some g) ∧ Sin_redimension h0 g (m + 1) ∧ g.cantidad = 0 ∧
      n_vacios g.tabla + 1 = n_vacios T.tabla := by
  obtain ⟨haT, _, hvT⟩ := hs.vacios h0 ha0 T m
  obtain ⟨hinv, hc⟩ := haT.inv
  have htv : tiene_vacio T := (n_vacios_pos_iff T).mp hvac
  have hlt : T.cantidad < T.capacidad := tiene_vacio_lt T hinv htv
  have hau : ¬ presente T k := by
    rintro ⟨w, i, c, hi, ho, _⟩
    have := n_ocupados_pos T.tabla i c hi ho
    rw [← hinv.cuenta, hcant] at this
    exact absurd this (by decide)
  obtain ⟨hper, _⟩ := hash_pertenece_ausente T hinv htv k hau
  obtain ⟨hpart, ht1, _⟩ := hash_guardar_spec T hinv (fun _ => cabe_cinco T hc) k v
  obtain ⟨r, hr⟩ := ht1 hlt (Or.inl htv)
  obtain ⟨hef, hcap1, _⟩ := hpart 0 r (hr 0)
  obtain ⟨hcant1, _⟩ := hef.nueva hau
  have hs1 : Sin_redimension h0 r.hash (m + 1) :=
    Sin_redimension.guardar_nueva T m 0 k v r hs hper (hr 0) (hcap1 hlt)
  have hasoc : asociado r.hash k v := (hef.asociados k v).mpr (Or.inl ⟨rfl, rfl⟩)
  obtain ⟨p, c, hp, _, _⟩ := (asociado_iff r.hash hef.inv k v).mp hasoc
  obtain ⟨c', g, _, hbo, _, _, _, _, hcantg, _⟩ := (hash_borrar_spec r.hash hef.inv k).2.2 p hp
  have hs2 : Sin_redimension h0 g (m + 1) :=
    Sin_redimension.borrar r.hash (m + 1) 0 k ⟨c'.dato, g, [], []⟩ hs1 (hbo 0)
  obtain ⟨_, _, hvg⟩ := hs2.vacios h0 ha0 g (m + 1)
  refine ⟨g, ?_, hs2, by omega, by omega⟩
  intro n
  simp only [ciclo, hr n, hbo n]

/-- The rounds `ciclos` on a table that holds no key and has at least `j`
empty slots: `j` rounds return, leave no key, and use up `j` empty slots. -/
theorem ciclos_spec (h0 : hash_t) (ha0 : Alcanzable h0) (k : clave_t) (v : Nat) :
    ∀ (j : Nat) (T : hash_t) (m : Nat), Sin_redimension h0 T m → T.cantidad = 0 →
      j ≤ n_vacios T.tabla →
      ∃ g, (∀ n, ciclos n k v j T = some g) ∧ Sin_redimension h0 g (m + j) ∧ g.cantidad = 0 ∧
        n_vacios g.tabla + j = n_vacios T.tabla := by
  intro j
  induction j with
  | zero =>
    intro T m hs hcant _
    exact ⟨T, fun _ => rfl, hs, hcant, rfl⟩
  | succ j ih =>
    intro T m hs hcant hj
    obtain ⟨T1, hT1, hs1, hcant1, hv1⟩ := ciclo_spec h0 ha0 k v T m hs hcant (by omega)
    obtain ⟨g, hg, hsg, hcantg, hvg⟩ := ih T1 (m + 1) hs1 hcant1 (by omega)
    refine ⟨g, ?_, ?_, hcantg, by omega⟩
    · intro n
      simp only [ciclos, hT1 n, hg n]
    · have e : m + (j + 1) = m + 1 + j := by omega
      rw [e]
      exact hsg



/-! ### The path of the probe -/

/-- The slots the probe walks over: a probe from `p` that ends on `q` has
made fewer than `n` steps forward, with wrap-around, and every slot it
visited before `q` let it pass. -/
theorem posicion_clave_bucle_camino (h : hash_t) (hf : Forma h) (k : clave_t) :
    ∀ n p q b, p < h.capacidad → posicion_clave_bucle h k n p = some (q, b) →
      ∃ j, j < n ∧ (p + j) % h.capacidad = q ∧
        ∀ j', j' < j → ∃ c, h.tabla[(p + j') % h.capacidad]? = some c ∧ deja_pasar k c := by
  intro n
  induction n with
  | zero => intro p q b _ hr; simp [posicion_clave_bucle] at hr
  | succ n ih =>
    intro p q b hp hr
    rw [posicion_clave_bucle_succ] at hr
    have hlen : p < h.tabla.length := by rw [hf.largo]; exact hp
    rw [List.getElem?_eq_getElem hlen] at hr
    simp only at hr
    by_cases hv : (h.tabla[p]).estado = VACIO
    · rw [if_pos hv] at hr
      simp only [Option.some.injEq, Prod.mk.injEq] at hr
      refine ⟨0, by omega, ?_, fun j' hj' => by omega⟩
      rw [Nat.add_zero, Nat.mod_eq_of_lt hp]
      exact hr.1
    · rw [if_neg hv] at hr
      by_cases hm : (h.tabla[p]).estado = OCUPADO ∧ (h.tabla[p]).clave = some k
      · rw [if_pos hm] at hr
        simp only [Option.some.injEq, Prod.mk.injEq] at hr
        refine ⟨0, by omega, ?_, fun j' hj' => by omega⟩
        rw [Nat.add_zero, Nat.mod_eq_of_lt hp]
        exact hr.1
      · rw [if_neg hm, siguiente_eq h hf p hp] at hr
        have hpos : 0 < h.capacidad := by omega
        obtain ⟨j, hj, hq, hpas⟩ := ih ((p + 1) % h.capacidad) q b (Nat.mod_lt _ hpos) hr
        refine ⟨j + 1, by omega, ?_, ?_⟩
        · rw [← hq, Nat.mod_add_mod, Nat.add_right_comm, Nat.add_assoc]
        · intro j' hj'
          cases j' with
          | zero =>
            refine ⟨h.tabla[p], ?_, hv, hm⟩
            rw [Nat.add_zero, Nat.mod_eq_of_lt hp, List.getElem?_eq_getElem hlen]
          | succ j' =>
            obtain ⟨c, hc, hd⟩ := hpas j' (by omega)
            refine ⟨c, ?_, hd⟩
            rw [← hc]
            congr 1
            rw [Nat.mod_add_mod, Nat.add_right_comm, Nat.add_assoc]

/-- On a table that satisfies the invariant, the scan for the key of an
occupied slot that starts at the hash of the key modulo the capacity truncated
to `unsigned int` reaches that slot before any empty slot. -/
theorem Inv.sondeo_alcanza (h : hash_t) (hinv : Inv h) (k : clave_t) (i : Nat) (c : campo_t)
    (hi : h.tabla[i]? = some c) (ho : c.estado = OCUPADO) (hk : c.clave = some k) :
    ∃ s, fhash k (h.capacidad % UINT_MOD) = some s ∧ s < h.capacidad % UINT_MOD ∧
      Hash.sondeo_alcanza h k s i := by
  obtain ⟨s, hs, hlt⟩ := fhash_lt k _ hinv.modulo
  have hlt' : s < h.capacidad := lt_of_lt_of_le hlt (Nat.mod_le _ _)
  have hp := hinv.encuentra h k i c hi ho hk
  rw [posicion_clave_eq h k s hs] at hp
  obtain ⟨j, hj, hq, hpas⟩ := posicion_clave_bucle_camino h hinv.toForma k _ s i true hlt' hp
  refine ⟨s, hs, hlt, j, hj, hq, ⟨c, hi, ho, hk⟩, ?_⟩
  intro j' hj'
  obtain ⟨c', hc', hd⟩ := hpas j' hj'
  exact ⟨c', hc', hd.1⟩

/-- A stretch of occupied slots is no longer than the number of occupied
slots. -/
theorem n_ocupados_tramo (t : List campo_t) (a b : Nat) (hb : b < t.length)
    (hall : ∀ i, a ≤ i → i ≤ b → ∀ c, t[i]? = some c → c.estado = OCUPADO) :
    b + 1 - a ≤ n_ocupados t := by
  have hsub : ((t.drop a).take (b + 1 - a)).Sublist t :=
    (List.take_sublist _ _).trans (List.drop_sublist _ _)
  have hle := hsub.countP_le (fun c => decide (c.estado = OCUPADO))
  have hlen : ((t.drop a).take (b + 1 - a)).length = b + 1 - a := by
    rw [List.length_take, List.length_drop]
    omega
  have hcount : ((t.drop a).take (b + 1 - a)).countP (fun c => decide (c.estado = OCUPADO)) =
      ((t.drop a).take (b + 1 - a)).length := by
    rw [List.countP_eq_length]
    intro c hc
    obtain ⟨n, hn, rfl⟩ := List.getElem_of_mem hc
    rw [hlen] at hn
    have hget : t[a + n]? = some (((t.drop a).take (b + 1 - a))[n]) := by
      rw [List.getElem_take, List.getElem_drop]
      exact List.getElem?_eq_getElem _
    have hoc := hall (a + n) (by omega) (by omega) _ hget
    exact decide_eq_true hoc
  unfold n_ocupados
  omega

/-- On a table without tombstones that satisfies the invariant, every
occupied slot lies less than `cantidad` slots above the largest start of a
probe. -/
theorem Inv.ocupado_bajo (h : hash_t) (hinv : Inv h) (hsb : sin_borrados h) (i : Nat)
    (c : campo_t) (hi : h.tabla[i]? = some c) (ho : c.estado = OCUPADO) :
    i < h.capacidad % UINT_MOD + h.cantidad := by
  obtain ⟨k, hk, _⟩ := hinv.sondeo i c hi ho
  obtain ⟨s, _, hlt, j, hj, hq, _, hpas⟩ := hinv.sondeo_alcanza h k i c hi ho hk
  have hicap : i < h.capacidad := by
    rw [← hinv.largo]
    exact (List.getElem?_eq_some.mp hi).1
  rcases Nat.lt_or_ge i s with hlo | hhi
  · omega
  · have hsj : s + j < h.capacidad := by
      by_contra hge
      have h1 : (s + j) % h.capacidad = s + j - h.capacidad := by
        rw [Nat.mod_eq_sub_mod (by omega), Nat.mod_eq_of_lt (by omega)]
      omega
    have hij : i = s + j := by rw [← hq, Nat.mod_eq_of_lt hsj]
    have hall : ∀ i', s ≤ i' → i' ≤ i → ∀ c', h.tabla[i']? = some c' → c'.estado = OCUPADO := by
      intro i' h1 h2 c' hc'
      rcases Nat.lt_or_ge i' i with hlt' | hge'
      · obtain ⟨c'', hc'', hne⟩ := hpas (i' - s) (by omega)
        have e : (s + (i' - s)) % h.capacidad = i' := by
          rw [Nat.mod_eq_of_lt (by omega)]
          omega
        rw [e, hc'] at hc''
        cases hc''
        have hnb := hsb i' c' hc'
        cases hest : c'.estado with
        | VACIO => exact absurd hest hne
        | OCUPADO => rfl
        | BORRADO => exact absurd hest hnb
      · have e : i' = i := by omega
        subst e
        rw [hi] at hc'
        cases hc'
        exact ho
    have := n_ocupados_tramo h.tabla s i (by rw [hinv.largo]; exact hicap) hall
    have := hinv.cuenta
    omega

/-- On a table without tombstones that satisfies the invariant, every slot
at least `cantidad` slots above the largest start of a probe is empty. -/
theorem Inv.vacio_alto (h : hash_t) (hinv : Inv h) (hsb : sin_borrados h) (i : Nat)
    (c : campo_t) (hi : h.tabla[i]? = some c) (hge : h.capacidad % UINT_MOD + h.cantidad ≤ i) :
    c.estado = VACIO := by
  cases hest : c.estado with
  | VACIO => rfl
  | OCUPADO =>
    have := hinv.ocupado_bajo h hsb i c hi hest
    omega
  | BORRADO => exact absurd hest (hsb i c hi)



/-! ### Growing by insertions -/

/-- The call `hash_guardar` of a key that is not in the table, on a table
without tombstones: it returns, raises the count by one and leaves no
tombstone; the capacity is unchanged on a table that is not full and five
times as large on a full one. -/
theorem hash_guardar_nueva (T : hash_t) (hinv : Inv T) (hsb : sin_borrados T)
    (h5 : T.capacidad ≤ T.cantidad → T.capacidad * CAPACIDAD_MAYOR * sizeof_campo_t < SIZE_MOD)
    (k : clave_t) (v : Nat) (hausente : ¬ presente T k) :
    ∃ r, (∀ n, hash_guardar (n + 1) T [] k v = some r) ∧ efecto_guardar T k v r ∧
      sin_borrados r.hash ∧ r.hash.cantidad = T.cantidad + 1 ∧
      (T.cantidad < T.capacidad → r.hash.capacidad = T.capacidad) ∧
      (T.capacidad ≤ T.cantidad → r.hash.capacidad = T.capacidad * CAPACIDAD_MAYOR) := by
  obtain ⟨hpart, hterm1, hterm2⟩ := hash_guardar_spec T hinv h5 k v
  have hret : ∃ r, ∀ n, hash_guardar (n + 1) T [] k v = some r := by
    rcases Nat.lt_or_ge T.cantidad T.capacidad with hlt | hfull
    · obtain ⟨r, hr⟩ := hterm1 hlt (Or.inl (tiene_vacio_of_lt T hinv hsb hlt))
      exact ⟨r, fun n => hr (n + 1)⟩
    · exact hterm2 hfull
  obtain ⟨r, hr⟩ := hret
  obtain ⟨hef, hcap1, hcap2⟩ := hpart 1 r (hr 0)
  obtain ⟨hcant, _⟩ := hef.nueva hausente
  refine ⟨r, hr, hef, ?_, hcant, hcap1, hcap2⟩
  rcases Nat.lt_or_ge T.cantidad T.capacidad with hlt | hfull
  · obtain ⟨⟨p, b⟩, hp⟩ := posicion_clave_termina T hinv.toForma hinv.modulo
      (tiene_vacio_of_lt T hinv hsb hlt) k
    obtain ⟨r', hr', _, _, hsbr⟩ := hash_guardar_simple T hinv hlt k v p b hp
    have : r' = r := by
      have := hr' 1
      rw [hr 0] at this
      cases this
      rfl
    subst this
    exact hsbr hsb
  · obtain ⟨T2, hinv2, hsb2, _, _, _, _, hlt2, hT2⟩ :=
      hash_guardar_lleno T hinv hfull (h5 hfull)
    obtain ⟨⟨p, b⟩, hp⟩ := posicion_clave_termina T2 hinv2.toForma hinv2.modulo
      (tiene_vacio_of_lt T2 hinv2 hsb2 hlt2) k
    obtain ⟨r', hr', _, _, hsbr⟩ := hash_guardar_simple T2 hinv2 hlt2 k v p b hp
    have : r' = r := by
      have := hr' 0
      rw [← hT2 0 k v, hr 0] at this
      cases this
      rfl
    subst this
    exact hsbr hsb2

/-- The fresh table is on the first step of the capacities. -/
theorem tabla_inicial_escalon (d : Bool) : Escalon (tabla_inicial d) :=
  ⟨0, rfl, Or.inl rfl⟩

/-- A table on a step of the capacities has a capacity of at most 29 or less
than five times its count. -/
theorem Escalon.cota (h : hash_t) (he : Escalon h) :
    h.capacidad ≤ 29 ∨ h.capacidad < 5 * h.cantidad := by
  obtain ⟨j, hcap, hj⟩ := he
  cases j with
  | zero =>
    left
    rw [hcap]
    decide
  | succ j =>
    right
    rcases hj with hj | hj
    · cases hj
    · have e : CAPACIDAD_INICIAL * CAPACIDAD_MAYOR ^ (j + 1) =
          5 * (CAPACIDAD_INICIAL * CAPACIDAD_MAYOR ^ j) := by
        rw [pow_succ]
        show 29 * (5 ^ j * 5) = 5 * (29 * 5 ^ j)
        ring
      rw [hcap, e]
      simp only [Nat.add_sub_cancel] at hj
      omega

/-- Inserting pairs with pairwise different keys, none in the table, into a
reachable table without tombstones that is on a step of the capacities, every
table on the way keeping room to grow: every call returns true, and the table
reached is reachable, has no tombstone, is on a step of the capacities, and
holds the associations it had plus the pairs. -/
theorem guardar_todas_crece :
    ∀ (kvs : List (clave_t × Nat)) (T : hash_t), Alcanzable T → sin_borrados T → Escalon T →
      (kvs.map Prod.fst).Nodup → (∀ kv ∈ kvs, ¬ presente T kv.1) →
      (T.cantidad + kvs.length) * 600 < SIZE_MOD →
      ∃ T', (∀ n, guardar_todas (n + 1) kvs T = some (T', true)) ∧ Alcanzable T' ∧
        sin_borrados T' ∧ Escalon T' ∧ T'.cantidad = T.cantidad + kvs.length ∧
        ∀ k v, asociado T' k v ↔ asociado T k v ∨ (k, v) ∈ kvs := by
  intro kvs
  induction kvs with
  | nil =>
    intro T ha hsb he _ _ _
    exact ⟨T, fun _ => rfl, ha, hsb, he, rfl, by simp⟩
  | cons kv resto ih =>
    intro T ha hsb he hnd hau hbound
    obtain ⟨k, v⟩ := kv
    simp only [List.map_cons, List.nodup_cons, List.mem_map, not_exists, not_and] at hnd
    obtain ⟨hk_resto, hnd_resto⟩ := hnd
    simp only [List.length_cons] at hbound
    have hbound' : (T.cantidad + (resto.length + 1)) * 600 < 18446744073709551616 := hbound
    obtain ⟨hinv, hc⟩ := ha.inv
    have hausente : ¬ presente T k := hau (k, v) (List.mem_cons_self _ _)
    have hle := hinv.cantidad_le
    obtain ⟨r, hr, hef, hsb', hcant, hcap1, hcap2⟩ :=
      hash_guardar_nueva T hinv hsb (fun _ => cabe_cinco T hc) k v hausente
    have hcota := he.cota
    have hcabe : cabe_en_memoria r.hash := by
      show r.hash.capacidad * 5 * 24 < 18446744073709551616
      rcases Nat.lt_or_ge T.cantidad T.capacidad with hlt | hfull
      · rw [hcap1 hlt]
        omega
      · rw [hcap2 hfull]
        show T.capacidad * 5 * 5 * 24 < 18446744073709551616
        omega
    have ha' : Alcanzable r.hash := Alcanzable.guardar T 1 k v r ha (hr 0) hcabe
    have he' : Escalon r.hash := by
      obtain ⟨j, hcapj, hj⟩ := he
      rcases Nat.lt_or_ge T.cantidad T.capacidad with hlt | hfull
      · refine ⟨j, by rw [hcap1 hlt, hcapj], ?_⟩
        rcases hj with hj | hj
        · exact Or.inl hj
        · right
          rw [hcant]
          omega
      · refine ⟨j + 1, ?_, Or.inr ?_⟩
        · rw [hcap2 hfull, hcapj, pow_succ, Nat.mul_assoc]
        · rw [Nat.add_sub_cancel, ← hcapj, hcant]
          omega
    have hau' : ∀ kv ∈ resto, ¬ presente r.hash kv.1 := by
      rintro ⟨k', v'⟩ hmem ⟨w, hw⟩
      rcases (hef.asociados k' w).mp hw with ⟨rfl, _⟩ | ⟨_, hw'⟩
      · exact hk_resto (k', v') hmem rfl
      · exact hau (k', v') (List.mem_cons_of_mem _ hmem) ⟨w, hw'⟩
    obtain ⟨T', hT', haT, hsbT, heT, hcantT, hasocT⟩ :=
      ih r.hash ha' hsb' he' hnd_resto hau' (by
        rw [hcant]
        show (T.cantidad + 1 + resto.length) * 600 < 18446744073709551616
        omega)
    refine ⟨T', ?_, haT, hsbT, heT, by rw [hcantT, hcant, List.length_cons]; omega, ?_⟩
    · intro n
      simp only [guardar_todas, hr n, hT' n, hef.ret, Bool.and_self]
    · intro k' v'
      rw [hasocT, hef.asociados, List.mem_cons]
      constructor
      · rintro ((⟨rfl, rfl⟩ | ⟨_, hw⟩) | hmem)
        · exact Or.inr (Or.inl rfl)
        · exact Or.inl hw
        · exact Or.inr (Or.inr hmem)
      · rintro (hw | heq | hmem)
        · refine Or.inl (Or.inr ⟨?_, hw⟩)
          rintro rfl
          exact hausente ⟨v', hw⟩
        · cases heq
          exact Or.inl (Or.inl ⟨rfl, rfl⟩)
        · exact Or.inr hmem

/-- A table on a step of the capacities that holds `29 * 5 ^ 11 + 1` keys
has capacity `29 * 5 ^ 12`. -/
theorem Escalon.capacidad_grande (h : hash_t) (he : Escalon h) (hle : h.cantidad ≤ h.capacidad)
    (hcant : h.cantidad = 1416015626) : h.capacidad = 7080078125 := by
  obtain ⟨j, hcap, hj⟩ := he
  have h11 : CAPACIDAD_INICIAL * CAPACIDAD_MAYOR ^ 11 = 1416015625 := by decide
  have h12 : CAPACIDAD_INICIAL * CAPACIDAD_MAYOR ^ 12 = 7080078125 := by decide
  rcases Nat.lt_trichotomy j 12 with hlt | heq | hgt
  · have hp : CAPACIDAD_MAYOR ^ j ≤ CAPACIDAD_MAYOR ^ 11 :=
      Nat.pow_le_pow_right (by decide) (by omega)
    have := Nat.mul_le_mul_left CAPACIDAD_INICIAL hp
    omega
  · rw [hcap, heq, h12]
  · rcases hj with hj | hj
    · omega
    · have hp : CAPACIDAD_MAYOR ^ 12 ≤ CAPACIDAD_MAYOR ^ (j - 1) :=
        Nat.pow_le_pow_right (by decide) (by omega)
      have := Nat.mul_le_mul_left CAPACIDAD_INICIAL hp
      omega

theorem claves_numeradas_length (n : Nat) : (claves_numeradas n).length = n := by
  unfold claves_numeradas
  rw [List.length_map, List.length_range]

theorem claves_numeradas_nodup (n : Nat) : ((claves_numeradas n).map Prod.fst).Nodup := by
  unfold claves_numeradas
  rw [List.map_map]
  exact (List.nodup_range _).map clave_de_inyectiva

/-- The key "n" is the key number 109. -/
theorem claves_numeradas_n (n : Nat) (hn : 109 < n) : (([110] : clave_t), 0) ∈ claves_numeradas n := by
  unfold claves_numeradas
  rw [List.mem_map]
  refine ⟨109, List.mem_range.mpr hn, ?_⟩
  unfold clave_de
  rw [Nat.digits_of_lt 255 109 (by decide) (by decide)]
  rfl


/-! ### Inserts that return -/

/-- At full occupancy, when the size of an array of five times the capacity
wraps, `hash_guardar` gives no result: the array it gets is too small and
`inicializar_tabla` writes past its end. -/
theorem hash_guardar_desborda (h : hash_t) (hpos : 0 < h.capacidad)
    (hfull : h.capacidad ≤ h.cantidad) (h5 : h.capacidad * CAPACIDAD_MAYOR < SIZE_MOD)
    (hw : SIZE_MOD ≤ h.capacidad * CAPACIDAD_MAYOR * sizeof_campo_t) (n : Nat) (k : clave_t)
    (v : Nat) : hash_guardar n h [] k v = none := by
  cases n with
  | zero => exact hash_guardar_cero_lleno h [] k v hfull
  | succ n =>
    have h0 : h.capacidad ≠ 0 := by omega
    have hq : FACTOR_CARGA_MAX_DECIMAS < 10 * (h.cantidad / h.capacidad) := by
      have := (Nat.one_le_div_iff hpos).mpr hfull
      show 7 < 10 * (h.cantidad / h.capacidad)
      omega
    have hd := malloc_desborda (h.capacidad * CAPACIDAD_MAYOR) hw
    simp only [hash_guardar, hash_guardar_con, factor_de_carga, h0, if_false, hq, if_true,
      Nat.mod_eq_of_lt h5, hash_redimensionar_con, asignar, hd]
    rfl

/-- A call `hash_guardar` that returns, on a table that satisfies the
invariant and whose own array has a size below `2 ^ 64`: it has the effect of
a successful insert, and the array of the table it leaves has a size below
`2 ^ 64` too. -/
theorem hash_guardar_parcial (h : hash_t) (hinv : Inv h)
    (hfit : h.capacidad * sizeof_campo_t < SIZE_MOD) (k : clave_t) (v : Nat) (n : Nat)
    (r : resultado Bool) (hr : hash_guardar n h [] k v = some r) :
    efecto_guardar h k v r ∧ r.hash.capacidad * sizeof_campo_t < SIZE_MOD := by
  have hfit' : h.capacidad * 24 < 18446744073709551616 := hfit
  have h5c : h.capacidad * CAPACIDAD_MAYOR < SIZE_MOD := by
    show h.capacidad * 5 < 18446744073709551616
    omega
  have h5 : h.capacidad ≤ h.cantidad →
      h.capacidad * CAPACIDAD_MAYOR * sizeof_campo_t < SIZE_MOD := by
    intro hfull
    by_contra hno
    rw [hash_guardar_desborda h hinv.capacidad_pos hfull h5c (Nat.le_of_not_lt hno) n k v] at hr
    cases hr
  obtain ⟨hef, hcap1, hcap2⟩ := (hash_guardar_spec h hinv h5 k v).1 n r hr
  refine ⟨hef, ?_⟩
  rcases Nat.lt_or_ge h.cantidad h.capacidad with hlt | hfull
  · rw [hcap1 hlt]
    exact hfit
  · rw [hcap2 hfull]
    exact h5 hfull

/-- Calls `hash_guardar` of pairs with pairwise different keys, none in the
table, that all return: every call has returned true, the count has grown by
the number of pairs, and the table holds the associations it had plus the
pairs. -/
theorem guardar_todas_parcial :
    ∀ (kvs : List (clave_t × Nat)) (T : hash_t), Inv T →
      T.capacidad * sizeof_campo_t < SIZE_MOD →
      (kvs.map Prod.fst).Nodup → (∀ kv ∈ kvs, ¬ presente T kv.1) →
      ∀ n T' ok, guardar_todas n kvs T = some (T', ok) →
        ok = true ∧ Inv T' ∧ T'.cantidad = T.cantidad + kvs.length ∧
        ∀ k v, asociado T' k v ↔ asociado T k v ∨ (k, v) ∈ kvs := by
  intro kvs
  induction kvs with
  | nil =>
    intro T hinv _ _ _ n T' ok hr
    simp only [guardar_todas, Option.some.injEq, Prod.mk.injEq] at hr
    obtain ⟨rfl, rfl⟩ := hr
    exact ⟨rfl, hinv, rfl, by simp⟩
  | cons kv resto ih =>
    intro T hinv hfit hnd hau n T' ok hr
    obtain ⟨k, v⟩ := kv
    simp only [List.map_cons, List.nodup_cons, List.mem_map, not_exists, not_and] at hnd
    obtain ⟨hk_resto, hnd_resto⟩ := hnd
    have hausente : ¬ presente T k := hau (k, v) (List.mem_cons_self _ _)
    simp only [guardar_todas] at hr
    cases hg : hash_guardar n T [] k v with
    | none => rw [hg] at hr; cases hr
    | some r =>
      rw [hg] at hr
      simp only at hr
      cases hrest : guardar_todas n resto r.hash with
      | none => rw [hrest] at hr; cases hr
      | some p =>
        obtain ⟨T2, ok2⟩ := p
        rw [hrest] at hr
        simp only [Option.some.injEq, Prod.mk.injEq] at hr
        obtain ⟨rfl, rfl⟩ := hr
        obtain ⟨hef, hfit2⟩ := hash_guardar_parcial T hinv hfit k v n r hg
        obtain ⟨hcant, _⟩ := hef.nueva hausente
        have hau' : ∀ kv ∈ resto, ¬ presente r.hash kv.1 := by
          rintro ⟨k', v'⟩ hmem ⟨w, hw⟩
          rcases (hef.asociados k' w).mp hw with ⟨rfl, _⟩ | ⟨_, hw'⟩
          · exact hk_resto (k', v') hmem rfl
          · exact hau (k', v') (List.mem_cons_of_mem _ hmem) ⟨w, hw'⟩
        obtain ⟨hok, hinv', hcantT, hasocT⟩ :=
          ih r.hash hef.inv hfit2 hnd_resto hau' n T2 ok2 hrest
        refine ⟨by rw [hef.ret, hok]; rfl, hinv',
          by rw [hcantT, hcant, List.length_cons]; omega, ?_⟩
        intro k' v'
        rw [hasocT, hef.asociados, List.mem_cons]
        constructor
        · rintro ((⟨rfl, rfl⟩ | ⟨_, hw⟩) | hmem)
          · exact Or.inr (Or.inl rfl)
          · exact Or.inl hw
          · exact Or.inr (Or.inr hmem)
        · rintro (hw | heq | hmem)
          · refine Or.inl (Or.inr ⟨?_, hw⟩)
            rintro rfl
            exact hausente ⟨v', hw⟩
          · cases heq
            exact Or.inl (Or.inl ⟨rfl, rfl⟩)
          · exact Or.inr hmem

/-! ## The claims -/

/-- C1: on every reachable table (allocations succeeding), a call
`hash_guardar k v` that returns has returned true and `hash_obtener k` called
right after returns `v`, whether `k` was new or present and whether or not the
call resized; and the call does return when the table has an empty slot, and
when every slot is occupied (it then grows first). -/
theorem C1_guardar_luego_obtener (h : hash_t) (ha : Alcanzable h) (k : clave_t) (v : Nat) :
    (∀ n r, hash_guardar n h [] k v = some r →
      r.ret = true ∧ hash_obtener r.hash k = some v) ∧
    (tiene_vacio h → ∃ r, ∀ n, hash_guardar n h [] k v = some r) ∧
    ((∀ (i : Nat) (c : campo_t), h.tabla[i]? = some c → c.estado = OCUPADO) →
      ∃ r, ∀ n, hash_guardar (n + 1) h [] k v = some r) := by
  obtain ⟨hinv, hc⟩ := ha.inv
  obtain ⟨hpart, ht1, ht2⟩ := hash_guardar_spec h hinv (fun _ => cabe_cinco h hc) k v
  refine ⟨?_, ?_, ?_⟩
  · intro n r hr
    obtain ⟨hef, _, _⟩ := hpart n r hr
    exact ⟨hef.ret, hash_obtener_asociado r.hash hef.inv k v
      ((hef.asociados k v).mpr (Or.inl ⟨rfl, rfl⟩))⟩
  · intro hv
    exact ht1 (tiene_vacio_lt h hinv hv) (Or.inl hv)
  · intro hall
    exact ht2 (todos_ocupados_lleno h hinv hall)

/-- The fresh table is reachable and has an empty slot; there the claim gives
a call that returns true and a lookup that returns the value stored. -/
theorem C1_guardar_luego_obtener_witness :
    Alcanzable (tabla_inicial false) ∧
      ∃ r, hash_guardar 0 (tabla_inicial false) [] [97] 1 = some r ∧ r.ret = true ∧
        hash_obtener r.hash [97] = some 1 :=
  have ha : Alcanzable (tabla_inicial false) := Alcanzable.crear false _ (hash_crear_eq false)
  have hc := C1_guardar_luego_obtener (tabla_inicial false) ha [97] 1
  ⟨ha, (hc.2.1 (tabla_inicial_vacio false)).elim
    (fun r hr => ⟨r, hr 0, hc.1 0 r (hr 0)⟩)⟩

/-- C2: on every reachable table, for a key `b` present with value `w` and a
different key `a`, after a `hash_borrar a` or a `hash_guardar a v` that
returns (growing the table or not) `b` is still present and `hash_obtener b`
still returns `w`; the slot where `a` was found is then a tombstone, which
the probe for `b` walks over. -/
theorem C2_otras_claves_intactas (h : hash_t) (ha : Alcanzable h) (a b : clave_t) (hab : a ≠ b)
    (w : Nat) (hb : hash_pertenece h b = some true) (hw : hash_obtener h b = some w) (v : Nat) :
    (∀ n r, hash_borrar n h [] a = some r →
      hash_pertenece r.hash b = some true ∧ hash_obtener r.hash b = some w ∧
      ∀ p, posicion_clave h a = some (p, true) →
        ∃ c, r.hash.tabla[p]? = some c ∧ c.estado = BORRADO) ∧
    (∀ n r, hash_guardar n h [] a v = some r →
      hash_pertenece r.hash b = some true ∧ hash_obtener r.hash b = some w) := by
  obtain ⟨hinv, hc⟩ := ha.inv
  have hasoc := asociado_of_lookup h b w hb hw
  refine ⟨?_, ?_⟩
  · intro n r hr
    obtain ⟨hnone, hfalse, htrue⟩ := hash_borrar_spec h hinv a
    cases hp : posicion_clave h a with
    | none => rw [hnone hp n] at hr; cases hr
    | some pb =>
      obtain ⟨p, e⟩ := pb
      cases e with
      | false =>
        rw [hfalse p hp n] at hr
        cases hr
        exact ⟨hb, hw, fun q hq => by cases hq⟩
      | true =>
        obtain ⟨c, h', hcp, hbo, htab, _, _, hinv', _, _, hasoc', _⟩ := htrue p hp
        rw [hbo n] at hr
        cases hr
        have hb' : asociado h' b w := (hasoc' b w).mpr ⟨fun e => hab e.symm, hasoc⟩
        refine ⟨hash_pertenece_asociado h' hinv' b w hb', hash_obtener_asociado h' hinv' b w hb',
          ?_⟩
        intro q hq
        cases hq
        have hlt : p < h.tabla.length := (List.getElem?_eq_some.mp hcp).1
        exact ⟨_, by rw [htab, List.getElem?_set_self hlt], rfl⟩
  · intro n r hr
    obtain ⟨hef, _, _⟩ :=
      (hash_guardar_spec h hinv (fun _ => cabe_cinco h hc) a v).1 n r hr
    have hb' : asociado r.hash b w :=
      (hef.asociados b w).mpr (Or.inr ⟨fun e => hab e.symm, hasoc⟩)
    exact ⟨hash_pertenece_asociado r.hash hef.inv b w hb',
      hash_obtener_asociado r.hash hef.inv b w hb'⟩

/-- The keys "d" and "j" collide on the fresh table, "j" being stored right
after "d"; after `hash_borrar("d")` the slot of "d" is a tombstone and "j" is
still found with its value. -/
theorem C2_otras_claves_intactas_witness :
    Alcanzable tabla_dj ∧ fhash [100] 29 = fhash [106] 29 ∧
      ∃ r, hash_borrar 0 tabla_dj [] [100] = some r ∧
        hash_pertenece r.hash [106] = some true ∧ hash_obtener r.hash [106] = some 2 ∧
        ∃ c, r.hash.tabla[12]? = some c ∧ c.estado = BORRADO :=
  have hc := C2_otras_claves_intactas tabla_dj tabla_dj_alcanzable [100] [106] (by decide) 2
    (by rfl) (by rfl) 0
  ⟨tabla_dj_alcanzable, by rfl,
    ⟨1, { tabla_dj with
          tabla := tabla_dj.tabla.set 12 ⟨some [100], NULL, BORRADO⟩, cantidad := 1 }, [], []⟩,
    by rfl,
    (hc.1 0 _ (by rfl)).1, (hc.1 0 _ (by rfl)).2.1, (hc.1 0 _ (by rfl)).2.2 12 (by rfl)⟩

/-- C3: on every reachable table that has an empty slot, `hash_borrar k`
returns, and afterwards `hash_obtener k` returns `NULL` and `hash_pertenece k`
false; `hash_cantidad` has dropped by exactly one if `k` was present, and the
whole table is unchanged (so is `hash_cantidad`) if it was not. -/
theorem C3_borrar_luego_ausente (h : hash_t) (ha : Alcanzable h) (hv : tiene_vacio h)
    (k : clave_t) :
    ∃ r, (∀ n, hash_borrar n h [] k = some r) ∧
      hash_obtener r.hash k = some NULL ∧ hash_pertenece r.hash k = some false ∧
      (hash_pertenece h k = some true → hash_cantidad r.hash + 1 = hash_cantidad h) ∧
      (hash_pertenece h k = some false →
        r.hash = h ∧ hash_cantidad r.hash = hash_cantidad h) := by
  obtain ⟨hinv, _⟩ := ha.inv
  obtain ⟨_, hfalse, htrue⟩ := hash_borrar_spec h hinv k
  obtain ⟨⟨p, b⟩, hp⟩ := posicion_clave_termina h hinv.toForma hinv.modulo hv k
  cases b with
  | false =>
    refine ⟨⟨NULL, h, [], []⟩, hfalse p hp, ?_, ?_, ?_, fun _ => ⟨rfl, rfl⟩⟩
    · simp [hash_obtener, hp]
    · simp [hash_pertenece, hp]
    · intro hx
      simp [hash_pertenece, hp] at hx
  | true =>
    obtain ⟨c, h', hcp, hbo, htab, _, _, hinv', hcant, _, hasoc', _⟩ := htrue p hp
    have hausente : ¬ presente h' k := by
      rintro ⟨w, hw⟩
      exact ((hasoc' k w).mp hw).1 rfl
    have hv' : tiene_vacio h' := by
      obtain ⟨i, ci, hi, hci⟩ := hv
      refine ⟨i, ci, ?_, hci⟩
      rw [htab, List.getElem?_set_ne, hi]
      rintro rfl
      rw [hcp] at hi
      cases hi
      obtain ⟨c', hc', _, hm⟩ := posicion_clave_resultado h k p true hp
      rw [hcp] at hc'
      cases hc'
      rw [(hm rfl).1] at hci
      cases hci
    obtain ⟨hper, hobt⟩ := hash_pertenece_ausente h' hinv' hv' k hausente
    refine ⟨⟨c.dato, h', [], []⟩, hbo, hobt, hper, fun _ => hcant, ?_⟩
    intro hx
    simp [hash_pertenece, hp] at hx

/-- On the table that holds "d" and "j", `hash_borrar("d")` takes the count
from 2 to 1 and "d" is then absent. -/
theorem C3_borrar_luego_ausente_witness :
    Alcanzable tabla_dj ∧ tiene_vacio tabla_dj ∧
      ∃ r, hash_borrar 0 tabla_dj [] [100] = some r ∧ hash_obtener r.hash [100] = some NULL ∧
        hash_pertenece r.hash [100] = some false ∧ hash_cantidad r.hash + 1 = 2 :=
  have hv : tiene_vacio tabla_dj := ⟨0, ⟨none, NULL, VACIO⟩, rfl, rfl⟩
  (C3_borrar_luego_ausente tabla_dj tabla_dj_alcanzable hv [100]).elim
    (fun r hr => ⟨tabla_dj_alcanzable, hv, r, hr.1 0, hr.2.1, hr.2.2.1, hr.2.2.2.1 (by rfl)⟩)

/-- C4: on every reachable table in which `k` is present with value `w`,
`hash_guardar k v` returns true, leaves `hash_cantidad` unchanged and exactly
one occupied slot holding `k`, makes `hash_obtener k` return `v`, and calls
the destructor exactly once, on `w`, when one is configured, and not at all
when none is. -/
theorem C4_sobrescribir (h : hash_t) (ha : Alcanzable h) (k : clave_t) (w : Nat)
    (hk : hash_pertenece h k = some true) (hw : hash_obtener h k = some w) (v : Nat) :
    ∃ r, (∀ n, hash_guardar (n + 1) h [] k v = some r) ∧ r.ret = true ∧
      hash_cantidad r.hash = hash_cantidad h ∧
      r.hash.tabla.countP (fun c => decide (c.estado = OCUPADO ∧ c.clave = some k)) = 1 ∧
      hash_obtener r.hash k = some v ∧
      r.destruidos = if h.destruir_dato then [w] else [] := by
  obtain ⟨hinv, hc⟩ := ha.inv
  have hasoc := asociado_of_lookup h k w hk hw
  obtain ⟨hpart, ht1, ht2⟩ := hash_guardar_spec h hinv (fun _ => cabe_cinco h hc) k v
  have hret : ∃ r, ∀ n, hash_guardar (n + 1) h [] k v = some r := by
    rcases Nat.lt_or_ge h.cantidad h.capacidad with hlt | hfull
    · obtain ⟨r, hr⟩ := ht1 hlt (Or.inr ⟨w, hasoc⟩)
      exact ⟨r, fun n => hr (n + 1)⟩
    · exact ht2 hfull
  obtain ⟨r, hr⟩ := hret
  obtain ⟨hef, _, _⟩ := hpart 1 r (hr 0)
  have hnew : asociado r.hash k v := (hef.asociados k v).mpr (Or.inl ⟨rfl, rfl⟩)
  obtain ⟨hcant, hds⟩ := hef.existente w hasoc
  exact ⟨r, hr, hef.ret, hcant, hef.inv.una_sola r.hash k ⟨v, hnew⟩,
    hash_obtener_asociado r.hash hef.inv k v hnew, hds⟩

/-- On the table that holds "d" with value 1, `hash_guardar("d", 9)` keeps
the count at 1 and makes the lookup return 9. -/
theorem C4_sobrescribir_witness :
    Alcanzable tabla_d ∧ hash_pertenece tabla_d [100] = some true ∧
      hash_obtener tabla_d [100] = some 1 ∧
      ∃ r, hash_guardar 1 tabla_d [] [100] 9 = some r ∧ r.ret = true ∧
        hash_cantidad r.hash = 1 ∧ hash_obtener r.hash [100] = some 9 ∧ r.destruidos = [] :=
  (C4_sobrescribir tabla_d tabla_d_alcanzable [100] 1 (by rfl) (by rfl) 9).elim
    (fun r hr => ⟨tabla_d_alcanzable, by rfl, by rfl, r, hr.1 0, hr.2.1, hr.2.2.1, hr.2.2.2.2.1,
      hr.2.2.2.2.2⟩)



/-- C5: for every list of `N` pairs with pairwise different keys inserted with
`hash_guardar` into a fresh table (growing it as often as needed): whenever
the `N` inserts return, every one of them has returned true, `hash_cantidad`
is `N`, walking a new iterator to its end reads exactly `N` keys, the
inserted keys each once in some order, and `hash_obtener` of each returns the
value it was inserted with; and the `N` inserts do return, all allocations
succeeding, when no array size asked of `malloc` on the way can wrap, an
array of five times `N` slots taking at most `2 ^ 64` bytes. -/
theorem C5_ida_y_vuelta (kvs : List (clave_t × Nat)) (hnd : (kvs.map Prod.fst).Nodup)
    (d : Bool) :
    (∀ n h ok, guardar_todas n kvs (tabla_inicial d) = some (h, ok) →
      ok = true ∧ hash_cantidad h = kvs.length ∧
      (∃ ks, recorrer h = some ks ∧ ks.length = kvs.length ∧
        ks.Perm (kvs.map (fun kv => some kv.1))) ∧
      ∀ kv ∈ kvs, hash_obtener h kv.1 = some kv.2) ∧
    (kvs.length * CAPACIDAD_MAYOR * sizeof_campo_t ≤ SIZE_MOD →
      ∃ h, ∀ n, guardar_todas (n + 1) kvs (tabla_inicial d) = some (h, true)) := by
  obtain ⟨hinv0, hsb0, hau0, _, hcant0, _⟩ := tabla_inicial_inv d
  refine ⟨?_, ?_⟩
  · intro n T ok hr
    obtain ⟨hok, hinv, hcant, hasoc⟩ :=
      guardar_todas_parcial kvs (tabla_inicial d) hinv0
        (by show 29 * 24 < 18446744073709551616; decide) hnd (fun kv _ => hau0 kv.1) n T ok hr
    have hasoc' : ∀ k v, asociado T k v ↔ (k, v) ∈ kvs := by
      intro k v
      rw [hasoc]
      constructor
      · rintro (hw | hmem)
        · exact absurd ⟨v, hw⟩ (hau0 k)
        · exact hmem
      · exact Or.inr
    have hperm := claves_ocupadas_perm T hinv kvs hnd hasoc'
    refine ⟨hok, by rw [hash_cantidad, hcant, hcant0, Nat.zero_add],
      ⟨claves_ocupadas T.tabla, recorrer_eq T hinv.toForma, ?_, hperm⟩, ?_⟩
    · rw [hperm.length_eq, List.length_map]
    · rintro ⟨k, v⟩ hmem
      exact hash_obtener_asociado T hinv k v ((hasoc' k v).mpr hmem)
  · intro hN
    obtain ⟨T, hT, _⟩ :=
      guardar_todas_spec kvs (tabla_inicial d) hinv0 hsb0 hnd (fun kv _ => hau0 kv.1)
        (by rw [hcant0, Nat.zero_add]; exact hN)
    exact ⟨T, hT⟩

/-- Thirty keys, one more than the initial capacity, so that the table grows:
all inserts return true, the count is 30 and the walk reads 30 keys. -/
theorem C5_ida_y_vuelta_witness :
    ((claves_de_prueba 30).map Prod.fst).Nodup ∧
      (claves_de_prueba 30).length * CAPACIDAD_MAYOR * sizeof_campo_t ≤ SIZE_MOD ∧
      ∃ h, guardar_todas 1 (claves_de_prueba 30) (tabla_inicial false) = some (h, true) ∧
        hash_cantidad h = (claves_de_prueba 30).length ∧
        (∃ ks, recorrer h = some ks ∧ ks.length = (claves_de_prueba 30).length ∧
          ks.Perm ((claves_de_prueba 30).map (fun kv => some kv.1))) ∧
        ∀ kv ∈ claves_de_prueba 30, hash_obtener h kv.1 = some kv.2 :=
  have hlen : (claves_de_prueba 30).length * CAPACIDAD_MAYOR * sizeof_campo_t ≤ SIZE_MOD := by
    rw [claves_de_prueba_length]
    decide
  have hc := C5_ida_y_vuelta (claves_de_prueba 30) (claves_de_prueba_nodup 30) false
  ⟨claves_de_prueba_nodup 30, hlen,
    (hc.2 hlen).elim (fun h hh => ⟨h, hh 0, (hc.1 1 h true (hh 0)).2⟩)⟩

/-- C6 fails on the code: the fresh table filled with the 29 keys "a" ... is
reachable and has no empty slot (it only grows on the next `hash_guardar`),
and on it the probe for the absent key "A" never exits: `hash_pertenece`,
`hash_obtener` and `hash_borrar` give no result, however long the loop of
`posicion_clave` runs. -/
theorem C6_tabla_llena_sin_vacio :
    (∀ n, guardar_todas n (claves_de_prueba 29) (tabla_inicial false) =
      some (tabla_con (claves_de_prueba 29), true)) ∧
    Alcanzable (tabla_con (claves_de_prueba 29)) ∧
    ¬ tiene_vacio (tabla_con (claves_de_prueba 29)) ∧
    hash_pertenece (tabla_con (claves_de_prueba 29)) [65] = none ∧
    hash_obtener (tabla_con (claves_de_prueba 29)) [65] = none ∧
    (∀ n, hash_borrar n (tabla_con (claves_de_prueba 29)) [] [65] = none) ∧
    ∀ s, fhash [65] ((tabla_con (claves_de_prueba 29)).capacidad % UINT_MOD) = some s →
      ∀ pasos, posicion_clave_bucle (tabla_con (claves_de_prueba 29)) [65] pasos s = none := by
  obtain ⟨hT, ha, _, hcap, hcant, hasoc⟩ :=
    tabla_con_spec (claves_de_prueba 29) (claves_de_prueba_nodup 29)
      (by rw [claves_de_prueba_length])
  obtain ⟨hinv, _⟩ := ha.inv
  rw [claves_de_prueba_length] at hcant
  have hnv : ¬ tiene_vacio (tabla_con (claves_de_prueba 29)) := by
    intro hv
    have := tiene_vacio_lt _ hinv hv
    rw [hcap, hcant] at this
    exact absurd this (by decide)
  have hau : ¬ presente (tabla_con (claves_de_prueba 29)) [65] := by
    rintro ⟨v, hv⟩
    exact claves_de_prueba_mayuscula 29 v ((hasoc [65] v).mp hv)
  obtain ⟨hnone, hloop⟩ := posicion_clave_diverge _ hinv.toForma hinv.modulo hnv [65] hau
  refine ⟨hT, ha, hnv, ?_, ?_, (hash_borrar_spec _ hinv [65]).1 hnone, hloop⟩
  · simp [hash_pertenece, hnone]
  · simp [hash_obtener, hnone]

/-- C7 (as amended): after inserting any 21 pairs with pairwise different
keys into a fresh table, every insert has returned true, the table has not
grown (its capacity is still 29), and `hash_cantidad` returns 21. -/
theorem C7_veintiuna_claves (kvs : List (clave_t × Nat)) (hnd : (kvs.map Prod.fst).Nodup)
    (hlen : kvs.length = 21) (d : Bool) :
    ∃ h, (∀ n, guardar_todas n kvs (tabla_inicial d) = some (h, true)) ∧
      h.capacidad = CAPACIDAD_INICIAL ∧ hash_cantidad h = 21 := by
  obtain ⟨hinv0, hsb0, hau0, hcap0, hcant0, _⟩ := tabla_inicial_inv d
  obtain ⟨T, _, _, _, hcant, _, _, _, hroom⟩ :=
    guardar_todas_spec kvs (tabla_inicial d) hinv0 hsb0 hnd (fun kv _ => hau0 kv.1)
      (by rw [hcant0, hlen]; decide)
  obtain ⟨hcap, hT⟩ := hroom (by rw [hcant0, hcap0, hlen]; decide)
  exact ⟨T, hT, by rw [hcap, hcap0], by rw [hash_cantidad, hcant, hcant0, hlen]⟩

/-- The 21 keys "a" to "u". -/
theorem C7_veintiuna_claves_witness :
    ((claves_de_prueba 21).map Prod.fst).Nodup ∧ (claves_de_prueba 21).length = 21 ∧
      ∃ h, guardar_todas 1 (claves_de_prueba 21) (tabla_inicial false) = some (h, true) ∧
        h.capacidad = CAPACIDAD_INICIAL ∧ hash_cantidad h = 21 :=
  ⟨claves_de_prueba_nodup 21, claves_de_prueba_length 21,
    (C7_veintiuna_claves (claves_de_prueba 21) (claves_de_prueba_nodup 21)
      (claves_de_prueba_length 21) false).elim (fun h hh => ⟨h, hh.1 1, hh.2⟩)⟩

/-- C7 fails as stated: after inserting the 21 keys "a" to "u" into a fresh
table the capacity is not 145. -/
theorem C7_contraejemplo :
    ((claves_de_prueba 21).map Prod.fst).Nodup ∧ (claves_de_prueba 21).length = 21 ∧
      ¬ ∃ n h ok, guardar_todas n (claves_de_prueba 21) (tabla_inicial false) = some (h, ok) ∧
        h.capacidad = 145 := by
  refine ⟨claves_de_prueba_nodup 21, claves_de_prueba_length 21, ?_⟩
  rintro ⟨n, h, ok, hr, hcap⟩
  obtain ⟨hT, _, _, hcapT, _, _⟩ :=
    tabla_con_spec (claves_de_prueba 21) (claves_de_prueba_nodup 21)
      (by rw [claves_de_prueba_length]; decide)
  rw [hT n] at hr
  simp only [Option.some.injEq, Prod.mk.injEq] at hr
  rw [← hr.1, hcapT] at hcap
  exact absurd hcap (by decide)

/-- C8 (as amended): on every reachable table of capacity 29 that holds
exactly 22 keys, `hash_borrar` of a present key returns without resizing
(the capacity stays 29), `hash_cantidad` becomes 21, and every key other than
the removed one is still present and `hash_obtener` returns its value. -/
theorem C8_borrar_conserva_capacidad (h : hash_t) (ha : Alcanzable h)
    (hcap : h.capacidad = 29) (hcant : hash_cantidad h = 22) (k : clave_t)
    (hk : hash_pertenece h k = some true) :
    ∃ r, (∀ n, hash_borrar n h [] k = some r) ∧ r.hash.capacidad = 29 ∧
      hash_cantidad r.hash = 21 ∧
      ∀ b w, b ≠ k → hash_pertenece h b = some true → hash_obtener h b = some w →
        hash_pertenece r.hash b = some true ∧ hash_obtener r.hash b = some w := by
  obtain ⟨hinv, _⟩ := ha.inv
  obtain ⟨v, hv, _⟩ := asociado_of_pertenece h k hk
  obtain ⟨i, c, hp, _, _⟩ := (asociado_iff h hinv k v).mp hv
  obtain ⟨c', h', _, hbo, _, hcap', _, hinv', hcant', _, hasoc', _⟩ :=
    (hash_borrar_spec h hinv k).2.2 i hp
  refine ⟨⟨c'.dato, h', [], []⟩, hbo, by rw [hcap', hcap], ?_, ?_⟩
  · unfold hash_cantidad at hcant ⊢
    show h'.cantidad = 21
    omega
  · intro b w hne hb hw
    have hbw : asociado h' b w := (hasoc' b w).mpr ⟨hne, asociado_of_lookup h b w hb hw⟩
    exact ⟨hash_pertenece_asociado h' hinv' b w hbw, hash_obtener_asociado h' hinv' b w hbw⟩

/-- The table of the 22 keys "a" to "v": removing "a" leaves capacity 29,
count 21, and "b" still found with its value 1. -/
theorem C8_borrar_conserva_capacidad_witness :
    Alcanzable (tabla_con (claves_de_prueba 22)) ∧
      (tabla_con (claves_de_prueba 22)).capacidad = 29 ∧
      hash_cantidad (tabla_con (claves_de_prueba 22)) = 22 ∧
      hash_pertenece (tabla_con (claves_de_prueba 22)) [97] = some true ∧
      ∃ r, hash_borrar 0 (tabla_con (claves_de_prueba 22)) [] [97] = some r ∧
        r.hash.capacidad = 29 ∧ hash_cantidad r.hash = 21 ∧
        hash_pertenece r.hash [98] = some true ∧ hash_obtener r.hash [98] = some 1 :=
  have hs := tabla_con_spec (claves_de_prueba 22) (claves_de_prueba_nodup 22)
    (by rw [claves_de_prueba_length]; decide)
  have hinv := (hs.2.1.inv).1
  have hcant : hash_cantidad (tabla_con (claves_de_prueba 22)) = 22 := by
    rw [hash_cantidad, hs.2.2.2.2.1, claves_de_prueba_length]
  have ha : asociado (tabla_con (claves_de_prueba 22)) [97] 0 :=
    (hs.2.2.2.2.2 _ _).mpr (claves_de_prueba_mem 22 0 (by decide))
  have hb : asociado (tabla_con (claves_de_prueba 22)) [98] 1 :=
    (hs.2.2.2.2.2 _ _).mpr (claves_de_prueba_mem 22 1 (by decide))
  have hka := hash_pertenece_asociado _ hinv [97] 0 ha
  (C8_borrar_conserva_capacidad (tabla_con (claves_de_prueba 22)) hs.2.1 hs.2.2.2.1 hcant
    [97] hka).elim
    (fun r hr => ⟨hs.2.1, hs.2.2.2.1, hcant, hka, r, hr.1 0, hr.2.1, hr.2.2.1,
      hr.2.2.2 [98] 1 (by decide) (hash_pertenece_asociado _ hinv [98] 1 hb)
        (hash_obtener_asociado _ hinv [98] 1 hb)⟩)

/-- C8 fails as stated: the table of the 22 keys "a" to "v" is reachable, has
capacity 29 and holds 22 keys, "a" among them, and after `hash_borrar("a")`
its capacity is 29, not 5. -/
theorem C8_contraejemplo :
    Alcanzable (tabla_con (claves_de_prueba 22)) ∧
      (tabla_con (claves_de_prueba 22)).capacidad = 29 ∧
      hash_cantidad (tabla_con (claves_de_prueba 22)) = 22 ∧
      hash_pertenece (tabla_con (claves_de_prueba 22)) [97] = some true ∧
      ∃ r, (∀ n, hash_borrar n (tabla_con (claves_de_prueba 22)) [] [97] = some r) ∧
        r.hash.capacidad = 29 ∧ r.hash.capacidad ≠ 5 := by
  obtain ⟨_, ha, _, hcap, hcant, hasoc⟩ :=
    tabla_con_spec (claves_de_prueba 22) (claves_de_prueba_nodup 22)
      (by rw [claves_de_prueba_length]; decide)
  obtain ⟨hinv, _⟩ := ha.inv
  have hka : asociado (tabla_con (claves_de_prueba 22)) [97] 0 :=
    (hasoc _ _).mpr (claves_de_prueba_mem 22 0 (by decide))
  obtain ⟨i, c, hp, _, _⟩ := (asociado_iff _ hinv [97] 0).mp hka
  obtain ⟨c', h', _, hbo, _, hcap', _⟩ := (hash_borrar_spec _ hinv [97]).2.2 i hp
  have h29 : h'.capacidad = 29 := by rw [hcap', hcap]
  refine ⟨ha, hcap, by rw [hash_cantidad, hcant, claves_de_prueba_length],
    hash_pertenece_asociado _ hinv [97] 0 hka, ⟨c'.dato, h', [], []⟩, hbo, h29, ?_⟩
  show h'.capacidad ≠ 5
  rw [h29]
  decide

/-- C9 fails on the code: on the fresh table, a `hash_guardar("a", 5)` whose
key copy cannot be allocated returns true, and leaves a table that differs
from the one before the call: `cantidad` is 1 while no slot was written, and
the key is not found. -/
theorem C9_copia_falla :
    ∃ r, hash_guardar 0 (tabla_inicial false) [false] [97] 5 = some r ∧ r.ret = true ∧
      r.hash ≠ tabla_inicial false ∧ hash_cantidad r.hash = 1 ∧
      r.hash.tabla = (tabla_inicial false).tabla ∧ hash_pertenece r.hash [97] = some false :=
  ⟨⟨true, { tabla_inicial false with cantidad := 1 }, [], []⟩, by rfl, rfl, by decide, rfl, rfl,
    by rfl⟩

/-- C10: on every reachable table, `hash_destruir` with a destructor
configured calls it exactly on the values of the slots that are occupied at
that moment, once per slot, in slot order, so as many times as
`hash_cantidad`; with none configured it makes no call. `hash_borrar` itself
calls no destructor, and the calls of `hash_destruir` after a `hash_borrar`
that returned the value of a present key are those before it less one call
on the returned value. -/
theorem C10_destruir (h : hash_t) (ha : Alcanzable h) :
    (h.destruir_dato = true →
      hash_destruir h = datos_ocupados h.tabla ∧ (hash_destruir h).length = hash_cantidad h) ∧
    (h.destruir_dato = false → hash_destruir h = []) ∧
    ∀ n k r, hash_pertenece h k = some true → hash_borrar n h [] k = some r →
      r.destruidos = [] ∧
      (h.destruir_dato = true → (hash_destruir h).Perm (r.ret :: hash_destruir r.hash)) := by
  obtain ⟨hinv, _⟩ := ha.inv
  have heq := hash_destruir_eq h hinv.toForma
  refine ⟨?_, ?_, ?_⟩
  · intro hd
    rw [hd] at heq
    simp only [if_true] at heq
    refine ⟨heq, ?_⟩
    rw [heq, datos_ocupados_length, hash_cantidad, hinv.cuenta]
  · intro hd
    rw [hd] at heq
    simpa using heq
  · intro n k r hk hr
    obtain ⟨v, hv, _⟩ := asociado_of_pertenece h k hk
    obtain ⟨i, c, hp, _, _⟩ := (asociado_iff h hinv k v).mp hv
    obtain ⟨c', h', hc', hbo, htab, _, hd', hinv', _⟩ := (hash_borrar_spec h hinv k).2.2 i hp
    rw [hbo n] at hr
    cases hr
    refine ⟨rfl, ?_⟩
    intro hd
    have heq' := hash_destruir_eq h' hinv'.toForma
    rw [hd', hd] at heq'
    rw [hd] at heq
    simp only [if_true] at heq heq'
    rw [heq, heq', htab]
    obtain ⟨c2, hc2, _, hm⟩ := posicion_clave_resultado h k i true hp
    rw [hc'] at hc2
    cases hc2
    exact datos_ocupados_set _ (fun hx => by cases hx) h.tabla i c' hc' (hm rfl).1

/-- The table with a destructor that holds "d" with value 1: destroying it
calls the destructor once, on 1; after `hash_borrar("d")` has handed 1 back,
destroying calls nothing. -/
theorem C10_destruir_witness :
    Alcanzable { tabla_d with destruir_dato := true } ∧
      hash_destruir { tabla_d with destruir_dato := true } = [1] ∧
      (hash_destruir { tabla_d with destruir_dato := true }).length =
        hash_cantidad { tabla_d with destruir_dato := true } ∧
      ∃ r, hash_borrar 0 { tabla_d with destruir_dato := true } [] [100] = some r ∧
        r.ret = 1 ∧ r.destruidos = [] ∧ hash_destruir r.hash = [] :=
  have hc := C10_destruir { tabla_d with destruir_dato := true } tabla_d_destructor_alcanzable
  ⟨tabla_d_destructor_alcanzable, ((hc.1 rfl).1).trans (by rfl), (hc.1 rfl).2,
    ⟨1, { tabla_d with
          destruir_dato := true
          tabla := tabla_d.tabla.set 12 ⟨some [100], NULL, BORRADO⟩, cantidad := 0 }, [], []⟩,
    by rfl, rfl, (hc.2.2 0 [100] _ (by rfl) (by rfl)).1, by rfl⟩


/-- C11: on every reachable table, `hash_borrar` of a present key returns the
value the key has (the one `hash_obtener` returns), calls no destructor, and
turns the occupied slot that held the key into a tombstone with a null value;
and right after a `hash_guardar k v` that returned, `hash_borrar k` returns
`v`. -/
theorem C11_borrar_devuelve (h : hash_t) (ha : Alcanzable h) (k : clave_t) :
    (∀ w, hash_pertenece h k = some true → hash_obtener h k = some w →
      ∃ r, (∀ n, hash_borrar n h [] k = some r) ∧ r.ret = w ∧ r.destruidos = [] ∧
        ∀ (i : Nat) (c : campo_t), h.tabla[i]? = some c → c.estado = OCUPADO →
          c.clave = some k →
          r.hash.tabla[i]? = some { c with dato := NULL, estado := BORRADO }) ∧
    (∀ v n r1, hash_guardar n h [] k v = some r1 →
      ∃ r2, (∀ m, hash_borrar m r1.hash [] k = some r2) ∧ r2.ret = v ∧ r2.destruidos = []) := by
  obtain ⟨hinv, hc⟩ := ha.inv
  have key : ∀ (g : hash_t), Inv g → ∀ w, asociado g k w →
      ∃ r, (∀ n, hash_borrar n g [] k = some r) ∧ r.ret = w ∧ r.destruidos = [] ∧
        ∀ (i : Nat) (c : campo_t), g.tabla[i]? = some c → c.estado = OCUPADO →
          c.clave = some k →
          r.hash.tabla[i]? = some { c with dato := NULL, estado := BORRADO } := by
    intro g hg w hw
    obtain ⟨p, c, hp, hcp, hdato⟩ := (asociado_iff g hg k w).mp hw
    obtain ⟨c', g', hc', hbo, htab, _⟩ := (hash_borrar_spec g hg k).2.2 p hp
    rw [hcp] at hc'
    cases hc'
    refine ⟨⟨c.dato, g', [], []⟩, hbo, hdato, rfl, ?_⟩
    intro i ci hi ho hk
    have hip : i = p := by
      have := hg.encuentra g k i ci hi ho hk
      rw [hp] at this
      simpa using this.symm
    subst hip
    rw [hcp] at hi
    cases hi
    have hlt : i < g.tabla.length := (List.getElem?_eq_some.mp hcp).1
    show g'.tabla[i]? = _
    rw [htab, List.getElem?_set_self hlt]
  refine ⟨?_, ?_⟩
  · intro w hk hw
    exact key h hinv w (asociado_of_lookup h k w hk hw)
  · intro v n r1 hr1
    obtain ⟨hef, _, _⟩ := (hash_guardar_spec h hinv (fun _ => cabe_cinco h hc) k v).1 n r1 hr1
    obtain ⟨r2, hr2, hret, hds, _⟩ :=
      key r1.hash hef.inv v ((hef.asociados k v).mpr (Or.inl ⟨rfl, rfl⟩))
    exact ⟨r2, hr2, hret, hds⟩

/-- On the table that holds "d" with value 1 in slot 12, `hash_borrar("d")`
returns 1 and leaves a tombstone in slot 12; after `hash_guardar("d", 9)` it
returns 9. -/
theorem C11_borrar_devuelve_witness :
    Alcanzable tabla_d ∧
      (∃ r, hash_borrar 0 tabla_d [] [100] = some r ∧ r.ret = 1 ∧ r.destruidos = [] ∧
        r.hash.tabla[12]? = some ⟨some [100], NULL, BORRADO⟩) ∧
      ∃ r1 r2, hash_guardar 0 tabla_d [] [100] 9 = some r1 ∧
        hash_borrar 0 r1.hash [] [100] = some r2 ∧ r2.ret = 9 :=
  have hc := C11_borrar_devuelve tabla_d tabla_d_alcanzable [100]
  ⟨tabla_d_alcanzable,
    (hc.1 1 (by rfl) (by rfl)).elim (fun r hr =>
      ⟨r, hr.1 0, hr.2.1, hr.2.2.1, hr.2.2.2 12 ⟨some [100], 1, OCUPADO⟩ (by rfl) rfl rfl⟩),
    ⟨true, { tabla_d with tabla := tabla_d.tabla.set 12 ⟨some [100], 9, OCUPADO⟩ }, [], []⟩,
    (hc.2 9 0 _ (by rfl)).elim (fun r2 hr2 => ⟨r2, by rfl, hr2.1 0, hr2.2.1⟩)⟩

/-- C13: in every reachable table (allocations succeeding) the capacity is
positive, and odd, so that five times the capacity computed modulo `2 ^ 64`
is positive too, as is the capacity after any further `hash_guardar`;
`cantidad` is the number of occupied slots (tombstones not counted), hence at
most the capacity; and `hash_cantidad` returns that number. -/
theorem C13_tamano (h : hash_t) (ha : Alcanzable h) :
    0 < h.capacidad ∧ h.capacidad % 2 = 1 ∧
      0 < (h.capacidad * CAPACIDAD_MAYOR) % SIZE_MOD ∧
      (∀ n k v r, hash_guardar n h [] k v = some r → 0 < r.hash.capacidad) ∧
      h.tabla.length = h.capacidad ∧ h.cantidad = n_ocupados h.tabla ∧
      h.cantidad ≤ h.capacidad ∧ hash_cantidad h = n_ocupados h.tabla := by
  obtain ⟨hinv, hc⟩ := ha.inv
  have himpar := ha.capacidad_impar
  refine ⟨hinv.capacidad_pos, himpar, ?_, ?_, hinv.largo, hinv.cuenta, hinv.cantidad_le,
    hinv.cuenta⟩
  · show 0 < (h.capacidad * 5) % 18446744073709551616
    omega
  · intro n k v r hr
    exact ((hash_guardar_spec h hinv (fun _ => cabe_cinco h hc) k v).1 n r hr).1.inv.capacidad_pos

/-- The table that holds "d" and "j": capacity 29, two occupied slots,
`hash_cantidad` 2. -/
theorem C13_tamano_witness :
    Alcanzable tabla_dj ∧ 0 < tabla_dj.capacidad ∧ n_ocupados tabla_dj.tabla = 2 ∧
      hash_cantidad tabla_dj = n_ocupados tabla_dj.tabla ∧
      tabla_dj.cantidad ≤ tabla_dj.capacidad :=
  have hc := C13_tamano tabla_dj tabla_dj_alcanzable
  ⟨tabla_dj_alcanzable, hc.1, by rfl, hc.2.2.2.2.2.2.2, hc.2.2.2.2.2.2.1⟩

/-- C14: in every reachable table no two different occupied slots hold equal
keys. -/
theorem C14_claves_unicas (h : hash_t) (ha : Alcanzable h) (i j : Nat) (c d : campo_t)
    (hi : h.tabla[i]? = some c) (hj : h.tabla[j]? = some d) (hc : c.estado = OCUPADO)
    (hd : d.estado = OCUPADO) (heq : c.clave = d.clave) : i = j := by
  obtain ⟨hinv, _⟩ := ha.inv
  obtain ⟨k, hk, _⟩ := hinv.sondeo i c hi hc
  exact hinv.unico h k i j c d hi hc hk hj hd (by rw [← heq]; exact hk)

/-- In the table that holds "d" and "j", the only slot that holds "d" is slot
12. -/
theorem C14_claves_unicas_witness :
    Alcanzable tabla_dj ∧ tabla_dj.tabla[12]? = some ⟨some [100], 1, OCUPADO⟩ ∧
      ∀ (j : Nat) (d : campo_t), tabla_dj.tabla[j]? = some d → d.estado = OCUPADO →
        d.clave = some [100] → 12 = j :=
  ⟨tabla_dj_alcanzable, by rfl, fun j d hj hd hk =>
    C14_claves_unicas tabla_dj tabla_dj_alcanzable 12 j ⟨some [100], 1, OCUPADO⟩ d (by rfl) hj
      rfl hd hk.symm⟩

/-- C15: on every table without an occupied slot (fresh, or left with empty
slots and tombstones only) the iterator `hash_iter_crear` returns is
exhausted at once: `hash_iter_al_final` is true, `hash_iter_ver_actual`
returns `NULL` and `hash_iter_avanzar` returns false; and on a table with an
occupied slot `hash_iter_crear` puts the cursor on the occupied slot of lowest
index. -/
theorem C15_iterador_inicial (h : hash_t) (hf : Forma h) :
    ((∀ (i : Nat) (c : campo_t), h.tabla[i]? = some c → c.estado ≠ OCUPADO) →
      ∃ iter, hash_iter_crear h [] = some (some iter) ∧ hash_iter_al_final iter = true ∧
        hash_iter_ver_actual iter = some none ∧
        hash_iter_avanzar iter = some (false, iter)) ∧
    (∀ (q : Nat) (c : campo_t), h.tabla[q]? = some c → c.estado = OCUPADO →
      (∀ (i : Nat) (c' : campo_t), i < q → h.tabla[i]? = some c' → c'.estado ≠ OCUPADO) →
      hash_iter_crear h [] = some (some ⟨h, q⟩)) := by
  obtain ⟨q0, hq0, hcrear, hocc, hskip⟩ := hash_iter_crear_spec h hf
  refine ⟨?_, ?_⟩
  · intro hnone
    have hq : q0 = h.capacidad := by
      rcases Nat.eq_or_lt_of_le hq0 with heq | hlt
      · exact heq
      · obtain ⟨c, hc, ho⟩ := hocc hlt
        exact absurd ho (hnone q0 c hc)
    subst hq
    refine ⟨⟨h, h.capacidad⟩, hcrear, ?_, ?_, ?_⟩
    · simp [hash_iter_al_final]
    · simp [hash_iter_ver_actual, hash_iter_al_final]
    · simp [hash_iter_avanzar, hash_iter_al_final]
  · intro q c hc ho hmin
    have hqlt : q < h.capacidad := by
      rw [← hf.largo]
      exact (List.getElem?_eq_some.mp hc).1
    have hle : q0 ≤ q := by
      by_contra hgt
      exact hskip q c (by omega) hc ho
    have hge : q ≤ q0 := by
      by_contra hgt
      obtain ⟨c0, hc0, ho0⟩ := hocc (by omega)
      exact hmin q0 c0 (by omega) hc0 ho0
    have : q0 = q := by omega
    subst this
    exact hcrear

/-- On the fresh table the new iterator is at the end; on the table that holds
"d" in slot 12 it stands on slot 12. -/
theorem C15_iterador_inicial_witness :
    Forma (tabla_inicial false) ∧
      (∃ iter, hash_iter_crear (tabla_inicial false) [] = some (some iter) ∧
        hash_iter_al_final iter = true ∧ hash_iter_ver_actual iter = some none ∧
        hash_iter_avanzar iter = some (false, iter)) ∧
      Forma tabla_d ∧ hash_iter_crear tabla_d [] = some (some ⟨tabla_d, 12⟩) :=
  ⟨tabla_inicial_forma false,
    (C15_iterador_inicial (tabla_inicial false) (tabla_inicial_forma false)).1
      (fun i c hi ho => by
        simp only [tabla_inicial, inicializar_tabla, List.getElem?_replicate] at hi
        split at hi
        · cases hi
          cases ho
        · cases hi),
    tabla_d_forma,
    (C15_iterador_inicial tabla_d tabla_d_forma).2 12 ⟨some [100], 1, OCUPADO⟩ (by rfl) rfl
      (fun i c' hi hget ho => by
        have h1 : tabla_d.tabla[i]? = some ⟨none, NULL, VACIO⟩ := by
          unfold tabla_d
          rw [List.getElem?_set_ne (by omega), List.getElem?_replicate, if_pos (by omega)]
        rw [h1] at hget
        cases hget
        cases ho)⟩

/-- C17: for a table of the right shape and a cursor `p` at most `capacidad`:
at `p = capacidad` `hash_iter_avanzar` returns false and leaves the cursor;
otherwise it moves the cursor to the smallest index `q > p` whose slot is
occupied and returns true, or to `capacidad`, returning false, when there is
none. So the walk of a new iterator reads the occupied slots in increasing
index order, each once, and never stops on another slot. -/
theorem C17_avanzar (h : hash_t) (hf : Forma h) (p : Nat) (hp : p ≤ h.capacidad) :
    (p = h.capacidad → hash_iter_avanzar ⟨h, p⟩ = some (false, ⟨h, p⟩)) ∧
    (p < h.capacidad →
      ∃ q, p < q ∧ q ≤ h.capacidad ∧
        hash_iter_avanzar ⟨h, p⟩ = some (decide (q < h.capacidad), ⟨h, q⟩) ∧
        (q < h.capacidad → ∃ c, h.tabla[q]? = some c ∧ c.estado = OCUPADO) ∧
        ∀ (i : Nat) (c : campo_t), p < i → i < q → h.tabla[i]? = some c →
          c.estado ≠ OCUPADO) ∧
    recorrer h = some (claves_ocupadas h.tabla) := by
  refine ⟨?_, ?_, recorrer_eq h hf⟩
  · intro heq
    subst heq
    simp [hash_iter_avanzar, hash_iter_al_final]
  · intro hlt
    have hcota := hf.cota
    have hmod : (p + 1) % SIZE_MOD = p + 1 := Nat.mod_eq_of_lt (by omega)
    obtain ⟨q, hpq, hqc, hq, hocc, hskip, _⟩ :=
      iter_puede_avanzar_bucle_spec h hf (h.capacidad - (p + 1)) (p + 1) (by omega)
    refine ⟨q, by omega, hqc, ?_, hocc, fun i c h1 h2 => hskip i c (by omega) h2⟩
    have hne : p ≠ h.capacidad := by omega
    have hfuel : h.capacidad + 1 - (p + 1) = h.capacidad - (p + 1) + 1 := by omega
    simp only [hash_iter_avanzar, hash_iter_al_final, hne, decide_False, Bool.false_eq_true,
      if_false, iter_puede_avanzar, hmod, hfuel, hq]

/-- On the table that holds "d" in slot 12 and "j" in slot 13, advancing from
slot 12 stops on slot 13 and returns true, and advancing from the end returns
false. -/
theorem C17_avanzar_witness :
    Forma tabla_dj ∧
      hash_iter_avanzar ⟨tabla_dj, 29⟩ = some (false, ⟨tabla_dj, 29⟩) ∧
      hash_iter_avanzar ⟨tabla_dj, 12⟩ = some (true, ⟨tabla_dj, 13⟩) ∧
      recorrer tabla_dj = some [some [100], some [106]] :=
  have hf : Forma tabla_dj := (tabla_dj_alcanzable.inv).1.toForma
  ⟨hf, (C17_avanzar tabla_dj hf 29 (by decide)).1 rfl, by rfl,
    ((C17_avanzar tabla_dj hf 12 (by decide)).2.2).trans (by rfl)⟩

/-- C18: `factor_de_carga` is the integer quotient of `cantidad` by
`capacidad`: 0 when `cantidad < capacidad`, at least 1 otherwise. So on a
table that satisfies the size invariant `hash_guardar` calls
`hash_redimensionar` exactly when `cantidad >= capacidad` on entry, that is
when every slot is occupied: below that its result does not depend on what
`hash_redimensionar` would do, and from there on it calls it, with five times
the capacity, and returns false with what the call left when the call
does. -/
theorem C18_disparo_del_crecimiento (h : hash_t) (ht : Tamano h) (mem : List Bool)
    (k : clave_t) (v : Nat) :
    (h.cantidad < h.capacidad →
      factor_de_carga h = some 0 ∧
      ∀ redim redim', hash_guardar_con redim h mem k v = hash_guardar_con redim' h mem k v) ∧
    (h.capacidad ≤ h.cantidad →
      (∃ q, factor_de_carga h = some q ∧ 1 ≤ q) ∧
      (∀ (i : Nat) (c : campo_t), h.tabla[i]? = some c → c.estado = OCUPADO) ∧
      hash_guardar_con (fun _ _ _ => none) h mem k v = none ∧
      ∀ redim r0, redim h ((h.capacidad * CAPACIDAD_MAYOR) % SIZE_MOD) mem = some r0 →
        r0.ret = false →
        hash_guardar_con redim h mem k v = some ⟨false, r0.hash, r0.mem, r0.destruidos⟩) := by
  have h0 : h.capacidad ≠ 0 := Nat.pos_iff_ne_zero.mp ht.positiva
  refine ⟨?_, ?_⟩
  · intro hlt
    have hq : h.cantidad / h.capacidad = 0 := Nat.div_eq_of_lt hlt
    have hneg : ¬ (FACTOR_CARGA_MAX_DECIMAS < 10 * (h.cantidad / h.capacidad)) := by
      rw [hq]
      decide
    refine ⟨by simp [factor_de_carga, h0, hq], ?_⟩
    intro redim redim'
    simp only [hash_guardar_con, factor_de_carga, h0, if_false, hneg]
  · intro hfull
    have hq : 1 ≤ h.cantidad / h.capacidad := (Nat.one_le_div_iff ht.positiva).mpr hfull
    have hpos : FACTOR_CARGA_MAX_DECIMAS < 10 * (h.cantidad / h.capacidad) := by
      show 7 < 10 * (h.cantidad / h.capacidad)
      omega
    refine ⟨⟨_, by simp [factor_de_carga, h0], hq⟩, ht.todos_ocupados h hfull, ?_, ?_⟩
    · simp [hash_guardar_con, factor_de_carga, h0, hpos]
    · intro redim r0 hr0 hret
      simp [hash_guardar_con, factor_de_carga, h0, hpos, hr0, hret]

/-- The fresh table satisfies the size invariant and is not full: the quotient
is 0 and `hash_guardar` gives the same result whatever the resize would do. -/
theorem C18_disparo_del_crecimiento_witness :
    Tamano (tabla_inicial false) ∧ factor_de_carga (tabla_inicial false) = some 0 ∧
      hash_guardar_con (fun _ _ _ => none) (tabla_inicial false) [] [97] 1 =
        hash_guardar 1 (tabla_inicial false) [] [97] 1 :=
  have ht : Tamano (tabla_inicial false) := (tabla_inicial_inv false).1.tamano
  have hc := (C18_disparo_del_crecimiento (tabla_inicial false) ht [] [97] 1).1 (by decide)
  ⟨ht, hc.1, hc.2 _ _⟩

/-- C19: `hash_borrar` never changes the capacity. The threshold
`capacidad * (size_t)0.75` is 0, and a found key means `cantidad >= 1`, so on
a table that satisfies the size invariant the shrink test fails:
`hash_borrar` is the lookup followed by the tombstone, with no call of
`hash_redimensionar` (no allocation is made), and the capacity after it is the
capacity before. Hence the capacity never decreases from a reachable table
on. -/
theorem C19_borrar_conserva_la_capacidad (h : hash_t) (ht : Tamano h) (k : clave_t) :
    (h.capacidad * CAPACIDAD_MENOR_size_t) % SIZE_MOD = 0 ∧
    (∀ p, posicion_clave h k = some (p, true) → 1 ≤ h.cantidad) ∧
    (∀ n mem, hash_borrar n h mem k =
      match posicion_clave h k with
      | none => none
      | some (posicion, encontrado) =>
        if encontrado = false then some ⟨NULL, h, mem, []⟩
        else
          match h.tabla[posicion]? with
          | none => none
          | some c =>
            some ⟨c.dato,
              { h with
                tabla := h.tabla.set posicion { c with dato := NULL, estado := BORRADO }
                cantidad := (h.cantidad + SIZE_MOD - 1) % SIZE_MOD },
              mem, []⟩) ∧
    (∀ n mem r, hash_borrar n h mem k = some r →
      r.hash.capacidad = h.capacidad ∧ r.mem = mem ∧ r.destruidos = []) ∧
    (∀ h0 h1, Alcanzable h0 → Alcanzable_desde h0 h1 → h0.capacidad ≤ h1.capacidad) := by
  have hfound : ∀ p, posicion_clave h k = some (p, true) → 1 ≤ h.cantidad := by
    intro p hp
    obtain ⟨c, hc, _, hm⟩ := posicion_clave_resultado h k p true hp
    have := n_ocupados_pos h.tabla p c hc (hm rfl).1
    rw [ht.cuenta]
    exact this
  have heq : ∀ n mem, hash_borrar n h mem k =
      match posicion_clave h k with
      | none => none
      | some (posicion, encontrado) =>
        if encontrado = false then some ⟨NULL, h, mem, []⟩
        else
          match h.tabla[posicion]? with
          | none => none
          | some c =>
            some ⟨c.dato,
              { h with
                tabla := h.tabla.set posicion { c with dato := NULL, estado := BORRADO }
                cantidad := (h.cantidad + SIZE_MOD - 1) % SIZE_MOD },
              mem, []⟩ := by
    intro n mem
    cases hp : posicion_clave h k with
    | none => simp [hash_borrar, hp]
    | some pb =>
      obtain ⟨p, b⟩ := pb
      cases b with
      | false => simp [hash_borrar, hp]
      | true =>
        have hne : h.cantidad ≠ 0 := by
          have := hfound p hp
          omega
        cases hc : h.tabla[p]? with
        | none => simp [hash_borrar, hp, hne, hc]
        | some c => simp [hash_borrar, hp, hne, hc]
  refine ⟨by simp, hfound, heq, ?_, ?_⟩
  · intro n mem r hr
    rw [heq n mem] at hr
    cases hp : posicion_clave h k with
    | none => rw [hp] at hr; cases hr
    | some pb =>
      obtain ⟨p, b⟩ := pb
      rw [hp] at hr
      cases b with
      | false =>
        simp only [if_true, Option.some.injEq] at hr
        subst hr
        exact ⟨rfl, rfl, rfl⟩
      | true =>
        simp only [Bool.true_eq_false, if_false] at hr
        cases hc : h.tabla[p]? with
        | none => rw [hc] at hr; cases hr
        | some c =>
          rw [hc] at hr
          simp only [Option.some.injEq] at hr
          subst hr
          exact ⟨rfl, rfl, rfl⟩
  · intro h0 h1 ha0 hd
    have key : Alcanzable h1 ∧ h0.capacidad ≤ h1.capacidad := by
      induction hd with
      | inicio => exact ⟨ha0, le_refl _⟩
      | guardar g n k' v r _ hr hcabe ih =>
        obtain ⟨hag, hle⟩ := ih
        obtain ⟨hinv, hc⟩ := hag.inv
        obtain ⟨_, hcap1, hcap2⟩ :=
          (hash_guardar_spec g hinv (fun _ => cabe_cinco g hc) k' v).1 n r hr
        refine ⟨Alcanzable.guardar g n k' v r hag hr hcabe, ?_⟩
        rcases Nat.lt_or_ge g.cantidad g.capacidad with hlt | hfull
        · rw [hcap1 hlt]
          exact hle
        · rw [hcap2 hfull]
          show h0.capacidad ≤ g.capacidad * 5
          omega
      | borrar g n k' r _ hr ih =>
        obtain ⟨hag, hle⟩ := ih
        obtain ⟨hinv, _⟩ := hag.inv
        refine ⟨Alcanzable.borrar g n k' r hag hr, ?_⟩
        obtain ⟨hnone, hfalse, htrue⟩ := hash_borrar_spec g hinv k'
        cases hp : posicion_clave g k' with
        | none => rw [hnone hp n] at hr; cases hr
        | some pb =>
          obtain ⟨p, b⟩ := pb
          cases b with
          | false =>
            rw [hfalse p hp n] at hr
            cases hr
            exact hle
          | true =>
            obtain ⟨c, h', _, hb, _, hcap, _⟩ := htrue p hp
            rw [hb n] at hr
            cases hr
            show h0.capacidad ≤ h'.capacidad
            rw [hcap]
            exact hle
    exact key.2

/-- On the table that holds "d" and "j", `hash_borrar("d")` with a failing
allocator answer pending leaves the capacity at 29 and the answer unused. -/
theorem C19_borrar_conserva_la_capacidad_witness :
    Tamano tabla_dj ∧
      ∃ r, hash_borrar 0 tabla_dj [false] [100] = some r ∧ r.hash.capacidad = 29 ∧
        r.mem = [false] :=
  have ht : Tamano tabla_dj := (tabla_dj_alcanzable.inv).1.tamano
  ⟨ht, ⟨1, { tabla_dj with
             tabla := tabla_dj.tabla.set 12 ⟨some [100], NULL, BORRADO⟩, cantidad := 1 },
        [false], []⟩,
    by rfl,
    ((C19_borrar_conserva_la_capacidad tabla_dj ht [100]).2.2.2.1 0 [false] _ (by rfl)).1,
    ((C19_borrar_conserva_la_capacidad tabla_dj ht [100]).2.2.2.1 0 [false] _ (by rfl)).2.1⟩
/-- C16 (as amended): for every reachable table and every new capacity
greater than `cantidad` that is not a multiple of `2 ^ 32` and whose array
size `sizeof(campo_t) * capacity` is below `2 ^ 64`, with its allocations
succeeding `hash_redimensionar` returns true, calls no destructor, and leaves
a table of exactly that capacity, without tombstones, with the same
`cantidad` and the same associations of keys to values (a key is present
after if and only if it was before, with the same value), in which the probe
of `posicion_clave` for the key of every occupied slot, started at the hash
reduced modulo the new capacity truncated to `unsigned int`, ends on that
slot. -/
theorem C16_redimensionar (h : hash_t) (ha : Alcanzable h) (nueva : Nat)
    (hn : h.cantidad < nueva) (hsz : nueva * sizeof_campo_t < SIZE_MOD)
    (hmod : nueva % UINT_MOD ≠ 0) :
    ∃ T, (∀ n, hash_redimensionar n h nueva [] = some ⟨true, T, [], []⟩) ∧
      T.capacidad = nueva ∧ T.tabla.length = nueva ∧ sin_borrados T ∧
      T.cantidad = h.cantidad ∧
      (∀ k v, asociado T k v ↔ asociado h k v) ∧
      (∀ k w, (hash_pertenece T k = some true ∧ hash_obtener T k = some w) ↔
        (hash_pertenece h k = some true ∧ hash_obtener h k = some w)) ∧
      ∀ (i : Nat) (c : campo_t), T.tabla[i]? = some c → c.estado = OCUPADO →
        ∃ k, c.clave = some k ∧ posicion_clave T k = some (i, true) := by
  obtain ⟨hinv, _⟩ := ha.inv
  obtain ⟨T, hT, hinvT, hsbT, hcapT, hcantT, _, hasocT⟩ :=
    hash_redimensionar_spec h hinv nueva hmod hsz (le_of_lt hn)
  refine ⟨T, hT, hcapT, by rw [hinvT.largo, hcapT], hsbT, hcantT, hasocT, ?_, hinvT.sondeo⟩
  intro k w
  constructor
  · rintro ⟨hk, hw⟩
    have := (hasocT k w).mp (asociado_of_lookup T k w hk hw)
    exact ⟨hash_pertenece_asociado h hinv k w this, hash_obtener_asociado h hinv k w this⟩
  · rintro ⟨hk, hw⟩
    have := (hasocT k w).mpr (asociado_of_lookup h k w hk hw)
    exact ⟨hash_pertenece_asociado T hinvT k w this, hash_obtener_asociado T hinvT k w this⟩

/-- The table that holds "d" with value 1, rebuilt at capacity 145: one key,
still "d" with value 1. -/
theorem C16_redimensionar_witness :
    Alcanzable tabla_d ∧ tabla_d.cantidad < 145 ∧ 145 * sizeof_campo_t < SIZE_MOD ∧
      ∃ T, hash_redimensionar 0 tabla_d 145 [] = some ⟨true, T, [], []⟩ ∧ T.capacidad = 145 ∧
        T.cantidad = 1 ∧ hash_pertenece T [100] = some true ∧ hash_obtener T [100] = some 1 :=
  (C16_redimensionar tabla_d tabla_d_alcanzable 145 (by decide) (by decide) (by decide)).elim
    (fun T hT => ⟨tabla_d_alcanzable, by decide, by decide, T, hT.1 0, hT.2.1, hT.2.2.2.2.1,
      ((hT.2.2.2.2.2.2.1 [100] 1).mpr ⟨by rfl, by rfl⟩).1,
      ((hT.2.2.2.2.2.2.1 [100] 1).mpr ⟨by rfl, by rfl⟩).2⟩)

/-- C16 fails as stated, for every new capacity greater than `cantidad`, on
the reachable table that holds the one key "d". To the capacity `2 ^ 32`
`hash_redimensionar` gives no result, because `posicion_clave` reduces the
hash modulo the capacity truncated to `unsigned int`, which is 0. To the
capacity `2 ^ 63 + 1`, which is not a multiple of `2 ^ 32`, it gives no
result either: the size `sizeof(campo_t) * capacity` wraps to 24 bytes, the
array delivered holds one slot, and `inicializar_tabla` writes past it. -/
theorem C16_contraejemplo :
    Alcanzable tabla_d ∧
      (tabla_d.cantidad < 4294967296 ∧ 4294967296 < SIZE_MOD ∧
        ∀ n, hash_redimensionar n tabla_d 4294967296 [] = none) ∧
      (tabla_d.cantidad < 9223372036854775809 ∧ 9223372036854775809 < SIZE_MOD ∧
        9223372036854775809 % UINT_MOD ≠ 0 ∧
        (sizeof_campo_t * 9223372036854775809) % SIZE_MOD = 24 ∧
        ∀ n, hash_redimensionar n tabla_d 9223372036854775809 [] = none) := by
  refine ⟨tabla_d_alcanzable, ⟨by decide, by decide, ?_⟩,
    ⟨by decide, by decide, by decide, by decide, ?_⟩⟩
  · intro n
    cases n with
    | zero => rfl
    | succ n => rfl
  · intro n
    cases n with
    | zero => rfl
    | succ n => rfl



/-- C20: tombstones are not reused between resizes. On every reachable table
with an empty slot, `hash_guardar` of a key that is not present returns and
has stored it in a slot that was empty, so the number of empty slots drops by
exactly one; `hash_guardar` of a present key and `hash_borrar` return and
leave that number unchanged. Hence along calls that do not resize the number
of empty slots drops by the number of new keys inserted, from `capacidad` on
a fresh table, whatever was removed; 29 rounds of inserting and removing one
key on a fresh table leave `cantidad = 0` and no empty slot. -/
theorem C20_lapidas_no_reutilizadas (h : hash_t) (ha : Alcanzable h) (hv : tiene_vacio h)
    (k : clave_t) (v : Nat) :
    (hash_pertenece h k = some false →
      ∃ r p c0, (∀ n, hash_guardar n h [] k v = some r) ∧ h.tabla[p]? = some c0 ∧
        c0.estado = VACIO ∧ r.hash.tabla = h.tabla.set p ⟨some k, v, OCUPADO⟩ ∧
        n_vacios r.hash.tabla + 1 = n_vacios h.tabla) ∧
    (hash_pertenece h k = some true →
      ∃ r, (∀ n, hash_guardar n h [] k v = some r) ∧
        n_vacios r.hash.tabla = n_vacios h.tabla) ∧
    (∃ r, (∀ n, hash_borrar n h [] k = some r) ∧ n_vacios r.hash.tabla = n_vacios h.tabla) ∧
    (∀ g m, Sin_redimension h g m →
      n_vacios g.tabla + m = n_vacios h.tabla ∧ g.capacidad = h.capacidad) ∧
    (∀ d g m, Sin_redimension (tabla_inicial d) g m → n_vacios g.tabla + m = g.capacidad) ∧
    ∀ d, ∃ g, (∀ n, ciclos n k v 29 (tabla_inicial d) = some g) ∧ Alcanzable g ∧
      hash_cantidad g = 0 ∧ n_vacios g.tabla = 0 ∧ ¬ tiene_vacio g := by
  obtain ⟨hinv, hc⟩ := ha.inv
  have hlt : h.cantidad < h.capacidad := tiene_vacio_lt h hinv hv
  obtain ⟨_, ht1, _⟩ := hash_guardar_spec h hinv (fun _ => cabe_cinco h hc) k v
  obtain ⟨r, hr⟩ := ht1 hlt (Or.inl hv)
  have hinicial : ∀ d, n_vacios (tabla_inicial d).tabla = (tabla_inicial d).capacidad := by
    intro d
    obtain ⟨hinv0, hsb0, _, _, hcant0, _⟩ := tabla_inicial_inv d
    have := n_vacios_sin_borrados (tabla_inicial d) hinv0 hsb0
    rw [hcant0] at this
    exact this
  refine ⟨?_, ?_, ?_, ?_, ?_, ?_⟩
  · intro hk
    obtain ⟨p, hp⟩ := posicion_clave_of_pertenece h k false hk
    obtain ⟨_, c0, hc0, hf, _⟩ := hash_guardar_simple_tabla h hlt k v p false hp 0 r (hr 0)
    have := hash_guardar_simple_vacios h hlt k v p false hp 0 r (hr 0)
    simp only [Bool.false_eq_true, if_false] at this
    exact ⟨r, p, c0, hr, hc0, (hf rfl).1, (hf rfl).2, this⟩
  · intro hk
    obtain ⟨p, hp⟩ := posicion_clave_of_pertenece h k true hk
    have := hash_guardar_simple_vacios h hlt k v p true hp 0 r (hr 0)
    simp only [if_true, Nat.add_zero] at this
    exact ⟨r, hr, this⟩
  · obtain ⟨_, hfalse, htrue⟩ := hash_borrar_spec h hinv k
    obtain ⟨⟨p, b⟩, hp⟩ := posicion_clave_termina h hinv.toForma hinv.modulo hv k
    cases b with
    | false =>
      exact ⟨_, hfalse p hp, rfl⟩
    | true =>
      obtain ⟨c, h', _, hb, _⟩ := htrue p hp
      exact ⟨_, hb, hash_borrar_vacios h hinv k 0 _ (hb 0)⟩
  · intro g m hs
    obtain ⟨_, hcap, hvac⟩ := hs.vacios h ha g m
    exact ⟨hvac, hcap⟩
  · intro d g m hs
    obtain ⟨_, hcap, hvac⟩ := hs.vacios _ (Alcanzable.crear d _ (hash_crear_eq d)) g m
    rw [hvac, hcap]
    exact hinicial d
  · intro d
    have ha0 : Alcanzable (tabla_inicial d) := Alcanzable.crear d _ (hash_crear_eq d)
    have h29 : n_vacios (tabla_inicial d).tabla = 29 := hinicial d
    obtain ⟨g, hg, hs, hcant, hvac⟩ :=
      ciclos_spec (tabla_inicial d) ha0 k v 29 (tabla_inicial d) 0 Sin_redimension.inicio rfl
        (by rw [h29])
    obtain ⟨hag, _, _⟩ := hs.vacios _ ha0 g _
    have h0 : n_vacios g.tabla = 0 := by omega
    refine ⟨g, hg, hag, hcant, h0, ?_⟩
    intro htv
    have := (n_vacios_pos_iff g).mpr htv
    omega

/-- On the table that holds "d", `hash_guardar("j", 2)` stores the new key in
the empty slot 13 and takes the empty slots from 28 to 27. -/
theorem C20_lapidas_no_reutilizadas_witness :
    Alcanzable tabla_d ∧ tiene_vacio tabla_d ∧ hash_pertenece tabla_d [106] = some false ∧
      n_vacios tabla_d.tabla = 28 ∧
      ∃ r p c0, hash_guardar 0 tabla_d [] [106] 2 = some r ∧ tabla_d.tabla[p]? = some c0 ∧
        c0.estado = VACIO ∧ r.hash.tabla = tabla_d.tabla.set p ⟨some [106], 2, OCUPADO⟩ ∧
        n_vacios r.hash.tabla + 1 = n_vacios tabla_d.tabla :=
  have hv : tiene_vacio tabla_d := ⟨0, ⟨none, NULL, VACIO⟩, rfl, rfl⟩
  ⟨tabla_d_alcanzable, hv, by rfl, by rfl,
    ((C20_lapidas_no_reutilizadas tabla_d tabla_d_alcanzable hv [106] 2).1 (by rfl)).elim
      (fun r hr => hr.elim (fun p hp => hp.elim (fun c0 hc =>
        ⟨r, p, c0, hc.1 0, hc.2.1, hc.2.2.1, hc.2.2.2.1, hc.2.2.2.2⟩)))⟩



/-- C12 (as amended): in every table reachable from `hash_crear` by calls of
`hash_guardar` and `hash_borrar` that return (resizes included), every
occupied slot holds a key `k`, and the linear scan that starts at
`fhash(k, (unsigned int) capacidad)`, the hash reduced modulo the capacity
truncated to `unsigned int`, and moves forward with wrap-around reaches that
slot before it reaches any empty slot (tombstones may lie in between). That
is where `posicion_clave` ends, and the start is `fhash(k, capacidad)`
whenever the capacity is below `2 ^ 32`. -/
theorem C12_invariante_de_sondeo (h : hash_t) (ha : Alcanzable h) (i : Nat) (c : campo_t)
    (hi : h.tabla[i]? = some c) (ho : c.estado = OCUPADO) :
    ∃ k s, c.clave = some k ∧ fhash k (h.capacidad % UINT_MOD) = some s ∧ s < h.capacidad ∧
      sondeo_alcanza h k s i ∧ posicion_clave h k = some (i, true) ∧
      (h.capacidad < UINT_MOD → fhash k h.capacidad = some s) := by
  obtain ⟨hinv, _⟩ := ha.inv
  obtain ⟨k, hk, hp⟩ := hinv.sondeo i c hi ho
  obtain ⟨s, hs, hlt, hal⟩ := hinv.sondeo_alcanza h k i c hi ho hk
  refine ⟨k, s, hk, hs, lt_of_lt_of_le hlt (Nat.mod_le _ _), hal, hp, ?_⟩
  intro hcap
  rw [Nat.mod_eq_of_lt hcap] at hs
  exact hs

/-- On the table that holds "d" in slot 12 and "j" in slot 13, the scan for
"j" starts at slot 12, its hash modulo 29, and reaches slot 13. -/
theorem C12_invariante_de_sondeo_witness :
    Alcanzable tabla_dj ∧ tabla_dj.tabla[13]? = some ⟨some [106], 2, OCUPADO⟩ ∧
      ∃ k s, (some [106] : Option clave_t) = some k ∧
        fhash k (tabla_dj.capacidad % UINT_MOD) = some s ∧ s < tabla_dj.capacidad ∧
        sondeo_alcanza tabla_dj k s 13 ∧ posicion_clave tabla_dj k = some (13, true) ∧
        (tabla_dj.capacidad < UINT_MOD → fhash k tabla_dj.capacidad = some s) :=
  ⟨tabla_dj_alcanzable, rfl,
    C12_invariante_de_sondeo tabla_dj tabla_dj_alcanzable 13 ⟨some [106], 2, OCUPADO⟩ rfl rfl⟩

/-- C12 fails as stated: the table left by `hash_guardar` of the 1416015626
keys `clave_de 0`, `clave_de 1`, ... on a fresh table is reachable and has
capacity 7080078125, which is `29 * 5 ^ 12` and above `2 ^ 32`. It holds the
key "n", and the scan that starts at `fhash("n", capacidad)`, slot
5394040381, starts on an empty slot: it reaches an empty slot and not the
slot that holds "n". -/
theorem C12_contraejemplo :
    ∃ h, guardar_todas 1 (claves_numeradas 1416015626) (tabla_inicial false) = some (h, true) ∧
      Alcanzable h ∧ h.capacidad = 7080078125 ∧
      ∃ i c, h.tabla[i]? = some c ∧ c.estado = OCUPADO ∧ c.clave = some [110] ∧
        fhash [110] h.capacidad = some 5394040381 ∧
        (∃ c', h.tabla[5394040381]? = some c' ∧ c'.estado = VACIO) ∧
        ¬ sondeo_alcanza h [110] 5394040381 i := by
  obtain ⟨hinv0, hsb0, hau0, _, hcant0, _⟩ := tabla_inicial_inv false
  obtain ⟨T, hT, ha, hsb, he, hcant, hasoc⟩ :=
    guardar_todas_crece (claves_numeradas 1416015626) (tabla_inicial false)
      (Alcanzable.crear false _ (hash_crear_eq false)) hsb0 (tabla_inicial_escalon false)
      (claves_numeradas_nodup _) (fun kv _ => hau0 kv.1)
      (by rw [hcant0, claves_numeradas_length]; decide)
  rw [hcant0, claves_numeradas_length, Nat.zero_add] at hcant
  obtain ⟨hinv, _⟩ := ha.inv
  have hcap : T.capacidad = 7080078125 := he.capacidad_grande T hinv.cantidad_le hcant
  obtain ⟨i, c, hi, ho, hk, _⟩ :=
    (hasoc [110] 0).mpr (Or.inr (claves_numeradas_n 1416015626 (by decide)))
  have hlen : 5394040381 < T.tabla.length := by
    rw [hinv.largo, hcap]
    decide
  have hget : T.tabla[5394040381]? = some (T.tabla[5394040381]) := List.getElem?_eq_getElem hlen
  have hvac : (T.tabla[5394040381]).estado = VACIO :=
    hinv.vacio_alto T hsb 5394040381 _ hget (by rw [hcap, hcant]; decide)
  refine ⟨T, hT 0, ha, hcap, i, c, hi, ho, hk, by rw [hcap]; rfl, ⟨_, hget, hvac⟩, ?_⟩
  rintro ⟨j, _, hq, ⟨c2, hc2, ho2, _⟩, hpas⟩
  cases j with
  | zero =>
    rw [Nat.add_zero, hcap, Nat.mod_eq_of_lt (by decide)] at hq
    rw [← hq, hget] at hc2
    cases hc2
    rw [hvac] at ho2
    cases ho2
  | succ j =>
    obtain ⟨c3, hc3, hne⟩ := hpas 0 (by omega)
    rw [Nat.add_zero, hcap, Nat.mod_eq_of_lt (by decide), hget] at hc3
    cases hc3
    exact hne hvac

end Hash
